import Mathlib

/-!
# Verification of the duplicate-file finder

This development embeds the two scan engines of the repository:

* `remove-duplicates.py`, `find_duplicates.worker` — the in-memory variant
  (Python dictionaries for the size groups, the per-group hash table and the
  duplicate map, one shared `scanned` counter across both phases);
* `duplicate_finder.py`, `_run_find_duplicates` with `_scan_files`,
  `_hash_files` and `_find_duplicates_from_db` — the staged SQLite variant.

The embedding is a deterministic interpreter over an abstract file system.
Files are given by an enumeration (`os.walk` yields one list of file paths per
directory) together with two partial maps: `size` models `os.path.getsize`
(`none` = the call raises) and `content` models reading the file's bytes for
`hash_file` (`none` = opening/reading raises).  SHA-256 is modelled by taking a
file's digest to be its byte content itself (the design treats equal digests
as equal content, so the digest function is injective in the model).

The cooperative cancellation flag (`threading.Event`, set once by the caller
and never cleared during a session) is modelled by `stopAt : Option Nat`: the
worker's i-th poll of the flag (counting from 0) reads `true` iff
`stopAt = some s` with `s ≤ i`.  A session-level unexpected error is modelled
by letting the progress callback raise: `faultAt = some k` makes the k-th
invocation of `update_progress` raise.  In both workers `update_progress` is
called outside every per-item `try`, so such an exception propagates to the
session level: the staged variant catches it in `_run_find_duplicates`'s
`except` block, the in-memory worker has no handler and the thread dies.
-/

namespace RemDup

/-- File paths as character lists (a path may contain a comma, which matters
for the staged variant's `GROUP_CONCAT`/`split(",")` round trip). -/
abbrev Path := List Char

/-- File contents as byte lists; also used as the digest in the model. -/
abbrev Content := List Nat

/-- The abstract, static file system seen by one scan session. -/
structure FS where
  /-- `os.walk`: one list of regular-file paths per visited directory,
  in traversal order. -/
  walk : List (List Path)
  /-- `os.path.getsize`; `none` means the call raises for that path. -/
  size : Path → Option Nat
  /-- the bytes read by `hash_file`; `none` means the read raises. -/
  content : Path → Option Content

/-- All enumerated file paths, in enumeration order. -/
def FS.allFiles (fs : FS) : List Path := fs.walk.flatten

/-- A static, consistent tree: enumerated paths are distinct, and a readable
file's reported size is the length of its bytes. -/
def FS.wf (fs : FS) : Prop :=
  fs.allFiles.Nodup ∧ ∀ p c, fs.content p = some c → fs.size p = some c.length

/-- Output lines, one constructor per `output_callback` call site. -/
inductive Line
  /-- `"[Scanning] <path>"` (in-memory variant, per file) -/
  | scanLine (p : Path)
  /-- `"[Error] <path> - <e>"` (size query raised) -/
  | sizeErr (p : Path)
  /-- `"[Error] Hashing <path> - <e>"` (hashing raised) -/
  | hashErr (p : Path)
  /-- `"[Cancelled] Scanning stopped."` -/
  | cancelledLine
  /-- `"[Scanning] Collecting file list..."` (staged) -/
  | collectLine
  /-- `"[Scanning] Finished scanning N files."` (staged) -/
  | finishedScan (n : Nat)
  /-- `"[Hashing] Hashing files with duplicate sizes..."` (staged) -/
  | hashingStart
  /-- `"[Hashing] Group i / N (size: s)"` (staged) -/
  | groupLine (i n s : Nat)
  /-- `"[Hashing] i / n - <path>"` (staged) -/
  | hashFileLine (i n : Nat) (p : Path)
  /-- `"[Hashing] Done hashing files."` (staged) -/
  | hashingDone
  /-- `"[Error] Unexpected error: <e>"` (staged session handler) -/
  | unexpectedErr
  deriving DecidableEq

/-- The environment of one session: the tree plus the externally controlled
cancellation flag and the injected session-level fault (see the file header). -/
structure Env where
  fs : FS
  stopAt : Option Nat
  faultAt : Option Nat

/-- The i-th read of `stop_event.is_set()` (the flag is set once and never
cleared, hence monotone in `i`). -/
def Env.polled (e : Env) (i : Nat) : Bool :=
  match e.stopAt with
  | none => false
  | some s => decide (s ≤ i)

/-- Whether the j-th invocation of `update_progress` raises. -/
def Env.raisesAt (e : Env) (j : Nat) : Bool :=
  match e.faultAt with
  | none => false
  | some k => decide (k = j)

/-- Mutable worker state threaded through the interpreter: poll and progress
invocation counters, the current `scanned` counter, emitted output lines,
delivered progress reports, and a ghost list recording each file processed by
a Phase-2 per-file hashing step (in processing order). -/
@[ext]
structure St where
  poll : Nat
  prog : Nat
  scanned : Nat
  out : List Line
  reps : List (Nat × Nat)
  hashed : List Path

def st0 : St := ⟨0, 0, 0, [], [], []⟩

/-- How one phase of a worker ends: normally with a value, by observing the
cancellation flag, or by an exception escaping the phase. -/
inductive PhRes (α : Type)
  | ok (a : α)
  | stop
  | die

/-- Terminal result of a session.  `completed m` means `done_callback m` was
invoked after a full run; `cancelledR` means the worker returned after
observing the flag (no `done_callback`); `failed` means the staged session
handler caught an exception (`done_callback {}` after an error line); `died`
means an exception escaped the in-memory worker (thread death, no callback). -/
inductive Res
  | completed (m : List (Content × List Path))
  | cancelledR
  | failed
  | died
  deriving DecidableEq

/-- The argument of the `done_callback` invocation, if any. -/
def Res.doneMap : Res → Option (List (Content × List Path))
  | .completed m => some m
  | .failed => some []
  | _ => none

/-- The observable trace of one session. -/
structure Trace where
  out : List Line
  reps : List (Nat × Nat)
  polls : Nat
  progs : Nat
  hashed : List Path
  res : Res

def mkTrace (st : St) (r : Res) : Trace :=
  ⟨st.out, st.reps, st.poll, st.prog, st.hashed, r⟩

/-! ## Association-list primitives (Python `dict` in insertion order) -/

/-- `dict` lookup. -/
def alookup {α β : Type} [DecidableEq α] : List (α × β) → α → Option β
  | [], _ => none
  | (a, b) :: l, x => if a = x then some b else alookup l x

/-- `d.setdefault(k, []).append(p)`: append to the key's list, creating the
key (at the end, i.e. in insertion order) if absent. -/
def insAppend {α : Type} [DecidableEq α] :
    List (α × List Path) → α → Path → List (α × List Path)
  | [], k, p => [(k, [p])]
  | (a, ps) :: l, k, p =>
    if a = k then (a, ps ++ [p]) :: l else (a, ps) :: insAppend l k p

/-- `duplicates.setdefault(h, [hashes[h]]).append(file)`: append `p` to the
digest's list; if the digest is a fresh key, start the list with the anchor. -/
def addDup : List (Content × List Path) → Content → Path → Path →
    List (Content × List Path)
  | [], c, anchor, p => [(c, [anchor, p])]
  | (a, ps) :: l, c, anchor, p =>
    if a = c then (a, ps ++ [p]) :: l else (a, ps) :: addDup l c anchor p

/-! ## The in-memory variant (`remove-duplicates.py`, `find_duplicates.worker`) -/

/-- The `os.walk` loop of the in-memory worker: one poll per directory; on
observing the flag it logs `[Cancelled]` and returns. -/
def walk_mem (e : Env) : List (List Path) → St → St × PhRes (List Path)
  | [], st => (st, .ok [])
  | d :: ds, st =>
    if e.polled st.poll then
      ({ st with poll := st.poll + 1, out := st.out ++ [Line.cancelledLine] }, .stop)
    else
      match walk_mem e ds { st with poll := st.poll + 1 } with
      | (st', .ok rest) => (st', .ok (d ++ rest))
      | (st', .stop) => (st', .stop)
      | (st', .die) => (st', .die)

/-- Phase 1 of the in-memory worker: per file, poll, log `[Scanning]`, query
the size (`[Error]` and skip on failure), bump `scanned`, report progress. -/
def scan_mem (e : Env) (T : Nat) :
    List Path → St → List (Nat × List Path) → St × PhRes (List (Nat × List Path))
  | [], st, fbs => (st, .ok fbs)
  | p :: ps, st, fbs =>
    if e.polled st.poll then
      ({ st with poll := st.poll + 1, out := st.out ++ [Line.cancelledLine] }, .stop)
    else
      let st1 := { st with poll := st.poll + 1, out := st.out ++ [Line.scanLine p] }
      let step := match e.fs.size p with
        | some n => (st1, insAppend fbs n p)
        | none => ({ st1 with out := st1.out ++ [Line.sizeErr p] }, fbs)
      let st2 := step.1
      if e.raisesAt st2.prog then
        ({ st2 with scanned := st2.scanned + 1, prog := st2.prog + 1 }, .die)
      else
        scan_mem e T ps
          { st2 with scanned := st2.scanned + 1, prog := st2.prog + 1,
                     reps := st2.reps ++ [(st2.scanned + 1, T)] } step.2

/-- The inner Phase-2 loop of the in-memory worker over one size group:
per file, poll, hash (per-group dict `hashes`, global dict `duplicates`,
`[Error]` and skip on failure), bump the shared `scanned`, report progress. -/
def hash_group_mem (e : Env) (T : Nat) :
    List Path → St → List (Content × Path) → List (Content × List Path) →
    St × PhRes (List (Content × List Path))
  | [], st, _, dups => (st, .ok dups)
  | p :: ps, st, hs, dups =>
    if e.polled st.poll then
      ({ st with poll := st.poll + 1, out := st.out ++ [Line.cancelledLine] }, .stop)
    else
      let st1 := { st with poll := st.poll + 1, hashed := st.hashed ++ [p] }
      let step := match e.fs.content p with
        | some c =>
          match alookup hs c with
          | some anchor => (st1, hs, addDup dups c anchor p)
          | none => (st1, hs ++ [(c, p)], dups)
        | none => ({ st1 with out := st1.out ++ [Line.hashErr p] }, hs, dups)
      let st2 := step.1
      if e.raisesAt st2.prog then
        ({ st2 with scanned := st2.scanned + 1, prog := st2.prog + 1 }, .die)
      else
        hash_group_mem e T ps
          { st2 with scanned := st2.scanned + 1, prog := st2.prog + 1,
                     reps := st2.reps ++ [(st2.scanned + 1, T)] } step.2.1 step.2.2

/-- Phase 2 of the in-memory worker: per candidate group, poll, reset the
per-group `hashes` dict, run the inner loop. -/
def hash_phase_mem (e : Env) (T : Nat) :
    List (Nat × List Path) → St → List (Content × List Path) →
    St × PhRes (List (Content × List Path))
  | [], st, dups => (st, .ok dups)
  | g :: gs, st, dups =>
    if e.polled st.poll then
      ({ st with poll := st.poll + 1, out := st.out ++ [Line.cancelledLine] }, .stop)
    else
      match hash_group_mem e T g.2 { st with poll := st.poll + 1 } [] dups with
      | (st', .ok dups') => hash_phase_mem e T gs st' dups'
      | (st', .stop) => (st', .stop)
      | (st', .die) => (st', .die)

/-- `{k: v for k, v in files_by_size.items() if len(v) > 1}` (insertion order
is preserved). -/
def potentialDupes (fbs : List (Nat × List Path)) : List (Nat × List Path) :=
  fbs.filter (fun g => 1 < g.2.length)

/-- The whole in-memory worker (`find_duplicates.worker`). -/
def find_duplicates_mem (e : Env) : Trace :=
  match walk_mem e e.fs.walk st0 with
  | (st, .ok allFiles) =>
    match scan_mem e allFiles.length allFiles st [] with
    | (st', .ok fbs) =>
      match hash_phase_mem e allFiles.length (potentialDupes fbs) st' [] with
      | (st'', .ok dups) => mkTrace st'' (.completed dups)
      | (st'', .stop) => mkTrace st'' .cancelledR
      | (st'', .die) => mkTrace st'' .died
    | (st', .stop) => mkTrace st' .cancelledR
    | (st', .die) => mkTrace st' .died
  | (st, .stop) => mkTrace st .cancelledR
  | (st, .die) => mkTrace st .died

/-! ## The staged variant (`duplicate_finder.py`) -/

/-- One row of the `files` table; the rowid is the position in the row list
(rows are appended in insertion order). -/
structure Row where
  path : Path
  size : Nat
  hash : Option Content
  deriving DecidableEq

/-- The `os.walk` loop of `_scan_files`: one poll per directory; on observing
the flag it returns silently (`return 0` — the caller logs `[Cancelled]`). -/
def walk_db (e : Env) : List (List Path) → St → St × PhRes (List Path)
  | [], st => (st, .ok [])
  | d :: ds, st =>
    if e.polled st.poll then
      ({ st with poll := st.poll + 1 }, .stop)
    else
      match walk_db e ds { st with poll := st.poll + 1 } with
      | (st', .ok rest) => (st', .ok (d ++ rest))
      | (st', .stop) => (st', .stop)
      | (st', .die) => (st', .die)

/-- How `_scan_files` returns: completed with the table rows, or an early
`return scanned` after observing the flag (partial rows are retained in the
table), or an exception escaping to `_run_find_duplicates`.  The `Nat` is the
function's return value, used by the caller as `total_files`. -/
inductive SScan
  | done (rows : List Row) (total : Nat)
  | early (rows : List Row) (total : Nat)
  | die

/-- The per-file loop of `_scan_files`: per file, poll (early `return scanned`
when set), insert a `(path, size)` row (`[Error]` and skip when `getsize`
raises), bump `scanned`, report progress.  The periodic `conn.commit()` has no
observable effect in the model and is omitted. -/
def scan_loop_db (e : Env) (T : Nat) : List Path → St → List Row → St × SScan
  | [], st, rows => (st, .done rows T)
  | p :: ps, st, rows =>
    if e.polled st.poll then
      ({ st with poll := st.poll + 1 }, .early rows st.scanned)
    else
      let st1 := { st with poll := st.poll + 1 }
      let step := match e.fs.size p with
        | some n => (st1, rows ++ [Row.mk p n none])
        | none => ({ st1 with out := st1.out ++ [Line.sizeErr p] }, rows)
      let st2 := step.1
      if e.raisesAt st2.prog then
        ({ st2 with scanned := st2.scanned + 1, prog := st2.prog + 1 }, .die)
      else
        scan_loop_db e T ps
          { st2 with scanned := st2.scanned + 1, prog := st2.prog + 1,
                     reps := st2.reps ++ [(st2.scanned + 1, T)] } step.2

/-- `_scan_files`: log the collect line, enumerate (returning 0 with an empty
table if cancelled mid-walk), then run the per-file loop from `scanned = 0`;
on completion log the finished line and return `total_files`. -/
def scan_files_db (e : Env) (st : St) : St × SScan :=
  let stc := { st with out := st.out ++ [Line.collectLine] }
  match walk_db e e.fs.walk stc with
  | (st', .ok allFiles) =>
    match scan_loop_db e allFiles.length allFiles { st' with scanned := 0 } [] with
    | (st'', .done rows total) =>
      ({ st'' with out := st''.out ++ [Line.finishedScan total] }, .done rows total)
    | (st'', .early rows total) => (st'', .early rows total)
    | (st'', .die) => (st'', .die)
  | (st', .stop) => (st', .early [] 0)
  | (st', .die) => (st', .die)

/-- Whether `_scan_files` returned early because of the flag. -/
def SScan.isEarly : SScan → Prop
  | .early _ _ => True
  | _ => False

/-- `UPDATE files SET hash = ? WHERE path = ?`. -/
def updateHash (rows : List Row) (p : Path) (c : Content) : List Row :=
  rows.map (fun r => if r.path = p then { r with hash := some c } else r)

/-- Distinct values of a list in first-occurrence order.  `GROUP BY` without
`ORDER BY` has unspecified result order in SQL; the model fixes first-insertion
order.  No claim below depends on this order: the final table contents, the
progress report values and the delivered map are the same for any order. -/
def firstOccur {α : Type} [DecidableEq α] (l : List α) : List α :=
  l.foldl (fun acc n => if n ∈ acc then acc else acc ++ [n]) []

/-- `SELECT size FROM files GROUP BY size HAVING COUNT(*) > 1`. -/
def candSizes (rows : List Row) : List Nat :=
  (firstOccur (rows.map (·.size))).filter
    (fun n => 1 < (rows.filter (fun r => r.size = n)).length)

/-- How `_hash_files` returns: normally, by `return` after observing the flag
(the partially updated table remains), or by an escaping exception. -/
inductive SHash
  | ok (rows : List Row)
  | stopped (rows : List Row)
  | die

/-- Whether `_hash_files` returned after observing the flag. -/
def SHash.isStopped : SHash → Prop
  | .stopped _ => True
  | _ => False

/-- The per-file loop of `_hash_files` over one size group: per file, poll
(silent `return` when set), log the file line, hash and `UPDATE` the row
(`[Error]` and skip when hashing raises), bump the phase-local `scanned`,
report progress against the Phase-1 `total_files`. -/
def hash_loop_db (e : Env) (T gi gn fn : Nat) :
    List Path → Nat → St → List Row → St × SHash
  | [], _, st, rows => (st, .ok rows)
  | p :: ps, i, st, rows =>
    if e.polled st.poll then
      ({ st with poll := st.poll + 1 }, .stopped rows)
    else
      let st1 := { st with poll := st.poll + 1,
                           out := st.out ++ [Line.hashFileLine i fn p],
                           hashed := st.hashed ++ [p] }
      let step := match e.fs.content p with
        | some c => (st1, updateHash rows p c)
        | none => ({ st1 with out := st1.out ++ [Line.hashErr p] }, rows)
      let st2 := step.1
      if e.raisesAt st2.prog then
        ({ st2 with scanned := st2.scanned + 1, prog := st2.prog + 1 }, .die)
      else
        hash_loop_db e T gi gn fn ps (i + 1)
          { st2 with scanned := st2.scanned + 1, prog := st2.prog + 1,
                     reps := st2.reps ++ [(st2.scanned + 1, T)] } step.2

/-- The group loop of `_hash_files`: per candidate size, poll (silent `return`
when set), log the group line, `SELECT path FROM files WHERE size = ?` against
the current table, run the per-file loop. -/
def hash_groups_db (e : Env) (T gn : Nat) :
    List Nat → Nat → St → List Row → St × SHash
  | [], _, st, rows => (st, .ok rows)
  | s :: ss, gi, st, rows =>
    if e.polled st.poll then
      ({ st with poll := st.poll + 1 }, .stopped rows)
    else
      let grp := (rows.filter (fun r => r.size = s)).map (·.path)
      let st1 := { st with poll := st.poll + 1,
                           out := st.out ++ [Line.groupLine (gi + 1) gn s] }
      match hash_loop_db e T (gi + 1) gn grp.length grp 1 st1 rows with
      | (st2, .ok rows') => hash_groups_db e T gn ss (gi + 1) st2 rows'
      | (st2, .stopped rows') => (st2, .stopped rows')
      | (st2, .die) => (st2, .die)

/-- `_hash_files`: log the start line, compute the candidate sizes, run the
group loop with a fresh phase-local `scanned = 0`; on completion log the done
line. -/
def hash_files_db (e : Env) (T : Nat) (st : St) (rows : List Row) : St × SHash :=
  let sts := { st with out := st.out ++ [Line.hashingStart] }
  let sgs := candSizes rows
  match hash_groups_db e T sgs.length sgs 0 { sts with scanned := 0 } rows with
  | (st', .ok rows') => ({ st' with out := st'.out ++ [Line.hashingDone] }, .ok rows')
  | (st', .stopped rows') => (st', .stopped rows')
  | (st', .die) => (st', .die)

/-! The two `GROUP_CONCAT`/`split(",")` primitives of
`_find_duplicates_from_db`. -/

/-- `GROUP_CONCAT(path)` with SQLite's default separator `','`. -/
def joinComma : List Path → Path
  | [] => []
  | [p] => p
  | p :: q :: ps => p ++ ',' :: joinComma (q :: ps)

/-- Python's `paths_str.split(",")`. -/
def splitComma : Path → List Path
  | [] => [[]]
  | c :: cs =>
    if c = ',' then [] :: splitComma cs
    else
      match splitComma cs with
      | [] => [[c]]
      | q :: qs => (c :: q) :: qs

/-- `SELECT hash ... WHERE hash IS NOT NULL GROUP BY hash HAVING COUNT(*) > 1`
(distinct digests, modelled in first-occurrence order — see `firstOccur`). -/
def dupHashes (rows : List Row) : List Content :=
  (firstOccur (rows.filterMap (·.hash))).filter
    (fun c => 1 < (rows.filter (fun r => r.hash = some c)).length)

/-- `_find_duplicates_from_db`: the delivered map, one entry per duplicated
digest; the member list is the comma-join of the group's paths split back on
commas (faithful to `GROUP_CONCAT(path)` + `paths_str.split(",")`).  Within a
digest the paths appear in rowid order (the `idx_hash` index scan yields rows
of equal hash in rowid order). -/
def find_duplicates_from_db (rows : List Row) : List (Content × List Path) :=
  (dupHashes rows).map (fun c =>
    (c, splitComma (joinComma
          ((rows.filter (fun r => r.hash = some c)).map (·.path)))))

/-- The tail of `_run_find_duplicates` after `_hash_files`: a final flag check
(`[Cancelled]` and return when set), otherwise compute the map from the table
and invoke `done_callback`. -/
def after_hash_db (e : Env) (st : St) (rows : List Row) : Trace :=
  if e.polled st.poll then
    mkTrace { st with poll := st.poll + 1, out := st.out ++ [Line.cancelledLine] }
      .cancelledR
  else
    mkTrace { st with poll := st.poll + 1 } (.completed (find_duplicates_from_db rows))

/-- `_run_find_duplicates`: scan, flag check, hash, flag check, deliver; any
exception reaching the session level is caught, `[Error] Unexpected error` is
logged and `done_callback({})` is invoked (result `failed`). -/
def run_find_duplicates_db (e : Env) : Trace :=
  match scan_files_db e st0 with
  | (st, .done rows total) =>
    if e.polled st.poll then
      mkTrace { st with poll := st.poll + 1, out := st.out ++ [Line.cancelledLine] }
        .cancelledR
    else
      match hash_files_db e total { st with poll := st.poll + 1 } rows with
      | (st', .ok rows') => after_hash_db e st' rows'
      | (st', .stopped rows') => after_hash_db e st' rows'
      | (st', .die) =>
        mkTrace { st' with out := st'.out ++ [Line.unexpectedErr] } .failed
  | (st, .early rows total) =>
    if e.polled st.poll then
      mkTrace { st with poll := st.poll + 1, out := st.out ++ [Line.cancelledLine] }
        .cancelledR
    else
      match hash_files_db e total { st with poll := st.poll + 1 } rows with
      | (st', .ok rows') => after_hash_db e st' rows'
      | (st', .stopped rows') => after_hash_db e st' rows'
      | (st', .die) =>
        mkTrace { st' with out := st'.out ++ [Line.unexpectedErr] } .failed
  | (st, .die) =>
    mkTrace { st with out := st.out ++ [Line.unexpectedErr] } .failed

/-! ## Concrete trees used in counterexamples and witnesses -/

/-- Path `"a,b"` — a legal file name containing a comma. -/
def pA : Path := ['a', ',', 'b']

/-- Path `"c"`. -/
def pB : Path := ['c']

/-- Contents of the comma tree: the files `"a,b"` and `"c"`, byte-identical. -/
def contComma : Path → Option Content :=
  fun p => if p = pA then some [7] else if p = pB then some [7] else none

/-- One directory holding `"a,b"` and `"c"` with identical single-byte
content; sizes are the content lengths. -/
def fsComma : FS :=
  ⟨[[pA, pB]], fun p => (contComma p).map List.length, contComma⟩

/-- Contents of the plain duplicate tree: `"a"` and `"b"`, byte-identical. -/
def contDup : Path → Option Content :=
  fun p => if p = ['a'] then some [7] else if p = ['b'] then some [7] else none

/-- One directory holding `"a"` and `"b"` with identical content. -/
def fsDup : FS :=
  ⟨[[['a'], ['b']]], fun p => (contDup p).map List.length, contDup⟩

/-- Contents of the one-file tree. -/
def contOne : Path → Option Content :=
  fun p => if p = ['a'] then some [1] else none

/-- One directory holding the single file `"a"`. -/
def fsOne : FS :=
  ⟨[[['a']]], fun p => (contOne p).map List.length, contOne⟩

/-- Path `"x,b"` — its comma makes the fragment `"b"` appear when the joined
group is split. -/
def pX : Path := ['x', ',', 'b']

/-- Path `"b"` — a file whose content read raises. -/
def pb : Path := ['b']

/-- Contents of the fragment tree: `"x,b"` and `"c"` are byte-identical,
reading `"b"` raises. -/
def contFrag : Path → Option Content :=
  fun p => if p = pX then some [7] else if p = pB then some [7] else none

/-- One directory holding `"x,b"`, `"c"` (content `[7]` each) and `"b"`
(size 1, content read raises). -/
def fsFrag : FS :=
  ⟨[[pX, pB, pb]], fun p => if p = pb then some 1 else (contFrag p).map List.length,
    contFrag⟩

/-- Contents of the comma-free error tree: `"b"` and `"c"` are byte-identical,
everything else raises on read. -/
def contErr : Path → Option Content :=
  fun p => if p = ['b'] then some [7] else if p = ['c'] then some [7] else none

/-- One directory holding `"a"` (size query raises), `"b"` and `"c"` (content
`[7]` each) and `"d"` (size 1, content read raises). -/
def fsErr : FS :=
  ⟨[[['a'], ['b'], ['c'], ['d']]],
    fun p =>
      if p = ['a'] then none
      else if p = ['d'] then some 1
      else (contErr p).map List.length,
    contErr⟩

/-! ## Canonical descriptions of the result

Reference functions the final duplicate maps are proved equal to:
`dupPaths fs c` is the list of enumerated files whose bytes are `c`, in
enumeration order — its head is the first file whose digest equals `c` in
either variant's hashing order. -/

/-- The enumerated files sharing the reported size `n`, in enumeration order
(the members of the size group for `n`, in both variants). -/
def sizedAs (fs : FS) (n : Nat) : List Path :=
  fs.allFiles.filter (fun p => decide (fs.size p = some n))

/-- The enumerated files with byte content `c`, in enumeration order. -/
def dupPaths (fs : FS) (c : Content) : List Path :=
  fs.allFiles.filter (fun p => decide (fs.content p = some c))

/-- The canonical duplicate map as a lookup function: digest `c` maps to its
(≥ 2) enumeration-ordered files, absent otherwise. -/
def canonLookup (fs : FS) (c : Content) : Option (List Path) :=
  if 2 ≤ (dupPaths fs c).length then some (dupPaths fs c) else none

/-! ## Pure descriptions of the interpreter's data flow

With `stopAt = none` and `faultAt = none` every poll reads `false` and no
progress call raises, so each phase reduces to a pure fold over its input
list.  The following functions are those folds; the lemmas below prove the
interpreters equal to them and then characterise the folds. -/

/-- Progress reports `(start, T), (start+1, T), …` of length `len`. -/
def ramp (start len T : Nat) : List (Nat × Nat) :=
  (List.range' start len).map (fun i => (i, T))

/-- The output lines of an uncancelled Phase 1 of the in-memory worker. -/
def scanOuts (fs : FS) : List Path → List Line
  | [] => []
  | p :: ps =>
    (Line.scanLine p ::
      (match fs.size p with | some _ => [] | none => [Line.sizeErr p])) ++
      scanOuts fs ps

/-- The size-grouping fold of Phase 1 (both variants group identically). -/
def sizeFold (fs : FS) : List Path → List (Nat × List Path) → List (Nat × List Path)
  | [], fbs => fbs
  | p :: ps, fbs =>
    sizeFold fs ps
      (match fs.size p with | some n => insAppend fbs n p | none => fbs)

/-- The per-group hashing fold of the in-memory Phase 2: threads the
per-group `hashes` dict and the global `duplicates` dict. -/
def groupFold (fs : FS) :
    List Path → List (Content × Path) → List (Content × List Path) →
    List (Content × Path) × List (Content × List Path)
  | [], hs, dups => (hs, dups)
  | p :: ps, hs, dups =>
    groupFold fs ps
      (match fs.content p with
        | some c =>
          match alookup hs c with
          | some anchor => (hs, addDup dups c anchor p)
          | none => (hs ++ [(c, p)], dups)
        | none => (hs, dups)).1
      (match fs.content p with
        | some c =>
          match alookup hs c with
          | some anchor => (hs, addDup dups c anchor p)
          | none => (hs ++ [(c, p)], dups)
        | none => (hs, dups)).2

/-- The group-list fold of the in-memory Phase 2. -/
def dupsFold (fs : FS) :
    List (Nat × List Path) → List (Content × List Path) → List (Content × List Path)
  | [], dups => dups
  | g :: gs, dups => dupsFold fs gs (groupFold fs g.2 [] dups).2

/-- The duplicate map computed by a full, uncancelled in-memory run. -/
def pureMemMap (fs : FS) : List (Content × List Path) :=
  dupsFold fs (potentialDupes (sizeFold fs fs.allFiles [])) []

/-- The hashing-error lines of one in-memory Phase-2 group. -/
def hashErrOuts (fs : FS) : List Path → List Line
  | [] => []
  | p :: ps =>
    (match fs.content p with | some _ => [] | none => [Line.hashErr p]) ++
      hashErrOuts fs ps

/-- The output lines of an uncancelled in-memory Phase 2. -/
def groupsOutsMem (fs : FS) : List (Nat × List Path) → List Line
  | [] => []
  | g :: gs => hashErrOuts fs g.2 ++ groupsOutsMem fs gs

/-- The row-insertion fold of `_scan_files` (size failures insert nothing). -/
def rowFold (fs : FS) : List Path → List Row → List Row
  | [], rows => rows
  | p :: ps, rows =>
    rowFold fs ps
      (match fs.size p with | some n => rows ++ [Row.mk p n none] | none => rows)

/-- The table built by a full, uncancelled `_scan_files`. -/
def scanRows (fs : FS) : List Row := rowFold fs fs.allFiles []

/-- The size-error lines of an uncancelled `_scan_files`. -/
def sizeErrOuts (fs : FS) : List Path → List Line
  | [] => []
  | p :: ps =>
    (match fs.size p with | some _ => [] | none => [Line.sizeErr p]) ++
      sizeErrOuts fs ps

/-- The table-update fold of one `_hash_files` group. -/
def hashRowsFold (fs : FS) : List Path → List Row → List Row
  | [], rows => rows
  | p :: ps, rows =>
    hashRowsFold fs ps
      (match fs.content p with | some c => updateHash rows p c | none => rows)

/-- The output lines of one uncancelled `_hash_files` group's file loop. -/
def hashOutsDb (fs : FS) (fn : Nat) : List Path → Nat → List Line
  | [], _ => []
  | p :: ps, i =>
    (Line.hashFileLine i fn p ::
      (match fs.content p with | some _ => [] | none => [Line.hashErr p])) ++
      hashOutsDb fs fn ps (i + 1)

/-- The table-update fold of the whole `_hash_files` group loop. -/
def groupsRowsFold (fs : FS) : List Nat → List Row → List Row
  | [], rows => rows
  | s :: ss, rows =>
    groupsRowsFold fs ss
      (hashRowsFold fs ((rows.filter (fun r => r.size = s)).map (·.path)) rows)

/-- The output lines of an uncancelled `_hash_files` group loop. -/
def groupsOutsDb (fs : FS) (gn : Nat) : List Nat → Nat → List Row → List Line
  | [], _, _ => []
  | s :: ss, gi, rows =>
    (Line.groupLine (gi + 1) gn s ::
      hashOutsDb fs ((rows.filter (fun r => r.size = s)).map (·.path)).length
        ((rows.filter (fun r => r.size = s)).map (·.path)) 1) ++
      groupsOutsDb fs gn ss (gi + 1)
        (hashRowsFold fs ((rows.filter (fun r => r.size = s)).map (·.path)) rows)

/-- The files of `l` whose size query succeeds, in order. -/
def okFiles_on (fs : FS) (l : List Path) : List Path :=
  l.filter (fun p => (fs.size p).isSome)

/-- The enumerated files whose size query succeeds, in enumeration order. -/
def okFiles (fs : FS) : List Path :=
  okFiles_on fs fs.allFiles

/-- The rows inserted for a list of scanned paths (size failures skipped). -/
def mkRows (fs : FS) (l : List Path) : List Row :=
  l.filterMap (fun p => (fs.size p).map (fun n => Row.mk p n none))

/-- The effect of the whole hashing phase on one row: rows in a candidate
size group get their hash set to their content (unless reading raises). -/
def markRow (fs : FS) (S : List Nat) (r : Row) : Row :=
  if r.size ∈ S then
    match fs.content r.path with
    | some c => { r with hash := some c }
    | none => r
  else r

/-- The files processed by an uncancelled `_hash_files` group loop, in
processing order (each candidate group's members in rowid order). -/
def groupsFiles (fs : FS) : List Nat → List Row → List Path
  | [], _ => []
  | s :: ss, rows =>
    ((rows.filter (fun r => r.size = s)).map (·.path)) ++
      groupsFiles fs ss
        (hashRowsFold fs ((rows.filter (fun r => r.size = s)).map (·.path)) rows)

/-- The final table of a full, uncancelled staged run. -/
def pureDbRows (fs : FS) : List Row :=
  groupsRowsFold fs (candSizes (scanRows fs)) (scanRows fs)

/-- The duplicate map delivered by a full, uncancelled staged run. -/
def pureDbMap (fs : FS) : List (Content × List Path) :=
  find_duplicates_from_db (pureDbRows fs)

example :
    (find_duplicates_mem ⟨fsDup, none, none⟩).res =
      .completed [([7], [['a'], ['b']])] := by decide

example :
    (find_duplicates_mem ⟨fsDup, none, none⟩).reps =
      [(1, 2), (2, 2), (3, 2), (4, 2)] := by decide

example :
    (run_find_duplicates_db ⟨fsDup, none, none⟩).res =
      .completed [([7], [['a'], ['b']])] := by decide

example :
    (run_find_duplicates_db ⟨fsDup, none, none⟩).reps =
      [(1, 2), (2, 2), (1, 2), (2, 2)] := by decide

example :
    (find_duplicates_mem ⟨fsComma, none, none⟩).res =
      .completed [([7], [pA, pB])] := by decide

example :
    (run_find_duplicates_db ⟨fsComma, none, none⟩).res =
      .completed [([7], [['a'], ['b'], ['c']])] := by decide

example :
    (find_duplicates_mem ⟨fsOne, none, none⟩).res = .completed [] ∧
    (find_duplicates_mem ⟨fsOne, none, none⟩).reps = [(1, 1)] := by decide

example :
    (find_duplicates_mem ⟨fsOne, some 0, none⟩).res = .cancelledR ∧
    (run_find_duplicates_db ⟨fsOne, some 0, none⟩).res = .cancelledR := by decide

example :
    (find_duplicates_mem ⟨fsOne, none, some 0⟩).res = .died ∧
    (run_find_duplicates_db ⟨fsOne, none, some 0⟩).res = .failed := by decide

/-! ## `splitComma` / `joinComma` lemmas -/

theorem splitComma_ne_nil (p : Path) : splitComma p ≠ [] := by
  induction p with
  | nil => simp [splitComma]
  | cons c cs ih =>
    simp only [splitComma]
    split
    · simp
    · cases h : splitComma cs with
      | nil => simp
      | cons q qs => simp

theorem splitComma_length_pos (p : Path) : 1 ≤ (splitComma p).length := by
  have := splitComma_ne_nil p
  cases hs : splitComma p with
  | nil => exact absurd hs this
  | cons a l => simp

theorem splitComma_no_comma (p : Path) (h : ',' ∉ p) : splitComma p = [p] := by
  induction p with
  | nil => simp [splitComma]
  | cons c cs ih =>
    simp only [List.mem_cons, not_or] at h
    have hc : ¬ c = ',' := fun hh => h.1 hh.symm
    simp only [splitComma, if_neg hc, ih h.2]

theorem splitComma_append (x y : Path) :
    splitComma (x ++ ',' :: y) = splitComma x ++ splitComma y := by
  induction x with
  | nil => simp [splitComma]
  | cons c cs ih =>
    simp only [List.cons_append, splitComma, ih]
    by_cases hc : c = ','
    · simp [hc, ih]
    · simp only [if_neg hc]
      cases h : splitComma cs with
      | nil => exact absurd h (splitComma_ne_nil cs)
      | cons q qs => simp only [List.append_eq]; rw [ih, h]; simp

theorem splitComma_joinComma (ps : List Path) (h : ps ≠ [])
    (hc : ∀ p ∈ ps, ',' ∉ p) : splitComma (joinComma ps) = ps := by
  induction ps with
  | nil => exact absurd rfl h
  | cons p qs ih =>
    cases qs with
    | nil =>
      simp only [joinComma]
      exact splitComma_no_comma p (hc p (by simp))
    | cons q rs =>
      simp only [joinComma, splitComma_append]
      rw [splitComma_no_comma p (hc p (by simp)),
        ih (by simp) (fun r hr => hc r (by simp [hr]))]
      simp

theorem length_splitComma_joinComma (ps : List Path) (h : ps ≠ []) :
    ps.length ≤ (splitComma (joinComma ps)).length := by
  induction ps with
  | nil => exact absurd rfl h
  | cons p qs ih =>
    cases qs with
    | nil => simpa using splitComma_length_pos (joinComma [p])
    | cons q rs =>
      simp only [joinComma, splitComma_append, List.length_append, List.length_cons]
      have h1 := splitComma_length_pos p
      have h2 := ih (by simp)
      simp only [List.length_cons] at h2
      omega

/-! ## Association-list lemmas -/

theorem alookup_insAppend {α : Type} [DecidableEq α]
    (m : List (α × List Path)) (k : α) (p : Path) (x : α) :
    alookup (insAppend m k p) x =
      if k = x then some ((alookup m k).getD [] ++ [p]) else alookup m x := by
  induction m with
  | nil =>
    by_cases h : k = x <;> simp [insAppend, alookup, h]
  | cons e l ih =>
    obtain ⟨a, ps⟩ := e
    by_cases hak : a = k
    · subst hak
      by_cases hax : a = x <;> simp [insAppend, alookup, hax]
    · have hka : ¬ k = a := fun h => hak h.symm
      by_cases hax : a = x
      · subst hax
        simp [insAppend, alookup, hak, hka]
      · simp [insAppend, alookup, hak, hax, ih]

theorem alookup_addDup (d : List (Content × List Path)) (c : Content)
    (a p : Path) (x : Content) :
    alookup (addDup d c a p) x =
      if c = x then some ((alookup d c).getD [a] ++ [p]) else alookup d x := by
  induction d with
  | nil =>
    by_cases h : c = x <;> simp [addDup, alookup, h]
  | cons e l ih =>
    obtain ⟨b, ps⟩ := e
    by_cases hbc : b = c
    · subst hbc
      by_cases hbx : b = x <;> simp [addDup, alookup, hbx]
    · have hcb : ¬ c = b := fun h => hbc h.symm
      by_cases hbx : b = x
      · subst hbx
        simp [addDup, alookup, hbc, hcb]
      · simp [addDup, alookup, hbc, hbx, ih]

theorem alookup_eq_none {α β : Type} [DecidableEq α]
    (m : List (α × β)) (x : α) (h : x ∉ m.map Prod.fst) : alookup m x = none := by
  induction m with
  | nil => rfl
  | cons e l ih =>
    simp only [List.map_cons, List.mem_cons, not_or] at h
    have he : ¬ e.1 = x := fun hh => h.1 hh.symm
    simp [alookup, he, ih h.2]

theorem alookup_isSome_mem {α β : Type} [DecidableEq α]
    (m : List (α × β)) (x : α) (v : β) (h : alookup m x = some v) :
    x ∈ m.map Prod.fst := by
  induction m with
  | nil => simp [alookup] at h
  | cons e l ih =>
    simp only [alookup] at h
    by_cases he : e.1 = x
    · simp [he]
    · simp only [if_neg he] at h
      simp [ih h]

theorem mem_alookup {α β : Type} [DecidableEq α]
    (m : List (α × β)) (h : (m.map Prod.fst).Nodup) (k : α) (v : β)
    (hm : (k, v) ∈ m) : alookup m k = some v := by
  induction m with
  | nil => simp at hm
  | cons e l ih =>
    simp only [List.map_cons, List.nodup_cons] at h
    rcases List.mem_cons.mp hm with he | hl
    · subst he; simp [alookup]
    · have hk : e.1 ≠ k := by
        intro hh
        exact h.1 (hh ▸ (List.mem_map.mpr ⟨(k, v), hl, rfl⟩))
      simp [alookup, hk, ih h.2 hl]

theorem alookup_mem {α β : Type} [DecidableEq α]
    (m : List (α × β)) (k : α) (v : β) (h : alookup m k = some v) : (k, v) ∈ m := by
  induction m with
  | nil => simp [alookup] at h
  | cons e l ih =>
    obtain ⟨a, b⟩ := e
    simp only [alookup] at h
    by_cases he : a = k
    · simp only [if_pos he] at h
      subst he
      obtain rfl : b = v := Option.some.inj h
      exact List.mem_cons_self _ _
    · simp only [if_neg he] at h
      exact List.mem_cons_of_mem _ (ih h)

theorem keys_insAppend {α : Type} [DecidableEq α]
    (m : List (α × List Path)) (k : α) (p : Path) :
    (insAppend m k p).map Prod.fst =
      if k ∈ m.map Prod.fst then m.map Prod.fst else m.map Prod.fst ++ [k] := by
  induction m with
  | nil => simp [insAppend]
  | cons e l ih =>
    obtain ⟨a, ps⟩ := e
    by_cases hak : a = k
    · simp [insAppend, hak]
    · by_cases hk : k ∈ l.map Prod.fst <;>
        simp [insAppend, hak, Ne.symm hak, hk, ih]

theorem keys_addDup (d : List (Content × List Path)) (c : Content) (a p : Path) :
    (addDup d c a p).map Prod.fst =
      if c ∈ d.map Prod.fst then d.map Prod.fst else d.map Prod.fst ++ [c] := by
  induction d with
  | nil => simp [addDup]
  | cons e l ih =>
    obtain ⟨b, ps⟩ := e
    by_cases hbc : b = c
    · simp [addDup, hbc]
    · by_cases hc : c ∈ l.map Prod.fst <;>
        simp [addDup, hbc, Ne.symm hbc, hc, ih]

theorem nodup_keys_insAppend {α : Type} [DecidableEq α]
    (m : List (α × List Path)) (k : α) (p : Path)
    (h : (m.map Prod.fst).Nodup) : ((insAppend m k p).map Prod.fst).Nodup := by
  rw [keys_insAppend]
  by_cases hk : k ∈ m.map Prod.fst
  · simpa [hk]
  · simpa [hk] using List.Nodup.append h (by simp) (by simpa using hk)

theorem nodup_keys_addDup (d : List (Content × List Path)) (c : Content)
    (a p : Path) (h : (d.map Prod.fst).Nodup) :
    ((addDup d c a p).map Prod.fst).Nodup := by
  rw [keys_addDup]
  by_cases hc : c ∈ d.map Prod.fst
  · simpa [hc]
  · simpa [hc] using List.Nodup.append h (by simp) (by simpa using hc)

theorem alookup_map_fn {α β : Type} [DecidableEq α]
    (L : List α) (f : α → β) (h : L.Nodup) (x : α) :
    alookup (L.map (fun c => (c, f c))) x = if x ∈ L then some (f x) else none := by
  induction L with
  | nil => simp [alookup]
  | cons a l ih =>
    simp only [List.nodup_cons] at h
    by_cases hax : a = x
    · subst hax
      simp [alookup, h.1]
    · simp [alookup, hax, Ne.symm hax, ih h.2]

/-! ## `firstOccur` lemmas -/

theorem firstOccur_spec {α : Type} [DecidableEq α] (l : List α) :
    ∀ acc : List α, acc.Nodup →
      (List.foldl (fun acc n => if n ∈ acc then acc else acc ++ [n]) acc l).Nodup ∧
      ∀ x, (x ∈ List.foldl (fun acc n => if n ∈ acc then acc else acc ++ [n]) acc l ↔
        x ∈ acc ∨ x ∈ l) := by
  induction l with
  | nil => intro acc h; simpa
  | cons a l ih =>
    intro acc h
    by_cases ha : a ∈ acc
    · have := ih acc h
      simp only [List.foldl_cons, if_pos ha]
      refine ⟨this.1, fun x => ?_⟩
      rw [this.2 x]
      constructor
      · rintro (hx | hx) <;> simp [hx]
      · rintro (hx | hx)
        · simp [hx]
        · rcases List.mem_cons.mp hx with rfl | hx
          · exact Or.inl ha
          · exact Or.inr hx
    · have hacc : (acc ++ [a]).Nodup :=
        List.Nodup.append h (by simp) (by simpa using ha)
      have := ih (acc ++ [a]) hacc
      simp only [List.foldl_cons, if_neg ha]
      refine ⟨this.1, fun x => ?_⟩
      rw [this.2 x]
      simp only [List.mem_append, List.mem_singleton, List.mem_cons]
      tauto

theorem firstOccur_nodup {α : Type} [DecidableEq α] (l : List α) :
    (firstOccur l).Nodup :=
  (firstOccur_spec l [] (by simp)).1

theorem mem_firstOccur {α : Type} [DecidableEq α] (l : List α) (x : α) :
    x ∈ firstOccur l ↔ x ∈ l := by
  have := (firstOccur_spec l [] (by simp)).2 x
  simpa [firstOccur] using this

/-! ## Disjoint counting -/

theorem filter_length_split {α : Type} (p : α → Bool) (l : List α) :
    (l.filter p).length + (l.filter (fun a => ! p a)).length = l.length := by
  induction l with
  | nil => rfl
  | cons a l ih =>
    by_cases ha : p a <;> simp [List.filter_cons, ha, ih] <;> omega

theorem sum_filter_count_le {α β : Type} [DecidableEq β] (key : α → β) :
    ∀ (S : List β), S.Nodup → ∀ (l : List α),
      (S.map (fun s => (l.filter (fun a => decide (key a = s))).length)).sum ≤
        l.length := by
  intro S
  induction S with
  | nil => intro _ l; simp
  | cons s S' ih =>
    intro hnd l
    simp only [List.nodup_cons] at hnd
    have hsplit := filter_length_split (fun a => decide (key a = s)) l
    have hrest :
        (S'.map (fun t => (l.filter (fun a => decide (key a = t))).length)).sum ≤
          (l.filter (fun a => ! decide (key a = s))).length := by
      have hmap : S'.map (fun t => (l.filter (fun a => decide (key a = t))).length) =
          S'.map (fun t =>
            ((l.filter (fun a => ! decide (key a = s))).filter
              (fun a => decide (key a = t))).length) := by
        apply List.map_congr_left
        intro t ht
        congr 1
        rw [List.filter_filter]
        apply List.filter_congr
        intro a _
        by_cases hat : key a = t
        · have hts : ¬ t = s := fun hts => hnd.1 (hts ▸ ht)
          have hks : ¬ key a = s := fun hh => hts (hat.symm.trans hh)
          simp [hat, hks, hts]
        · simp [hat]
      rw [hmap]
      exact ih hnd.2 _
    simp only [List.map_cons, List.sum_cons]
    omega

/-! ## Pure-run equations: the in-memory variant with no cancellation and no
fault reduces to its data folds -/

theorem walk_mem_pure (fs : FS) (fa : Option Nat) (ds : List (List Path)) :
    ∀ st : St, walk_mem ⟨fs, none, fa⟩ ds st =
      ({ st with poll := st.poll + ds.length }, .ok ds.flatten) := by
  induction ds with
  | nil =>
    intro st
    simp only [walk_mem, List.length_nil, List.flatten_nil]
    rw [Prod.mk.injEq]
    exact ⟨by ext <;> simp, rfl⟩
  | cons d ds ih =>
    intro st
    simp only [walk_mem, Env.polled, ih]
    rw [Prod.mk.injEq]
    refine ⟨?_, by simp⟩
    apply St.ext
    all_goals ((try simp); (try omega))

theorem scan_mem_pure (fs : FS) (T : Nat) (l : List Path) :
    ∀ (st : St) (fbs : List (Nat × List Path)),
      scan_mem ⟨fs, none, none⟩ T l st fbs =
        ({ st with poll := st.poll + l.length, prog := st.prog + l.length,
                   scanned := st.scanned + l.length,
                   out := st.out ++ scanOuts fs l,
                   reps := st.reps ++ ramp (st.scanned + 1) l.length T },
         .ok (sizeFold fs l fbs)) := by
  induction l with
  | nil =>
    intro st fbs
    simp only [scan_mem, List.length_nil, scanOuts, sizeFold, ramp, List.range'_zero,
      List.map_nil, List.append_nil]
    rw [Prod.mk.injEq]
    exact ⟨by ext <;> simp, rfl⟩
  | cons p ps ih =>
    intro st fbs
    simp only [scan_mem, Env.polled, Env.raisesAt]
    cases h : fs.size p with
    | some n =>
      simp only [h, ih]
      rw [Prod.mk.injEq]
      refine ⟨?_, by simp [sizeFold, h]⟩
      ext <;> simp [scanOuts, h, ramp, List.range'_succ] <;> omega
    | none =>
      simp only [h, ih]
      rw [Prod.mk.injEq]
      refine ⟨?_, by simp [sizeFold, h]⟩
      ext <;> simp [scanOuts, h, ramp, List.range'_succ] <;> omega

theorem ramp_append (s m n T : Nat) :
    ramp s m T ++ ramp (s + m) n T = ramp s (m + n) T := by
  rw [ramp, ramp, ramp, ← List.map_append, List.range'_append_1, Nat.add_comm n m]

theorem hash_group_mem_pure (fs : FS) (T : Nat) (l : List Path) :
    ∀ (st : St) (hs : List (Content × Path)) (dups : List (Content × List Path)),
      hash_group_mem ⟨fs, none, none⟩ T l st hs dups =
        ({ st with poll := st.poll + l.length, prog := st.prog + l.length,
                   scanned := st.scanned + l.length,
                   out := st.out ++ hashErrOuts fs l,
                   reps := st.reps ++ ramp (st.scanned + 1) l.length T,
                   hashed := st.hashed ++ l },
         .ok (groupFold fs l hs dups).2) := by
  induction l with
  | nil =>
    intro st hs dups
    simp only [hash_group_mem, List.length_nil, hashErrOuts, groupFold, ramp,
      List.range'_zero, List.map_nil, List.append_nil]
    rw [Prod.mk.injEq]
    exact ⟨by ext <;> simp, rfl⟩
  | cons p ps ih =>
    intro st hs dups
    simp only [hash_group_mem, Env.polled, Env.raisesAt]
    cases h : fs.content p with
    | some c =>
      cases ha : alookup hs c with
      | some anchor =>
        simp only [h, ha, ih]
        rw [Prod.mk.injEq]
        refine ⟨?_, by simp [groupFold, h, ha]⟩
        ext <;> simp [hashErrOuts, h, ramp, List.range'_succ] <;> omega
      | none =>
        simp only [h, ha, ih]
        rw [Prod.mk.injEq]
        refine ⟨?_, by simp [groupFold, h, ha]⟩
        ext <;> simp [hashErrOuts, h, ramp, List.range'_succ] <;> omega
    | none =>
      simp only [h, ih]
      rw [Prod.mk.injEq]
      refine ⟨?_, by simp [groupFold, h]⟩
      ext <;> simp [hashErrOuts, h, ramp, List.range'_succ] <;> omega

theorem hash_phase_mem_pure (fs : FS) (T : Nat) (gs : List (Nat × List Path)) :
    ∀ (st : St) (dups : List (Content × List Path)),
      hash_phase_mem ⟨fs, none, none⟩ T gs st dups =
        ({ st with poll := st.poll + (gs.length + (gs.map (fun g => g.2.length)).sum),
                   prog := st.prog + (gs.map (fun g => g.2.length)).sum,
                   scanned := st.scanned + (gs.map (fun g => g.2.length)).sum,
                   out := st.out ++ groupsOutsMem fs gs,
                   reps := st.reps ++ ramp (st.scanned + 1) (gs.map (fun g => g.2.length)).sum T,
                   hashed := st.hashed ++ (gs.map (fun g => g.2)).flatten },
         .ok (dupsFold fs gs dups)) := by
  induction gs with
  | nil =>
    intro st dups
    simp only [hash_phase_mem, List.length_nil, groupsOutsMem, dupsFold, ramp,
      List.range'_zero, List.map_nil, List.sum_nil, List.flatten_nil, List.append_nil]
    rw [Prod.mk.injEq]
    exact ⟨by ext <;> simp, rfl⟩
  | cons g gs ih =>
    intro st dups
    simp only [hash_phase_mem, Env.polled, Bool.false_eq_true, ite_false,
      hash_group_mem_pure, ih]
    rw [Prod.mk.injEq]
    refine ⟨?_, by simp [dupsFold]⟩
    apply St.ext <;>
      simp only [groupsOutsMem, List.flatten_cons, List.map_cons, List.sum_cons,
        List.length_cons, List.append_assoc]
    · omega
    · omega
    · omega
    · rw [show st.scanned + g.2.length + 1 = st.scanned + 1 + g.2.length from by
        omega, ramp_append]

/-- A full, uncancelled, fault-free in-memory session: the whole trace. -/
theorem find_duplicates_mem_pure (fs : FS) :
    find_duplicates_mem ⟨fs, none, none⟩ =
      ⟨scanOuts fs fs.allFiles ++
         groupsOutsMem fs (potentialDupes (sizeFold fs fs.allFiles [])),
       ramp 1
         (fs.allFiles.length +
           ((potentialDupes (sizeFold fs fs.allFiles [])).map (fun g => g.2.length)).sum)
         fs.allFiles.length,
       fs.walk.length + fs.allFiles.length +
         (potentialDupes (sizeFold fs fs.allFiles [])).length +
         ((potentialDupes (sizeFold fs fs.allFiles [])).map (fun g => g.2.length)).sum,
       fs.allFiles.length +
         ((potentialDupes (sizeFold fs fs.allFiles [])).map (fun g => g.2.length)).sum,
       ((potentialDupes (sizeFold fs fs.allFiles [])).map (fun g => g.2)).flatten,
       .completed (pureMemMap fs)⟩ := by
  simp only [find_duplicates_mem, walk_mem_pure, scan_mem_pure, hash_phase_mem_pure,
    st0, mkTrace, pureMemMap, FS.allFiles]
  rw [Trace.mk.injEq]
  refine ⟨by simp, ?_, by omega, by omega, by simp, by simp⟩
  simp only [List.nil_append, Nat.zero_add]
  rw [show fs.walk.flatten.length + 1 = 1 + fs.walk.flatten.length from by omega,
    ramp_append]

/-! ## Pure-run equations: the staged variant with no cancellation and no
fault reduces to its data folds -/

theorem walk_db_pure (fs : FS) (fa : Option Nat) (ds : List (List Path)) :
    ∀ st : St, walk_db ⟨fs, none, fa⟩ ds st =
      ({ st with poll := st.poll + ds.length }, .ok ds.flatten) := by
  induction ds with
  | nil =>
    intro st
    simp only [walk_db, List.length_nil, List.flatten_nil]
    rw [Prod.mk.injEq]
    exact ⟨by ext <;> simp, rfl⟩
  | cons d ds ih =>
    intro st
    simp only [walk_db, Env.polled, ih]
    rw [Prod.mk.injEq]
    refine ⟨?_, by simp⟩
    apply St.ext
    all_goals ((try simp); (try omega))

theorem scan_loop_db_pure (fs : FS) (T : Nat) (l : List Path) :
    ∀ (st : St) (rows : List Row),
      scan_loop_db ⟨fs, none, none⟩ T l st rows =
        ({ st with poll := st.poll + l.length, prog := st.prog + l.length,
                   scanned := st.scanned + l.length,
                   out := st.out ++ sizeErrOuts fs l,
                   reps := st.reps ++ ramp (st.scanned + 1) l.length T },
         .done (rowFold fs l rows) T) := by
  induction l with
  | nil =>
    intro st rows
    simp only [scan_loop_db, List.length_nil, sizeErrOuts, rowFold, ramp,
      List.range'_zero, List.map_nil, List.append_nil]
    rw [Prod.mk.injEq]
    exact ⟨by ext <;> simp, rfl⟩
  | cons p ps ih =>
    intro st rows
    simp only [scan_loop_db, Env.polled, Env.raisesAt]
    cases h : fs.size p with
    | some n =>
      simp only [h, ih]
      rw [Prod.mk.injEq]
      refine ⟨?_, by simp [rowFold, h]⟩
      apply St.ext
      all_goals ((try simp [sizeErrOuts, h, ramp, List.range'_succ]); (try omega))
    | none =>
      simp only [h, ih]
      rw [Prod.mk.injEq]
      refine ⟨?_, by simp [rowFold, h]⟩
      apply St.ext
      all_goals ((try simp [sizeErrOuts, h, ramp, List.range'_succ]); (try omega))

theorem scan_files_db_pure (fs : FS) (st : St) :
    scan_files_db ⟨fs, none, none⟩ st =
      ({ st with poll := st.poll + fs.walk.length + fs.allFiles.length,
                 prog := st.prog + fs.allFiles.length,
                 scanned := fs.allFiles.length,
                 out := st.out ++
                   ([Line.collectLine] ++ sizeErrOuts fs fs.allFiles ++
                     [Line.finishedScan fs.allFiles.length]),
                 reps := st.reps ++ ramp 1 fs.allFiles.length fs.allFiles.length },
       .done (scanRows fs) fs.allFiles.length) := by
  simp only [scan_files_db, walk_db_pure, scan_loop_db_pure, scanRows, FS.allFiles]
  rw [Prod.mk.injEq]
  refine ⟨?_, rfl⟩
  apply St.ext
  all_goals simp

theorem hash_loop_db_pure (fs : FS) (T gi gn fn : Nat) (l : List Path) :
    ∀ (i : Nat) (st : St) (rows : List Row),
      hash_loop_db ⟨fs, none, none⟩ T gi gn fn l i st rows =
        ({ st with poll := st.poll + l.length, prog := st.prog + l.length,
                   scanned := st.scanned + l.length,
                   out := st.out ++ hashOutsDb fs fn l i,
                   reps := st.reps ++ ramp (st.scanned + 1) l.length T,
                   hashed := st.hashed ++ l },
         .ok (hashRowsFold fs l rows)) := by
  induction l with
  | nil =>
    intro i st rows
    simp only [hash_loop_db, List.length_nil, hashOutsDb, hashRowsFold, ramp,
      List.range'_zero, List.map_nil, List.append_nil]
    rw [Prod.mk.injEq]
    exact ⟨by ext <;> simp, rfl⟩
  | cons p ps ih =>
    intro i st rows
    simp only [hash_loop_db, Env.polled, Env.raisesAt]
    cases h : fs.content p with
    | some c =>
      simp only [h, ih]
      rw [Prod.mk.injEq]
      refine ⟨?_, by simp [hashRowsFold, h]⟩
      apply St.ext
      all_goals ((try simp [hashOutsDb, h, ramp, List.range'_succ]); (try omega))
    | none =>
      simp only [h, ih]
      rw [Prod.mk.injEq]
      refine ⟨?_, by simp [hashRowsFold, h]⟩
      apply St.ext
      all_goals ((try simp [hashOutsDb, h, ramp, List.range'_succ]); (try omega))

theorem hash_groups_db_pure (fs : FS) (T gn : Nat) (ss : List Nat) :
    ∀ (gi : Nat) (st : St) (rows : List Row),
      hash_groups_db ⟨fs, none, none⟩ T gn ss gi st rows =
        ({ st with
             poll := st.poll + (ss.length + (groupsFiles fs ss rows).length),
             prog := st.prog + (groupsFiles fs ss rows).length,
             scanned := st.scanned + (groupsFiles fs ss rows).length,
             out := st.out ++ groupsOutsDb fs gn ss gi rows,
             reps := st.reps ++ ramp (st.scanned + 1) (groupsFiles fs ss rows).length T,
             hashed := st.hashed ++ groupsFiles fs ss rows },
         .ok (groupsRowsFold fs ss rows)) := by
  induction ss with
  | nil =>
    intro gi st rows
    simp only [hash_groups_db, List.length_nil, groupsFiles, groupsOutsDb,
      groupsRowsFold, ramp, List.range'_zero, List.map_nil, List.append_nil]
    rw [Prod.mk.injEq]
    exact ⟨by ext <;> simp, rfl⟩
  | cons s ss ih =>
    intro gi st rows
    simp only [hash_groups_db, Env.polled, Bool.false_eq_true, ite_false,
      hash_loop_db_pure, ih]
    rw [Prod.mk.injEq]
    refine ⟨?_, by simp [groupsRowsFold]⟩
    apply St.ext <;>
      simp only [groupsFiles, groupsOutsDb, groupsRowsFold, List.length_append,
        List.length_cons, List.length_map, List.append_assoc, List.cons_append,
        List.singleton_append]
    · omega
    · omega
    · omega
    · rfl
    · rw [show st.scanned + (rows.filter (fun r => decide (r.size = s))).length + 1 =
          st.scanned + 1 + (rows.filter (fun r => decide (r.size = s))).length from by
        omega, ramp_append]

theorem hash_files_db_pure (fs : FS) (T : Nat) (st : St) (rows : List Row) :
    hash_files_db ⟨fs, none, none⟩ T st rows =
      ({ st with
           poll := st.poll +
             ((candSizes rows).length + (groupsFiles fs (candSizes rows) rows).length),
           prog := st.prog + (groupsFiles fs (candSizes rows) rows).length,
           scanned := (groupsFiles fs (candSizes rows) rows).length,
           out := st.out ++
             ([Line.hashingStart] ++
               groupsOutsDb fs (candSizes rows).length (candSizes rows) 0 rows ++
               [Line.hashingDone]),
           reps := st.reps ++ ramp 1 (groupsFiles fs (candSizes rows) rows).length T,
           hashed := st.hashed ++ groupsFiles fs (candSizes rows) rows },
       .ok (groupsRowsFold fs (candSizes rows) rows)) := by
  simp only [hash_files_db, hash_groups_db_pure]
  rw [Prod.mk.injEq]
  refine ⟨?_, rfl⟩
  apply St.ext
  all_goals simp

/-- A full, uncancelled, fault-free staged session: the whole trace. -/
theorem run_find_duplicates_db_pure (fs : FS) :
    run_find_duplicates_db ⟨fs, none, none⟩ =
      ⟨[Line.collectLine] ++ sizeErrOuts fs fs.allFiles ++
         [Line.finishedScan fs.allFiles.length] ++ [Line.hashingStart] ++
         groupsOutsDb fs (candSizes (scanRows fs)).length (candSizes (scanRows fs)) 0
           (scanRows fs) ++
         [Line.hashingDone],
       ramp 1 fs.allFiles.length fs.allFiles.length ++
         ramp 1 (groupsFiles fs (candSizes (scanRows fs)) (scanRows fs)).length
           fs.allFiles.length,
       fs.walk.length + fs.allFiles.length + 1 +
         ((candSizes (scanRows fs)).length +
           (groupsFiles fs (candSizes (scanRows fs)) (scanRows fs)).length) + 1,
       fs.allFiles.length +
         (groupsFiles fs (candSizes (scanRows fs)) (scanRows fs)).length,
       groupsFiles fs (candSizes (scanRows fs)) (scanRows fs),
       .completed (pureDbMap fs)⟩ := by
  simp only [run_find_duplicates_db, scan_files_db_pure, Env.polled,
    Bool.false_eq_true, ite_false, hash_files_db_pure, after_hash_db, mkTrace, st0,
    pureDbMap, pureDbRows]
  rw [Trace.mk.injEq]
  refine ⟨by simp, by simp, by omega, by omega, by simp, rfl⟩

/-! ## Characterising the staged table -/

theorem rowFold_eq (fs : FS) (l : List Path) :
    ∀ rows : List Row, rowFold fs l rows = rows ++ mkRows fs l := by
  induction l with
  | nil => intro rows; simp [rowFold, mkRows]
  | cons p ps ih =>
    intro rows
    cases h : fs.size p with
    | some n => simp [rowFold, h, ih, mkRows]
    | none => simp [rowFold, h, ih, mkRows]

theorem scanRows_eq (fs : FS) : scanRows fs = mkRows fs fs.allFiles := by
  rw [scanRows, rowFold_eq]
  simp

theorem mkRows_map_path (fs : FS) (l : List Path) :
    (mkRows fs l).map (fun r => r.path) = okFiles_on fs l := by
  induction l with
  | nil => simp [mkRows, okFiles_on]
  | cons p ps ih =>
    simp only [mkRows, okFiles_on] at ih ⊢
    rw [List.filterMap_cons, List.filter_cons]
    cases h : fs.size p with
    | some n => simp [h, ih]
    | none => simp [h, ih]

theorem mem_mkRows (fs : FS) (l : List Path) (r : Row) :
    r ∈ mkRows fs l ↔ r.path ∈ l ∧ fs.size r.path = some r.size ∧ r.hash = none := by
  rw [mkRows, List.mem_filterMap]
  constructor
  · rintro ⟨p, hp, hf⟩
    cases h : fs.size p with
    | some n =>
      rw [h] at hf
      simp only [Option.map_some', Option.some.injEq] at hf
      subst hf
      exact ⟨hp, h, rfl⟩
    | none => rw [h] at hf; simp at hf
  · rintro ⟨hp, hsz, hh⟩
    refine ⟨r.path, hp, ?_⟩
    rw [hsz]
    obtain ⟨rp, rs, rh⟩ := r
    subst hh
    rfl

theorem hashRowsFold_eq (fs : FS) (l : List Path) :
    ∀ rows : List Row,
      hashRowsFold fs l rows =
        rows.map (fun r =>
          if r.path ∈ l then
            match fs.content r.path with
            | some c => { r with hash := some c }
            | none => r
          else r) := by
  induction l with
  | nil =>
    intro rows
    simp [hashRowsFold]
  | cons p ps ih =>
    intro rows
    cases h : fs.content p with
    | some c =>
      simp only [hashRowsFold, h, ih, updateHash, List.map_map]
      apply List.map_congr_left
      intro r _
      by_cases hp : r.path = p
      · subst hp
        simp only [Function.comp, if_pos rfl, List.mem_cons, true_or, if_pos]
        by_cases hps : r.path ∈ ps <;> simp [hps, h]
      · simp only [Function.comp, if_neg hp]
        by_cases hps : r.path ∈ ps
        · simp [hps, hp]
        · simp [hps, hp]
    | none =>
      simp only [hashRowsFold, h, ih]
      apply List.map_congr_left
      intro r _
      by_cases hp : r.path = p
      · subst hp
        by_cases hps : r.path ∈ ps <;> simp [hps, h]
      · by_cases hps : r.path ∈ ps <;> simp [hps, hp]

theorem groupsRowsFold_eq (fs : FS) (S : List Nat) :
    ∀ rows : List Row, S.Nodup → (rows.map (fun r => r.path)).Nodup →
      groupsRowsFold fs S rows = rows.map (markRow fs S) := by
  induction S with
  | nil =>
    intro rows _ _
    have hmk : markRow fs [] = fun r => r := by
      funext r
      simp [markRow]
    rw [groupsRowsFold, hmk, List.map_id']
  | cons s S' ih =>
    intro rows hnd hpath
    simp only [List.nodup_cons] at hnd
    have hinj := List.inj_on_of_nodup_map hpath
    simp only [groupsRowsFold]
    rw [hashRowsFold_eq]
    have hmem : ∀ r ∈ rows,
        (r.path ∈ (rows.filter (fun rr => decide (rr.size = s))).map (fun rr => rr.path)) ↔
          r.size = s := by
      intro r hr
      constructor
      · intro hm
        obtain ⟨r', hr', hpp⟩ := List.mem_map.mp hm
        obtain ⟨hr'mem, hr's⟩ := List.mem_filter.mp hr'
        have : r' = r := hinj hr'mem hr hpp
        subst this
        exact of_decide_eq_true hr's
      · intro hs
        exact List.mem_map.mpr ⟨r, List.mem_filter.mpr ⟨hr, decide_eq_true hs⟩, rfl⟩
    have hstep : rows.map (fun r =>
        if r.path ∈ (rows.filter (fun rr => decide (rr.size = s))).map (fun rr => rr.path) then
          match fs.content r.path with
          | some c => { r with hash := some c }
          | none => r
        else r) =
        rows.map (fun r =>
          if r.size = s then
            match fs.content r.path with
            | some c => { r with hash := some c }
            | none => r
          else r) := by
      apply List.map_congr_left
      intro r hr
      by_cases hs : r.size = s
      · rw [if_pos ((hmem r hr).mpr hs), if_pos hs]
      · rw [if_neg (fun hm => hs ((hmem r hr).mp hm)), if_neg hs]
    rw [hstep]
    have hpath' : ((rows.map (fun r =>
        if r.size = s then
          match fs.content r.path with
          | some c => { r with hash := some c }
          | none => r
        else r)).map (fun r => r.path)).Nodup := by
      rw [List.map_map]
      have : ((fun r : Row => r.path) ∘ (fun r : Row =>
          if r.size = s then
            match fs.content r.path with
            | some c => { r with hash := some c }
            | none => r
          else r)) = fun r : Row => r.path := by
        funext r
        by_cases hs : r.size = s
        · cases h : fs.content r.path <;> simp [Function.comp, hs, h]
        · simp [Function.comp, hs]
      rw [this]
      exact hpath
    rw [ih _ hnd.2 hpath', List.map_map]
    apply List.map_congr_left
    intro r hr
    by_cases hs : r.size = s
    · have hsS : r.size ∉ S' := hs ▸ hnd.1
      cases h : fs.content r.path with
      | some c =>
        simp [Function.comp, markRow, hs, h, hsS]
      | none =>
        simp [Function.comp, markRow, hs, h, hsS]
    · by_cases hS : r.size ∈ S' <;>
        simp [Function.comp, markRow, hs, hS]

/-! ## Characterising the in-memory duplicate map -/

theorem alookup_sizeFold (fs : FS) (l : List Path) :
    ∀ (fbs : List (Nat × List Path)) (n : Nat),
      alookup (sizeFold fs l fbs) n =
        match alookup fbs n with
        | some ps => some (ps ++ l.filter (fun p => decide (fs.size p = some n)))
        | none =>
          if l.filter (fun p => decide (fs.size p = some n)) = [] then none
          else some (l.filter (fun p => decide (fs.size p = some n))) := by
  induction l with
  | nil =>
    intro fbs n
    cases h : alookup fbs n <;> simp [sizeFold, h]
  | cons p ps ih =>
    intro fbs n
    cases hsz : fs.size p with
    | none =>
      have hdec : decide (fs.size p = some n) = false := by simp [hsz]
      have hfil : (p :: ps).filter (fun q => decide (fs.size q = some n)) =
          ps.filter (fun q => decide (fs.size q = some n)) := by
        simp [List.filter_cons, hdec]
      have hfold : sizeFold fs (p :: ps) fbs = sizeFold fs ps fbs := by
        simp [sizeFold, hsz]
      rw [hfold, ih, hfil]
    | some m =>
      by_cases hmn : m = n
      · subst hmn
        have hdec : decide (fs.size p = some m) = true := by simp [hsz]
        have hfil : (p :: ps).filter (fun q => decide (fs.size q = some m)) =
            p :: ps.filter (fun q => decide (fs.size q = some m)) := by
          simp [List.filter_cons, hdec]
        have hfold : sizeFold fs (p :: ps) fbs = sizeFold fs ps (insAppend fbs m p) := by
          simp [sizeFold, hsz]
        rw [hfold, ih, hfil, alookup_insAppend, if_pos rfl]
        cases h : alookup fbs m with
        | some v => simp
        | none => simp
      · have hdec : decide (fs.size p = some n) = false := by simp [hsz, hmn]
        have hfil : (p :: ps).filter (fun q => decide (fs.size q = some n)) =
            ps.filter (fun q => decide (fs.size q = some n)) := by
          simp [List.filter_cons, hdec]
        have hfold : sizeFold fs (p :: ps) fbs = sizeFold fs ps (insAppend fbs m p) := by
          simp [sizeFold, hsz]
        rw [hfold, ih, hfil, alookup_insAppend, if_neg hmn]

theorem keys_nodup_sizeFold (fs : FS) (l : List Path) :
    ∀ fbs, (fbs.map Prod.fst).Nodup → ((sizeFold fs l fbs).map Prod.fst).Nodup := by
  induction l with
  | nil => intro fbs h; exact h
  | cons p ps ih =>
    intro fbs h
    cases hsz : fs.size p with
    | none => simpa [sizeFold, hsz] using ih fbs h
    | some m =>
      simpa [sizeFold, hsz] using ih _ (nodup_keys_insAppend fbs m p h)

theorem alookup_append_left {α β : Type} [DecidableEq α]
    (l1 l2 : List (α × β)) (x : α) :
    alookup (l1 ++ l2) x =
      match alookup l1 x with
      | some v => some v
      | none => alookup l2 x := by
  induction l1 with
  | nil => simp [alookup]
  | cons e l ih =>
    by_cases he : e.1 = x
    · simp [alookup, he]
    · simp [alookup, he, ih]

theorem alookup_groupFold (fs : FS) (l : List Path) :
    ∀ (hs : List (Content × Path)) (dups : List (Content × List Path)) (c : Content),
      alookup (groupFold fs l hs dups).2 c =
        match alookup hs c, alookup dups c with
        | none, none =>
          if 2 ≤ (l.filter (fun p => decide (fs.content p = some c))).length
          then some (l.filter (fun p => decide (fs.content p = some c)))
          else none
        | none, some ps =>
          some (ps ++ (l.filter (fun p => decide (fs.content p = some c))).drop 1)
        | some a, none =>
          if l.filter (fun p => decide (fs.content p = some c)) = [] then none
          else some (a :: l.filter (fun p => decide (fs.content p = some c)))
        | some _, some ps =>
          some (ps ++ l.filter (fun p => decide (fs.content p = some c))) := by
  induction l with
  | nil =>
    intro hs dups c
    cases h1 : alookup hs c <;> cases h2 : alookup dups c <;>
      simp [groupFold, h1, h2]
  | cons p ps ih =>
    intro hs dups c
    cases hc : fs.content p with
    | none =>
      have hdec : decide (fs.content p = some c) = false := by simp [hc]
      have hfil : (p :: ps).filter (fun q => decide (fs.content q = some c)) =
          ps.filter (fun q => decide (fs.content q = some c)) := by
        simp [List.filter_cons, hdec]
      have hfold : groupFold fs (p :: ps) hs dups = groupFold fs ps hs dups := by
        simp [groupFold, hc]
      rw [hfold, ih, hfil]
    | some c' =>
      by_cases hcc : c' = c
      · subst hcc
        have hdec : decide (fs.content p = some c') = true := by simp [hc]
        have hfil : (p :: ps).filter (fun q => decide (fs.content q = some c')) =
            p :: ps.filter (fun q => decide (fs.content q = some c')) := by
          simp [List.filter_cons, hdec]
        cases hhs : alookup hs c' with
        | some a =>
          have hfold : groupFold fs (p :: ps) hs dups =
              groupFold fs ps hs (addDup dups c' a p) := by
            simp [groupFold, hc, hhs]
          rw [hfold, ih, hfil, alookup_addDup, if_pos rfl]
          cases hd : alookup dups c' with
          | some v => simp [hhs]
          | none =>
            by_cases hfe : ps.filter (fun q => decide (fs.content q = some c')) = []
            · simp [hhs, hfe]
            · simp [hhs, hfe]
        | none =>
          have hfold : groupFold fs (p :: ps) hs dups =
              groupFold fs ps (hs ++ [(c', p)]) dups := by
            simp [groupFold, hc, hhs]
          have hl : alookup (hs ++ [(c', p)]) c' = some p := by
            rw [alookup_append_left, hhs]
            simp [alookup]
          rw [hfold, ih, hfil, hl]
          cases hd : alookup dups c' with
          | some v => simp
          | none =>
            by_cases hfe : ps.filter (fun q => decide (fs.content q = some c')) = []
            · simp [hfe]
            · have hlen : 1 ≤ (ps.filter (fun q => decide (fs.content q = some c'))).length := by
                cases hf : ps.filter (fun q => decide (fs.content q = some c')) with
                | nil => exact absurd hf hfe
                | cons a as => simp
              simp [hfe, Nat.succ_le_succ hlen]
      · have hdec : decide (fs.content p = some c) = false := by
          simp only [hc, decide_eq_false_iff_not]
          intro hh
          exact hcc (Option.some.inj hh)
        have hfil : (p :: ps).filter (fun q => decide (fs.content q = some c)) =
            ps.filter (fun q => decide (fs.content q = some c)) := by
          simp [List.filter_cons, hdec]
        cases hhs : alookup hs c' with
        | some a =>
          have hfold : groupFold fs (p :: ps) hs dups =
              groupFold fs ps hs (addDup dups c' a p) := by
            simp [groupFold, hc, hhs]
          rw [hfold, ih, hfil, alookup_addDup, if_neg hcc]
        | none =>
          have hfold : groupFold fs (p :: ps) hs dups =
              groupFold fs ps (hs ++ [(c', p)]) dups := by
            simp [groupFold, hc, hhs]
          have hl : alookup (hs ++ [(c', p)]) c = alookup hs c := by
            rw [alookup_append_left]
            cases hx : alookup hs c with
            | some v => rfl
            | none => simp [alookup, hcc]
          rw [hfold, ih, hfil, hl]

theorem keys_nodup_groupFold (fs : FS) (l : List Path) :
    ∀ hs dups, (dups.map Prod.fst).Nodup →
      ((groupFold fs l hs dups).2.map Prod.fst).Nodup := by
  induction l with
  | nil => intro hs dups h; exact h
  | cons p ps ih =>
    intro hs dups h
    cases hc : fs.content p with
    | none => simpa [groupFold, hc] using ih hs dups h
    | some c' =>
      cases hhs : alookup hs c' with
      | some a =>
        simpa [groupFold, hc, hhs] using ih hs _ (nodup_keys_addDup dups c' a p h)
      | none =>
        simpa [groupFold, hc, hhs] using ih _ dups h

theorem keys_nodup_dupsFold (fs : FS) (gs : List (Nat × List Path)) :
    ∀ dups, (dups.map Prod.fst).Nodup →
      ((dupsFold fs gs dups).map Prod.fst).Nodup := by
  induction gs with
  | nil => intro dups h; exact h
  | cons g gs ih =>
    intro dups h
    exact ih _ (keys_nodup_groupFold fs g.2 [] dups h)

theorem mem_potentialDupes (fs : FS) (n : Nat) (g : List Path)
    (h : (n, g) ∈ potentialDupes (sizeFold fs fs.allFiles [])) :
    g = sizedAs fs n ∧ 1 < g.length := by
  obtain ⟨hmem, hlen⟩ := List.mem_filter.mp h
  have hnd := keys_nodup_sizeFold fs fs.allFiles [] (by simp)
  have := mem_alookup _ hnd n g hmem
  rw [alookup_sizeFold] at this
  simp only [alookup] at this
  by_cases hfe : fs.allFiles.filter (fun p => decide (fs.size p = some n)) = []
  · rw [if_pos hfe] at this; exact absurd this (by simp)
  · rw [if_neg hfe] at this
    refine ⟨(Option.some.inj this).symm, ?_⟩
    simpa using hlen

theorem mem_keys_potentialDupes (fs : FS) (n : Nat) :
    n ∈ (potentialDupes (sizeFold fs fs.allFiles [])).map Prod.fst ↔
      1 < (sizedAs fs n).length := by
  constructor
  · intro h
    obtain ⟨⟨m, g⟩, hm, hfst⟩ := List.mem_map.mp h
    simp only at hfst
    subst hfst
    obtain ⟨hg, hlen⟩ := mem_potentialDupes fs m g hm
    rwa [hg] at hlen
  · intro h
    have hfe : fs.allFiles.filter (fun p => decide (fs.size p = some n)) ≠ [] := by
      intro hh
      rw [sizedAs, hh] at h
      simp at h
    have hl : alookup (sizeFold fs fs.allFiles []) n = some (sizedAs fs n) := by
      rw [alookup_sizeFold]
      simp only [alookup]
      rw [if_neg hfe]
      rfl
    have hmem := alookup_mem _ _ _ hl
    have : (n, sizedAs fs n) ∈ potentialDupes (sizeFold fs fs.allFiles []) := by
      refine List.mem_filter.mpr ⟨hmem, ?_⟩
      simpa using h
    exact List.mem_map.mpr ⟨(n, sizedAs fs n), this, rfl⟩

theorem filter_sizedAs_content (fs : FS)
    (hwf : ∀ p cc, fs.content p = some cc → fs.size p = some cc.length)
    (n : Nat) (c : Content) :
    (sizedAs fs n).filter (fun p => decide (fs.content p = some c)) =
      if c.length = n then dupPaths fs c else [] := by
  rw [sizedAs, List.filter_filter]
  by_cases hn : c.length = n
  · subst hn
    rw [if_pos rfl, dupPaths]
    apply List.filter_congr
    intro p _
    by_cases hc : fs.content p = some c
    · simp [hc, hwf p c hc]
    · simp [hc]
  · rw [if_neg hn, List.filter_eq_nil_iff]
    intro p _
    simp only [Bool.and_eq_true, decide_eq_true_eq, not_and]
    intro hc hsz
    rw [hwf p c hc] at hsz
    exact hn (Option.some.inj hsz)

theorem dupPaths_length_le (fs : FS)
    (hwf : ∀ p cc, fs.content p = some cc → fs.size p = some cc.length)
    (c : Content) : (dupPaths fs c).length ≤ (sizedAs fs c.length).length := by
  have := filter_sizedAs_content fs hwf c.length c
  rw [if_pos rfl] at this
  rw [← this]
  exact List.length_filter_le _ _

theorem alookup_dupsFold_canon (fs : FS)
    (hwf : ∀ p cc, fs.content p = some cc → fs.size p = some cc.length) :
    ∀ (gs : List (Nat × List Path)) (dups : List (Content × List Path)) (c : Content),
      (∀ n g, (n, g) ∈ gs → g = sizedAs fs n) →
      (gs.map Prod.fst).Nodup →
      (c.length ∈ gs.map Prod.fst → alookup dups c = none) →
      alookup (dupsFold fs gs dups) c =
        if c.length ∈ gs.map Prod.fst then
          (if 2 ≤ (dupPaths fs c).length then some (dupPaths fs c) else none)
        else alookup dups c := by
  intro gs
  induction gs with
  | nil =>
    intro dups c _ _ _
    simp [dupsFold]
  | cons g gs ih =>
    intro dups c hval hnd hnone
    obtain ⟨n, gl⟩ := g
    simp only [List.map_cons, List.nodup_cons, List.mem_cons] at hnd ⊢
    have hgl : gl = sizedAs fs n := hval n gl (by simp)
    have hkey : alookup (groupFold fs gl [] dups).2 c =
        match alookup dups c with
        | some ps =>
          some (ps ++ ((sizedAs fs n).filter
            (fun p => decide (fs.content p = some c))).drop 1)
        | none =>
          if 2 ≤ ((sizedAs fs n).filter
              (fun p => decide (fs.content p = some c))).length
          then some ((sizedAs fs n).filter (fun p => decide (fs.content p = some c)))
          else none := by
      rw [alookup_groupFold, hgl]
      simp only [alookup]
      cases hd : alookup dups c <;> rfl
    by_cases hcn : c.length = n
    · subst hcn
      have hdn : alookup dups c = none := hnone (by simp)
      have hkey2 : alookup (groupFold fs gl [] dups).2 c =
          if 2 ≤ (dupPaths fs c).length then some (dupPaths fs c) else none := by
        rw [hkey, hdn, filter_sizedAs_content fs hwf c.length c, if_pos rfl]
      rw [dupsFold, ih _ c (fun m g hm => hval m g (by simp [hm]))
        hnd.2 (fun hm => absurd hm (by simpa using hnd.1)), if_neg (by simpa using hnd.1),
        hkey2]
      rw [if_pos (Or.inl rfl)]
    · have hfil : (sizedAs fs n).filter (fun p => decide (fs.content p = some c)) = [] := by
        rw [filter_sizedAs_content fs hwf n c, if_neg hcn]
      have hkey2 : alookup (groupFold fs gl [] dups).2 c = alookup dups c := by
        rw [hkey, hfil]
        cases hd : alookup dups c <;> simp
      by_cases hmem : c.length ∈ gs.map Prod.fst
      · rw [dupsFold, ih _ c (fun m g hm => hval m g (by simp [hm])) hnd.2
          (fun _ => by rw [hkey2]; exact hnone (by simp [hmem])), if_pos hmem]
        rw [if_pos (Or.inr hmem)]
      · rw [dupsFold, ih _ c (fun m g hm => hval m g (by simp [hm])) hnd.2
          (fun hm => absurd hm hmem), if_neg hmem, hkey2]
        rw [if_neg (by simp [hmem, hcn])]

theorem keys_nodup_potentialDupes (fs : FS) :
    ((potentialDupes (sizeFold fs fs.allFiles [])).map Prod.fst).Nodup := by
  have hnd := keys_nodup_sizeFold fs fs.allFiles [] (by simp)
  have hsub : List.Sublist (potentialDupes (sizeFold fs fs.allFiles []))
      (sizeFold fs fs.allFiles []) := List.filter_sublist _
  exact List.Nodup.sublist (hsub.map Prod.fst) hnd

/-- The delivered map of a full in-memory run, as a lookup function: exactly
`canonLookup`. -/
theorem alookup_pureMemMap (fs : FS) (hwf : fs.wf) (c : Content) :
    alookup (pureMemMap fs) c = canonLookup fs c := by
  rw [pureMemMap,
    alookup_dupsFold_canon fs hwf.2 _ [] c
      (fun n g h => (mem_potentialDupes fs n g h).1)
      (keys_nodup_potentialDupes fs) (fun _ => rfl)]
  by_cases hk : c.length ∈ (potentialDupes (sizeFold fs fs.allFiles [])).map Prod.fst
  · rw [if_pos hk, canonLookup]
  · rw [if_neg hk, canonLookup, if_neg, alookup]
    intro h2
    have h1 : 1 < (sizedAs fs c.length).length :=
      lt_of_lt_of_le (by omega) (dupPaths_length_le fs hwf.2 c)
    exact hk ((mem_keys_potentialDupes fs c.length).mpr h1)

theorem keys_nodup_pureMemMap (fs : FS) :
    ((pureMemMap fs).map Prod.fst).Nodup :=
  keys_nodup_dupsFold fs _ [] (by simp)

/-! ## Characterising the staged duplicate map -/

theorem mem_candSizes (rows : List Row) (s : Nat) :
    s ∈ candSizes rows ↔ 1 < (rows.filter (fun r => decide (r.size = s))).length := by
  rw [candSizes, List.mem_filter, mem_firstOccur]
  constructor
  · rintro ⟨_, h⟩
    simpa using h
  · intro h
    refine ⟨?_, by simpa using h⟩
    have hne : rows.filter (fun r => decide (r.size = s)) ≠ [] := by
      intro hh
      rw [hh] at h
      simp at h
    obtain ⟨r, hr⟩ := List.exists_mem_of_ne_nil _ hne
    obtain ⟨hrm, hrs⟩ := List.mem_filter.mp hr
    exact List.mem_map.mpr ⟨r, hrm, of_decide_eq_true hrs⟩

theorem candSizes_nodup (rows : List Row) : (candSizes rows).Nodup :=
  (firstOccur_nodup _).filter _

theorem scanRows_map_path (fs : FS) :
    (scanRows fs).map (fun r => r.path) = okFiles fs := by
  rw [scanRows_eq, mkRows_map_path, okFiles]

theorem scanRows_path_nodup (fs : FS) (hnd : fs.allFiles.Nodup) :
    ((scanRows fs).map (fun r => r.path)).Nodup := by
  rw [scanRows_map_path, okFiles, okFiles_on]
  exact hnd.filter _

theorem mkRows_filter_size_map_path (fs : FS) (l : List Path) (n : Nat) :
    ((mkRows fs l).filter (fun r => decide (r.size = n))).map (fun r => r.path) =
      l.filter (fun p => decide (fs.size p = some n)) := by
  induction l with
  | nil => simp [mkRows]
  | cons p ps ih =>
    simp only [mkRows] at ih ⊢
    rw [List.filterMap_cons, List.filter_cons]
    cases h : fs.size p with
    | none =>
      have hd : decide (fs.size p = some n) = false := by simp [h]
      simp [hd, ih]
    | some m =>
      by_cases hm : m = n
      · subst hm
        have hd : decide (fs.size p = some m) = true := by simp [h]
        simp [hd, List.filter_cons, ih]
      · have hd : decide (fs.size p = some n) = false := by simp [h, hm]
        simp [hd, List.filter_cons, hm, ih]

theorem scanRows_filter_size_len (fs : FS) (n : Nat) :
    ((scanRows fs).filter (fun r => decide (r.size = n))).length =
      (sizedAs fs n).length := by
  have := congrArg List.length (mkRows_filter_size_map_path fs fs.allFiles n)
  simpa [scanRows_eq, sizedAs] using this

theorem pureDbRows_eq (fs : FS) (hnd : fs.allFiles.Nodup) :
    pureDbRows fs = (scanRows fs).map (markRow fs (candSizes (scanRows fs))) := by
  rw [pureDbRows]
  exact groupsRowsFold_eq fs _ _ (candSizes_nodup _) (scanRows_path_nodup fs hnd)

theorem mkRows_map_filter_hash (fs : FS)
    (hwf : ∀ p cc, fs.content p = some cc → fs.size p = some cc.length)
    (S : List Nat) (c : Content) (l : List Path) :
    (((mkRows fs l).map (markRow fs S)).filter
        (fun r => decide (r.hash = some c))).map (fun r => r.path) =
      if c.length ∈ S then l.filter (fun p => decide (fs.content p = some c))
      else [] := by
  induction l with
  | nil =>
    by_cases hS : c.length ∈ S <;> simp [mkRows, hS]
  | cons p ps ih =>
    rw [mkRows, List.filterMap_cons, ← mkRows]
    cases h : fs.size p with
    | none =>
      have hpc : ¬ (decide (fs.content p = some c) = true) := by
        simp only [decide_eq_true_eq]
        intro hc
        rw [hwf p c hc] at h
        exact Option.noConfusion h
      have hfil : (p :: ps).filter (fun q => decide (fs.content q = some c)) =
          ps.filter (fun q => decide (fs.content q = some c)) :=
        List.filter_cons_of_neg hpc
      simp only [Option.map_none']
      rw [hfil]
      exact ih
    | some m =>
      simp only [Option.map_some', List.map_cons]
      cases hc : fs.content p with
      | some c' =>
        by_cases hcc : c' = c
        · subst hcc
          have hm : m = c'.length := by
            have hh := hwf p c' hc
            rw [h] at hh
            exact Option.some.inj hh
          subst hm
          have hpc : decide (fs.content p = some c') = true := by simp [hc]
          have hfil : (p :: ps).filter (fun q => decide (fs.content q = some c')) =
              p :: ps.filter (fun q => decide (fs.content q = some c')) :=
            List.filter_cons_of_pos hpc
          by_cases hS : c'.length ∈ S
          · have hmark : markRow fs S (Row.mk p c'.length none) =
                Row.mk p c'.length (some c') := by
              simp [markRow, hS, hc]
            rw [hmark, List.filter_cons_of_pos (by simp), List.map_cons, ih,
              if_pos hS, if_pos hS, hfil]
          · have hmark : markRow fs S (Row.mk p c'.length none) =
                Row.mk p c'.length none := by
              simp [markRow, hS]
            rw [hmark, List.filter_cons_of_neg (by simp), ih, if_neg hS, if_neg hS]
        · have hpc : ¬ (decide (fs.content p = some c) = true) := by
            simp only [decide_eq_true_eq]
            intro hh
            rw [hc] at hh
            exact hcc (Option.some.inj hh)
          have hfil : (p :: ps).filter (fun q => decide (fs.content q = some c)) =
              ps.filter (fun q => decide (fs.content q = some c)) :=
            List.filter_cons_of_neg hpc
          have hhash : ¬ (decide ((markRow fs S (Row.mk p m none)).hash = some c)
              = true) := by
            simp only [decide_eq_true_eq]
            by_cases hS : m ∈ S
            · simp only [markRow, if_pos hS, hc]
              intro hh
              exact hcc (Option.some.inj hh)
            · simp [markRow, hS]
          rw [List.filter_cons_of_neg (by exact hhash), ih, hfil]
      | none =>
        have hpc : ¬ (decide (fs.content p = some c) = true) := by
          simp [hc]
        have hfil : (p :: ps).filter (fun q => decide (fs.content q = some c)) =
            ps.filter (fun q => decide (fs.content q = some c)) :=
          List.filter_cons_of_neg hpc
        have hhash : (markRow fs S (Row.mk p m none)).hash = none := by
          by_cases hS : m ∈ S <;> simp [markRow, hS, hc]
        rw [List.filter_cons_of_neg (by simp [hhash]), ih, hfil]

theorem pureDb_members (fs : FS) (hwf : fs.wf) (c : Content) :
    ((pureDbRows fs).filter (fun r => decide (r.hash = some c))).map (fun r => r.path) =
      if 1 < (sizedAs fs c.length).length then dupPaths fs c else [] := by
  have hbase : pureDbRows fs =
      (mkRows fs fs.allFiles).map (markRow fs (candSizes (scanRows fs))) := by
    rw [pureDbRows_eq fs hwf.1, scanRows_eq]
  rw [hbase, mkRows_map_filter_hash fs hwf.2 _ c]
  by_cases h1 : 1 < (sizedAs fs c.length).length
  · rw [if_pos h1, if_pos, dupPaths]
    rw [mem_candSizes, scanRows_filter_size_len]
    exact h1
  · rw [if_neg h1, if_neg]
    rw [mem_candSizes, scanRows_filter_size_len]
    exact h1

theorem mem_dupHashes (rows : List Row) (c : Content) :
    c ∈ dupHashes rows ↔
      1 < (rows.filter (fun r => decide (r.hash = some c))).length := by
  rw [dupHashes, List.mem_filter, mem_firstOccur]
  constructor
  · rintro ⟨_, h⟩
    simpa using h
  · intro h
    refine ⟨?_, by simpa using h⟩
    have hne : rows.filter (fun r => decide (r.hash = some c)) ≠ [] := by
      intro hh
      rw [hh] at h
      simp at h
    obtain ⟨r, hr⟩ := List.exists_mem_of_ne_nil _ hne
    obtain ⟨hrm, hrs⟩ := List.mem_filter.mp hr
    exact List.mem_filterMap.mpr ⟨r, hrm, of_decide_eq_true hrs⟩

theorem dupHashes_nodup (rows : List Row) : (dupHashes rows).Nodup :=
  (firstOccur_nodup _).filter _

theorem alookup_find_from_db (rows : List Row) (c : Content) :
    alookup (find_duplicates_from_db rows) c =
      if c ∈ dupHashes rows then
        some (splitComma (joinComma
          ((rows.filter (fun r => decide (r.hash = some c))).map (fun r => r.path))))
      else none := by
  rw [find_duplicates_from_db, alookup_map_fn _ _ (dupHashes_nodup rows) c]
  by_cases hc : c ∈ dupHashes rows <;> simp [hc]

/-- The delivered map of a full staged run, as a lookup function: the
canonical map with each member list passed through the comma join/split. -/
theorem alookup_pureDbMap (fs : FS) (hwf : fs.wf) (c : Content) :
    alookup (pureDbMap fs) c =
      (canonLookup fs c).map (fun ps => splitComma (joinComma ps)) := by
  rw [pureDbMap, alookup_find_from_db]
  have hlen : ((pureDbRows fs).filter (fun r => decide (r.hash = some c))).length =
      if 1 < (sizedAs fs c.length).length then (dupPaths fs c).length else 0 := by
    have h := congrArg List.length (pureDb_members fs hwf c)
    rw [List.length_map] at h
    rw [h, apply_ite List.length]
    rfl
  by_cases h2 : 2 ≤ (dupPaths fs c).length
  · have hsz : 1 < (sizedAs fs c.length).length :=
      lt_of_lt_of_le (by omega) (dupPaths_length_le fs hwf.2 c)
    have hkey : c ∈ dupHashes (pureDbRows fs) := by
      rw [mem_dupHashes, hlen, if_pos hsz]
      omega
    rw [if_pos hkey, pureDb_members fs hwf c, if_pos hsz, canonLookup, if_pos h2]
    rfl
  · have hkey : c ∉ dupHashes (pureDbRows fs) := by
      rw [mem_dupHashes, hlen]
      by_cases hsz : 1 < (sizedAs fs c.length).length
      · rw [if_pos hsz]
        omega
      · rw [if_neg hsz]
        omega
    rw [if_neg hkey, canonLookup, if_neg h2]
    rfl

theorem keys_find_from_db (rows : List Row) :
    (find_duplicates_from_db rows).map Prod.fst = dupHashes rows := by
  rw [find_duplicates_from_db, List.map_map]
  exact List.map_id' _

/-! ## Cancellation bounds

With the flag set from poll index `s` on (`stopAt = some s`), a phase that
does not return by cancellation has used only poll indices below `s`, and a
phase that does has polled an index at or above `s`. -/

theorem polled_true_of_le (e : Env) (s : Nat) (hst : e.stopAt = some s)
    (i : Nat) (h : s ≤ i) : e.polled i = true := by
  rw [Env.polled, hst]
  exact decide_eq_true h

theorem le_of_polled_true (e : Env) (s : Nat) (hst : e.stopAt = some s)
    (i : Nat) (h : e.polled i = true) : s ≤ i := by
  rw [Env.polled, hst] at h
  exact of_decide_eq_true h

theorem walk_mem_poll (e : Env) (s : Nat) (hst : e.stopAt = some s)
    (ds : List (List Path)) :
    ∀ st : St, st.poll ≤ s →
      ((walk_mem e ds st).2 ≠ PhRes.stop → (walk_mem e ds st).1.poll ≤ s) ∧
      ((walk_mem e ds st).2 = PhRes.stop → s < (walk_mem e ds st).1.poll) := by
  induction ds with
  | nil =>
    intro st h
    refine ⟨fun _ => h, fun hh => ?_⟩
    simp [walk_mem] at hh
  | cons d ds ih =>
    intro st h
    by_cases hp : e.polled st.poll = true
    · have hs := le_of_polled_true e s hst _ hp
      refine ⟨fun hok => absurd (by simp [walk_mem, hp]) hok, fun _ => ?_⟩
      simp only [walk_mem, hp, if_pos]
      omega
    · have h1 : st.poll + 1 ≤ s := by
        rcases Nat.lt_or_ge st.poll s with hlt | hge
        · omega
        · exact absurd (polled_true_of_le e s hst _ hge) hp
      obtain ⟨ih1, ih2⟩ := ih { st with poll := st.poll + 1 } h1
      simp only [walk_mem, hp, Bool.false_eq_true, if_false]
      cases hr : walk_mem e ds { st with poll := st.poll + 1 } with
      | mk st' r =>
        rw [hr] at ih1 ih2
        cases r with
        | ok rest => exact ⟨fun _ => ih1 (by simp), fun hh => by simp at hh⟩
        | stop => exact ⟨fun hh => absurd rfl hh, fun _ => ih2 rfl⟩
        | die => exact ⟨fun _ => ih1 (by simp), fun hh => by simp at hh⟩

theorem scan_mem_poll (e : Env) (s : Nat) (hst : e.stopAt = some s)
    (T : Nat) (l : List Path) :
    ∀ (st : St) (fbs : List (Nat × List Path)), st.poll ≤ s →
      ((scan_mem e T l st fbs).2 ≠ PhRes.stop → (scan_mem e T l st fbs).1.poll ≤ s) ∧
      ((scan_mem e T l st fbs).2 = PhRes.stop → s < (scan_mem e T l st fbs).1.poll) := by
  induction l with
  | nil =>
    intro st fbs h
    refine ⟨fun _ => h, fun hh => ?_⟩
    simp [scan_mem] at hh
  | cons p ps ih =>
    intro st fbs h
    by_cases hp : e.polled st.poll = true
    · have hs := le_of_polled_true e s hst _ hp
      refine ⟨fun hok => absurd (by simp [scan_mem, hp]) hok, fun _ => ?_⟩
      simp only [scan_mem, hp, if_pos]
      omega
    · have h1 : st.poll + 1 ≤ s := by
        rcases Nat.lt_or_ge st.poll s with hlt | hge
        · omega
        · exact absurd (polled_true_of_le e s hst _ hge) hp
      simp only [scan_mem, hp, Bool.false_eq_true, if_false]
      cases hsz : e.fs.size p with
      | some n =>
        simp only [hsz]
        by_cases hrz : e.raisesAt st.prog = true
        · rw [if_pos hrz]
          exact ⟨fun _ => h1, fun hh => by simp at hh⟩
        · rw [if_neg hrz]
          exact ih _ _ h1
      | none =>
        simp only [hsz]
        by_cases hrz : e.raisesAt st.prog = true
        · rw [if_pos hrz]
          exact ⟨fun _ => h1, fun hh => by simp at hh⟩
        · rw [if_neg hrz]
          exact ih _ _ h1

theorem hash_group_mem_poll (e : Env) (s : Nat) (hst : e.stopAt = some s)
    (T : Nat) (l : List Path) :
    ∀ (st : St) (hs : List (Content × Path)) (dups : List (Content × List Path)),
      st.poll ≤ s →
      ((hash_group_mem e T l st hs dups).2 ≠ PhRes.stop →
        (hash_group_mem e T l st hs dups).1.poll ≤ s) ∧
      ((hash_group_mem e T l st hs dups).2 = PhRes.stop →
        s < (hash_group_mem e T l st hs dups).1.poll) := by
  induction l with
  | nil =>
    intro st hs dups h
    refine ⟨fun _ => h, fun hh => ?_⟩
    simp [hash_group_mem] at hh
  | cons p ps ih =>
    intro st hs dups h
    by_cases hp : e.polled st.poll = true
    · have hs' := le_of_polled_true e s hst _ hp
      refine ⟨fun hok => absurd (by simp [hash_group_mem, hp]) hok, fun _ => ?_⟩
      simp only [hash_group_mem, hp, if_pos]
      omega
    · have h1 : st.poll + 1 ≤ s := by
        rcases Nat.lt_or_ge st.poll s with hlt | hge
        · omega
        · exact absurd (polled_true_of_le e s hst _ hge) hp
      simp only [hash_group_mem, hp, Bool.false_eq_true, if_false]
      cases hc : e.fs.content p with
      | some c =>
        simp only [hc]
        cases ha : alookup hs c with
        | some anchor =>
          simp only [ha]
          by_cases hrz : e.raisesAt st.prog = true
          · rw [if_pos hrz]
            exact ⟨fun _ => h1, fun hh => by simp at hh⟩
          · rw [if_neg hrz]
            exact ih _ _ _ h1
        | none =>
          simp only [ha]
          by_cases hrz : e.raisesAt st.prog = true
          · rw [if_pos hrz]
            exact ⟨fun _ => h1, fun hh => by simp at hh⟩
          · rw [if_neg hrz]
            exact ih _ _ _ h1
      | none =>
        simp only [hc]
        by_cases hrz : e.raisesAt st.prog = true
        · rw [if_pos hrz]
          exact ⟨fun _ => h1, fun hh => by simp at hh⟩
        · rw [if_neg hrz]
          exact ih _ _ _ h1

theorem hash_phase_mem_poll (e : Env) (s : Nat) (hst : e.stopAt = some s)
    (T : Nat) (gs : List (Nat × List Path)) :
    ∀ (st : St) (dups : List (Content × List Path)), st.poll ≤ s →
      ((hash_phase_mem e T gs st dups).2 ≠ PhRes.stop →
        (hash_phase_mem e T gs st dups).1.poll ≤ s) ∧
      ((hash_phase_mem e T gs st dups).2 = PhRes.stop →
        s < (hash_phase_mem e T gs st dups).1.poll) := by
  induction gs with
  | nil =>
    intro st dups h
    refine ⟨fun _ => h, fun hh => ?_⟩
    simp [hash_phase_mem] at hh
  | cons g gs ih =>
    intro st dups h
    by_cases hp : e.polled st.poll = true
    · have hs' := le_of_polled_true e s hst _ hp
      refine ⟨fun hok => absurd (by simp [hash_phase_mem, hp]) hok, fun _ => ?_⟩
      simp only [hash_phase_mem, hp, if_pos]
      omega
    · have h1 : st.poll + 1 ≤ s := by
        rcases Nat.lt_or_ge st.poll s with hlt | hge
        · omega
        · exact absurd (polled_true_of_le e s hst _ hge) hp
      simp only [hash_phase_mem, hp, Bool.false_eq_true, if_false]
      obtain ⟨g1, g2⟩ :=
        hash_group_mem_poll e s hst T g.2 { st with poll := st.poll + 1 } [] dups h1
      cases hr : hash_group_mem e T g.2 { st with poll := st.poll + 1 } [] dups with
      | mk st' r =>
        rw [hr] at g1 g2
        cases r with
        | ok dups' =>
          exact ih st' dups' (g1 (by simp))
        | stop =>
          exact ⟨fun hh => absurd rfl hh, fun _ => g2 rfl⟩
        | die =>
          exact ⟨fun _ => g1 (by simp), fun hh => by simp at hh⟩

/-- If the in-memory worker observed the flag (it used a poll index ≥ `s`),
the session ended cancelled. -/
theorem find_duplicates_mem_cancel (e : Env) (s : Nat) (hst : e.stopAt = some s) :
    s < (find_duplicates_mem e).polls → (find_duplicates_mem e).res = .cancelledR := by
  obtain ⟨w1, w2⟩ := walk_mem_poll e s hst e.fs.walk st0 (by simp [st0])
  cases hw : walk_mem e e.fs.walk st0 with
  | mk st r =>
    rw [hw] at w1 w2
    cases r with
    | stop =>
      simp only [find_duplicates_mem, hw, mkTrace]
      intro _
      trivial
    | die =>
      simp only [find_duplicates_mem, hw, mkTrace]
      intro hlt
      exfalso
      have := w1 (by simp)
      simp only at this hlt
      omega
    | ok allFiles =>
      have hw1 := w1 (by simp)
      obtain ⟨s1, s2⟩ := scan_mem_poll e s hst allFiles.length allFiles st [] hw1
      cases hsc : scan_mem e allFiles.length allFiles st [] with
      | mk st' r' =>
        rw [hsc] at s1 s2
        cases r' with
        | stop =>
          simp only [find_duplicates_mem, hw, hsc, mkTrace]
          intro _
          trivial
        | die =>
          simp only [find_duplicates_mem, hw, hsc, mkTrace]
          intro hlt
          exfalso
          have := s1 (by simp)
          simp only at this
          omega
        | ok fbs =>
          have hs1 := s1 (by simp)
          obtain ⟨p1, p2⟩ :=
            hash_phase_mem_poll e s hst allFiles.length (potentialDupes fbs) st' [] hs1
          cases hh : hash_phase_mem e allFiles.length (potentialDupes fbs) st' [] with
          | mk st'' r'' =>
            rw [hh] at p1 p2
            cases r'' with
            | stop =>
              simp only [find_duplicates_mem, hw, hsc, hh, mkTrace]
              intro _
              trivial
            | die =>
              simp only [find_duplicates_mem, hw, hsc, hh, mkTrace]
              intro hlt
              exfalso
              have := p1 (by simp)
              simp only at this
              omega
            | ok dups =>
              simp only [find_duplicates_mem, hw, hsc, hh, mkTrace]
              intro hlt
              exfalso
              have := p1 (by simp)
              simp only at this
              omega

theorem walk_db_poll (e : Env) (s : Nat) (hst : e.stopAt = some s)
    (ds : List (List Path)) :
    ∀ st : St, st.poll ≤ s →
      ((walk_db e ds st).2 ≠ PhRes.stop → (walk_db e ds st).1.poll ≤ s) ∧
      ((walk_db e ds st).2 = PhRes.stop → s < (walk_db e ds st).1.poll) := by
  induction ds with
  | nil =>
    intro st h
    refine ⟨fun _ => h, fun hh => ?_⟩
    simp [walk_db] at hh
  | cons d ds ih =>
    intro st h
    by_cases hp : e.polled st.poll = true
    · have hs := le_of_polled_true e s hst _ hp
      refine ⟨fun hok => absurd (by simp [walk_db, hp]) hok, fun _ => ?_⟩
      simp only [walk_db, hp, if_pos]
      omega
    · have h1 : st.poll + 1 ≤ s := by
        rcases Nat.lt_or_ge st.poll s with hlt | hge
        · omega
        · exact absurd (polled_true_of_le e s hst _ hge) hp
      obtain ⟨ih1, ih2⟩ := ih { st with poll := st.poll + 1 } h1
      simp only [walk_db, hp, Bool.false_eq_true, if_false]
      cases hr : walk_db e ds { st with poll := st.poll + 1 } with
      | mk st' r =>
        rw [hr] at ih1 ih2
        cases r with
        | ok rest => exact ⟨fun _ => ih1 (by simp), fun hh => by simp at hh⟩
        | stop => exact ⟨fun hh => absurd rfl hh, fun _ => ih2 rfl⟩
        | die => exact ⟨fun _ => ih1 (by simp), fun hh => by simp at hh⟩

theorem scan_loop_db_poll (e : Env) (s : Nat) (hst : e.stopAt = some s)
    (T : Nat) (l : List Path) :
    ∀ (st : St) (rows : List Row), st.poll ≤ s →
      (¬ (scan_loop_db e T l st rows).2.isEarly →
        (scan_loop_db e T l st rows).1.poll ≤ s) ∧
      ((scan_loop_db e T l st rows).2.isEarly →
        s < (scan_loop_db e T l st rows).1.poll) := by
  induction l with
  | nil =>
    intro st rows h
    refine ⟨fun _ => h, fun hh => ?_⟩
    simp [scan_loop_db, SScan.isEarly] at hh
  | cons p ps ih =>
    intro st rows h
    by_cases hp : e.polled st.poll = true
    · have hs := le_of_polled_true e s hst _ hp
      refine ⟨fun hok => absurd (by simp [scan_loop_db, hp, SScan.isEarly]) hok,
        fun _ => ?_⟩
      simp only [scan_loop_db, hp, if_pos]
      omega
    · have h1 : st.poll + 1 ≤ s := by
        rcases Nat.lt_or_ge st.poll s with hlt | hge
        · omega
        · exact absurd (polled_true_of_le e s hst _ hge) hp
      simp only [scan_loop_db, hp, Bool.false_eq_true, if_false]
      cases hsz : e.fs.size p with
      | some n =>
        simp only [hsz]
        by_cases hrz : e.raisesAt st.prog = true
        · rw [if_pos hrz]
          exact ⟨fun _ => h1, fun hh => by simp [SScan.isEarly] at hh⟩
        · rw [if_neg hrz]
          exact ih _ _ h1
      | none =>
        simp only [hsz]
        by_cases hrz : e.raisesAt st.prog = true
        · rw [if_pos hrz]
          exact ⟨fun _ => h1, fun hh => by simp [SScan.isEarly] at hh⟩
        · rw [if_neg hrz]
          exact ih _ _ h1

theorem scan_files_db_poll (e : Env) (s : Nat) (hst : e.stopAt = some s) (st : St)
    (h : st.poll ≤ s) :
    (¬ (scan_files_db e st).2.isEarly → (scan_files_db e st).1.poll ≤ s) ∧
    ((scan_files_db e st).2.isEarly → s < (scan_files_db e st).1.poll) := by
  obtain ⟨w1, w2⟩ := walk_db_poll e s hst e.fs.walk
    { st with out := st.out ++ [Line.collectLine] } h
  cases hw : walk_db e e.fs.walk { st with out := st.out ++ [Line.collectLine] } with
  | mk st1 r =>
    rw [hw] at w1 w2
    cases r with
    | stop =>
      simp only [scan_files_db, hw]
      exact ⟨fun hh => absurd (by simp [SScan.isEarly]) hh, fun _ => w2 rfl⟩
    | die =>
      simp only [scan_files_db, hw]
      exact ⟨fun _ => w1 (by simp), fun hh => by simp [SScan.isEarly] at hh⟩
    | ok allFiles =>
      have hw1 := w1 (by simp)
      obtain ⟨l1, l2⟩ := scan_loop_db_poll e s hst allFiles.length allFiles
        { st1 with scanned := 0 } [] hw1
      cases hl : scan_loop_db e allFiles.length allFiles { st1 with scanned := 0 } [] with
      | mk st2 r2 =>
        rw [hl] at l1 l2
        cases r2 with
        | done rows total =>
          simp only [scan_files_db, hw, hl]
          exact ⟨fun _ => l1 (by simp [SScan.isEarly]), fun hh => by
            simp [SScan.isEarly] at hh⟩
        | early rows total =>
          simp only [scan_files_db, hw, hl]
          exact ⟨fun hh => absurd (by simp [SScan.isEarly]) hh,
            fun _ => l2 (by simp [SScan.isEarly])⟩
        | die =>
          simp only [scan_files_db, hw, hl]
          exact ⟨fun _ => l1 (by simp [SScan.isEarly]), fun hh => by
            simp [SScan.isEarly] at hh⟩

theorem hash_loop_db_poll (e : Env) (s : Nat) (hst : e.stopAt = some s)
    (T gi gn fn : Nat) (l : List Path) :
    ∀ (i : Nat) (st : St) (rows : List Row), st.poll ≤ s →
      (¬ (hash_loop_db e T gi gn fn l i st rows).2.isStopped →
        (hash_loop_db e T gi gn fn l i st rows).1.poll ≤ s) ∧
      ((hash_loop_db e T gi gn fn l i st rows).2.isStopped →
        s < (hash_loop_db e T gi gn fn l i st rows).1.poll) := by
  induction l with
  | nil =>
    intro i st rows h
    refine ⟨fun _ => h, fun hh => ?_⟩
    simp [hash_loop_db, SHash.isStopped] at hh
  | cons p ps ih =>
    intro i st rows h
    by_cases hp : e.polled st.poll = true
    · have hs := le_of_polled_true e s hst _ hp
      refine ⟨fun hok => absurd (by simp [hash_loop_db, hp, SHash.isStopped]) hok,
        fun _ => ?_⟩
      simp only [hash_loop_db, hp, if_pos]
      omega
    · have h1 : st.poll + 1 ≤ s := by
        rcases Nat.lt_or_ge st.poll s with hlt | hge
        · omega
        · exact absurd (polled_true_of_le e s hst _ hge) hp
      simp only [hash_loop_db, hp, Bool.false_eq_true, if_false]
      cases hc : e.fs.content p with
      | some c =>
        simp only [hc]
        by_cases hrz : e.raisesAt st.prog = true
        · rw [if_pos hrz]
          exact ⟨fun _ => h1, fun hh => by simp [SHash.isStopped] at hh⟩
        · rw [if_neg hrz]
          exact ih _ _ _ h1
      | none =>
        simp only [hc]
        by_cases hrz : e.raisesAt st.prog = true
        · rw [if_pos hrz]
          exact ⟨fun _ => h1, fun hh => by simp [SHash.isStopped] at hh⟩
        · rw [if_neg hrz]
          exact ih _ _ _ h1

theorem hash_groups_db_poll (e : Env) (s : Nat) (hst : e.stopAt = some s)
    (T gn : Nat) (ss : List Nat) :
    ∀ (gi : Nat) (st : St) (rows : List Row), st.poll ≤ s →
      (¬ (hash_groups_db e T gn ss gi st rows).2.isStopped →
        (hash_groups_db e T gn ss gi st rows).1.poll ≤ s) ∧
      ((hash_groups_db e T gn ss gi st rows).2.isStopped →
        s < (hash_groups_db e T gn ss gi st rows).1.poll) := by
  induction ss with
  | nil =>
    intro gi st rows h
    refine ⟨fun _ => h, fun hh => ?_⟩
    simp [hash_groups_db, SHash.isStopped] at hh
  | cons g ss ih =>
    intro gi st rows h
    by_cases hp : e.polled st.poll = true
    · have hs := le_of_polled_true e s hst _ hp
      refine ⟨fun hok => absurd (by simp [hash_groups_db, hp, SHash.isStopped]) hok,
        fun _ => ?_⟩
      simp only [hash_groups_db, hp, if_pos]
      omega
    · have h1 : st.poll + 1 ≤ s := by
        rcases Nat.lt_or_ge st.poll s with hlt | hge
        · omega
        · exact absurd (polled_true_of_le e s hst _ hge) hp
      simp only [hash_groups_db, hp, Bool.false_eq_true, if_false]
      obtain ⟨g1, g2⟩ := hash_loop_db_poll e s hst T (gi + 1) gn
        ((rows.filter (fun r => r.size = g)).map (fun r => r.path)).length
        ((rows.filter (fun r => r.size = g)).map (fun r => r.path)) 1
        { st with poll := st.poll + 1,
                  out := st.out ++ [Line.groupLine (gi + 1) gn g] } rows h1
      cases hr : hash_loop_db e T (gi + 1) gn
          ((rows.filter (fun r => r.size = g)).map (fun r => r.path)).length
          ((rows.filter (fun r => r.size = g)).map (fun r => r.path)) 1
          { st with poll := st.poll + 1,
                    out := st.out ++ [Line.groupLine (gi + 1) gn g] } rows with
      | mk st' r =>
        rw [hr] at g1 g2
        cases r with
        | ok rows' => exact ih _ _ _ (g1 (by simp [SHash.isStopped]))
        | stopped rows' =>
          exact ⟨fun hh => absurd (by simp [SHash.isStopped]) hh,
            fun _ => g2 (by simp [SHash.isStopped])⟩
        | die =>
          exact ⟨fun _ => g1 (by simp [SHash.isStopped]), fun hh => by
            simp [SHash.isStopped] at hh⟩

theorem hash_files_db_poll (e : Env) (s : Nat) (hst : e.stopAt = some s)
    (T : Nat) (st : St) (rows : List Row) (h : st.poll ≤ s) :
    (¬ (hash_files_db e T st rows).2.isStopped →
      (hash_files_db e T st rows).1.poll ≤ s) ∧
    ((hash_files_db e T st rows).2.isStopped →
      s < (hash_files_db e T st rows).1.poll) := by
  obtain ⟨g1, g2⟩ := hash_groups_db_poll e s hst T (candSizes rows).length
    (candSizes rows) 0
    { { st with out := st.out ++ [Line.hashingStart] } with scanned := 0 } rows h
  cases hr : hash_groups_db e T (candSizes rows).length (candSizes rows) 0
      { { st with out := st.out ++ [Line.hashingStart] } with scanned := 0 } rows with
  | mk st' r =>
    rw [hr] at g1 g2
    cases r with
    | ok rows' =>
      simp only [hash_files_db, hr]
      exact ⟨fun _ => g1 (by simp [SHash.isStopped]), fun hh => by
        simp [SHash.isStopped] at hh⟩
    | stopped rows' =>
      simp only [hash_files_db, hr]
      exact ⟨fun hh => absurd (by simp [SHash.isStopped]) hh,
        fun _ => g2 (by simp [SHash.isStopped])⟩
    | die =>
      simp only [hash_files_db, hr]
      exact ⟨fun _ => g1 (by simp [SHash.isStopped]), fun hh => by
        simp [SHash.isStopped] at hh⟩

/-- If the staged session observed the flag, it ended cancelled. -/
theorem run_db_cancel (e : Env) (s : Nat) (hst : e.stopAt = some s) :
    s < (run_find_duplicates_db e).polls →
      (run_find_duplicates_db e).res = .cancelledR := by
  obtain ⟨f1, f2⟩ := scan_files_db_poll e s hst st0 (by simp [st0])
  cases hf : scan_files_db e st0 with
  | mk st r =>
    rw [hf] at f1 f2
    cases r with
    | die =>
      simp only [run_find_duplicates_db, hf, mkTrace]
      intro hlt
      exfalso
      have := f1 (by simp [SScan.isEarly])
      simp only at this
      omega
    | early rows total =>
      have hs := f2 (by simp [SScan.isEarly])
      simp only at hs
      have hp : e.polled st.poll = true := polled_true_of_le e s hst _ (by omega)
      simp only [run_find_duplicates_db, hf, hp, if_pos, mkTrace]
      intro _
      trivial
    | done rows total =>
      by_cases hp : e.polled st.poll = true
      · simp only [run_find_duplicates_db, hf, hp, if_pos, mkTrace]
        intro _
        trivial
      · have h1 : st.poll + 1 ≤ s := by
          rcases Nat.lt_or_ge st.poll s with hlt | hge
          · omega
          · exact absurd (polled_true_of_le e s hst _ hge) hp
        obtain ⟨g1, g2⟩ := hash_files_db_poll e s hst total
          { st with poll := st.poll + 1 } rows h1
        cases hg : hash_files_db e total { st with poll := st.poll + 1 } rows with
        | mk st' r' =>
          rw [hg] at g1 g2
          cases r' with
          | die =>
            simp only [run_find_duplicates_db, hf, hp, Bool.false_eq_true, if_false,
              hg, mkTrace]
            intro hlt
            exfalso
            have := g1 (by simp [SHash.isStopped])
            simp only at this
            omega
          | stopped rows' =>
            have hs := g2 (by simp [SHash.isStopped])
            simp only at hs
            have hp' : e.polled st'.poll = true := polled_true_of_le e s hst _ (by omega)
            simp only [run_find_duplicates_db, hf, hp, Bool.false_eq_true, if_false,
              hg, after_hash_db, hp', if_pos, mkTrace]
            intro _
            trivial
          | ok rows' =>
            by_cases hp' : e.polled st'.poll = true
            · simp only [run_find_duplicates_db, hf, hp, Bool.false_eq_true, if_false,
                hg, after_hash_db, hp', if_pos, mkTrace]
              intro _
              trivial
            · have h2 : st'.poll < s := by
                rcases Nat.lt_or_ge st'.poll s with hlt | hge
                · omega
                · exact absurd (polled_true_of_le e s hst _ hge) hp'
              simp only [run_find_duplicates_db, hf, hp, Bool.false_eq_true, if_false,
                hg, after_hash_db, hp', mkTrace]
              intro hlt
              exfalso
              omega

/-! ## Fault bounds

With the k-th progress invocation raising (`faultAt = some k`), a phase that
does not die has used only invocation indices other than `k` (hence, starting
at or below `k`, it stays at or below `k`), and a phase that dies has passed
index `k`. -/

theorem raisesAt_iff (e : Env) (kk : Nat) (hfa : e.faultAt = some kk) (j : Nat) :
    e.raisesAt j = true ↔ kk = j := by
  rw [Env.raisesAt, hfa]
  simp

theorem walk_mem_prog (e : Env) (ds : List (List Path)) :
    ∀ st : St, (walk_mem e ds st).1.prog = st.prog ∧ (walk_mem e ds st).2 ≠ .die := by
  induction ds with
  | nil =>
    intro st
    exact ⟨rfl, by simp [walk_mem]⟩
  | cons d ds ih =>
    intro st
    by_cases hp : e.polled st.poll = true
    · simp [walk_mem, hp]
    · simp only [walk_mem, hp, Bool.false_eq_true, if_false]
      obtain ⟨ih1, ih2⟩ := ih { st with poll := st.poll + 1 }
      cases hr : walk_mem e ds { st with poll := st.poll + 1 } with
      | mk st' r =>
        rw [hr] at ih1 ih2
        cases r with
        | ok rest => exact ⟨ih1, by simp⟩
        | stop => exact ⟨ih1, by simp⟩
        | die => exact absurd rfl ih2

theorem scan_mem_prog (e : Env) (k : Nat) (hfa : e.faultAt = some k)
    (T : Nat) (l : List Path) :
    ∀ (st : St) (fbs : List (Nat × List Path)), st.prog ≤ k →
      ((scan_mem e T l st fbs).2 ≠ PhRes.die → (scan_mem e T l st fbs).1.prog ≤ k) ∧
      ((scan_mem e T l st fbs).2 = PhRes.die → k < (scan_mem e T l st fbs).1.prog) := by
  induction l with
  | nil =>
    intro st fbs h
    refine ⟨fun _ => h, fun hh => ?_⟩
    simp [scan_mem] at hh
  | cons p ps ih =>
    intro st fbs h
    by_cases hp : e.polled st.poll = true
    · refine ⟨fun _ => ?_, fun hh => ?_⟩
      · simp only [scan_mem, hp, if_pos]
        exact h
      · simp only [scan_mem, hp, if_pos] at hh
        exact absurd hh (by simp)
    · simp only [scan_mem, hp, Bool.false_eq_true, if_false]
      cases hsz : e.fs.size p with
      | some n =>
        simp only [hsz]
        by_cases hrz : e.raisesAt st.prog = true
        · rw [if_pos hrz]
          have hk : k = st.prog := (raisesAt_iff e k hfa _).mp hrz
          exact ⟨fun hh => absurd rfl hh,
            fun _ => lt_of_le_of_lt (le_of_eq hk) (Nat.lt_succ_self _)⟩
        · rw [if_neg hrz]
          have hk : st.prog ≠ k := fun hh => hrz ((raisesAt_iff e k hfa _).mpr hh.symm)
          exact ih _ _ (by show st.prog + 1 ≤ k; omega)
      | none =>
        simp only [hsz]
        by_cases hrz : e.raisesAt st.prog = true
        · rw [if_pos hrz]
          have hk : k = st.prog := (raisesAt_iff e k hfa _).mp hrz
          exact ⟨fun hh => absurd rfl hh,
            fun _ => lt_of_le_of_lt (le_of_eq hk) (Nat.lt_succ_self _)⟩
        · rw [if_neg hrz]
          have hk : st.prog ≠ k := fun hh => hrz ((raisesAt_iff e k hfa _).mpr hh.symm)
          exact ih _ _ (by show st.prog + 1 ≤ k; omega)

theorem hash_group_mem_prog (e : Env) (k : Nat) (hfa : e.faultAt = some k)
    (T : Nat) (l : List Path) :
    ∀ (st : St) (hs : List (Content × Path)) (dups : List (Content × List Path)),
      st.prog ≤ k →
      ((hash_group_mem e T l st hs dups).2 ≠ PhRes.die →
        (hash_group_mem e T l st hs dups).1.prog ≤ k) ∧
      ((hash_group_mem e T l st hs dups).2 = PhRes.die →
        k < (hash_group_mem e T l st hs dups).1.prog) := by
  induction l with
  | nil =>
    intro st hs dups h
    refine ⟨fun _ => h, fun hh => ?_⟩
    simp [hash_group_mem] at hh
  | cons p ps ih =>
    intro st hs dups h
    by_cases hp : e.polled st.poll = true
    · refine ⟨fun _ => ?_, fun hh => ?_⟩
      · simp only [hash_group_mem, hp, if_pos]
        exact h
      · simp only [hash_group_mem, hp, if_pos] at hh
        exact absurd hh (by simp)
    · simp only [hash_group_mem, hp, Bool.false_eq_true, if_false]
      cases hc : e.fs.content p with
      | some c =>
        simp only [hc]
        cases hal : alookup hs c with
        | some anchor =>
          simp only [hal]
          by_cases hrz : e.raisesAt st.prog = true
          · rw [if_pos hrz]
            have hk : k = st.prog := (raisesAt_iff e k hfa _).mp hrz
            exact ⟨fun hh => absurd rfl hh,
              fun _ => lt_of_le_of_lt (le_of_eq hk) (Nat.lt_succ_self _)⟩
          · rw [if_neg hrz]
            have hk : st.prog ≠ k := fun hh => hrz ((raisesAt_iff e k hfa _).mpr hh.symm)
            exact ih _ _ _ (by show st.prog + 1 ≤ k; omega)
        | none =>
          simp only [hal]
          by_cases hrz : e.raisesAt st.prog = true
          · rw [if_pos hrz]
            have hk : k = st.prog := (raisesAt_iff e k hfa _).mp hrz
            exact ⟨fun hh => absurd rfl hh,
              fun _ => lt_of_le_of_lt (le_of_eq hk) (Nat.lt_succ_self _)⟩
          · rw [if_neg hrz]
            have hk : st.prog ≠ k := fun hh => hrz ((raisesAt_iff e k hfa _).mpr hh.symm)
            exact ih _ _ _ (by show st.prog + 1 ≤ k; omega)
      | none =>
        simp only [hc]
        by_cases hrz : e.raisesAt st.prog = true
        · rw [if_pos hrz]
          have hk : k = st.prog := (raisesAt_iff e k hfa _).mp hrz
          exact ⟨fun hh => absurd rfl hh,
            fun _ => lt_of_le_of_lt (le_of_eq hk) (Nat.lt_succ_self _)⟩
        · rw [if_neg hrz]
          have hk : st.prog ≠ k := fun hh => hrz ((raisesAt_iff e k hfa _).mpr hh.symm)
          exact ih _ _ _ (by show st.prog + 1 ≤ k; omega)

theorem hash_phase_mem_prog (e : Env) (k : Nat) (hfa : e.faultAt = some k)
    (T : Nat) (gs : List (Nat × List Path)) :
    ∀ (st : St) (dups : List (Content × List Path)), st.prog ≤ k →
      ((hash_phase_mem e T gs st dups).2 ≠ PhRes.die →
        (hash_phase_mem e T gs st dups).1.prog ≤ k) ∧
      ((hash_phase_mem e T gs st dups).2 = PhRes.die →
        k < (hash_phase_mem e T gs st dups).1.prog) := by
  induction gs with
  | nil =>
    intro st dups h
    refine ⟨fun _ => h, fun hh => ?_⟩
    simp [hash_phase_mem] at hh
  | cons g gs ih =>
    intro st dups h
    by_cases hp : e.polled st.poll = true
    · refine ⟨fun _ => ?_, fun hh => ?_⟩
      · simp only [hash_phase_mem, hp, if_pos]
        exact h
      · simp only [hash_phase_mem, hp, if_pos] at hh
        exact absurd hh (by simp)
    · simp only [hash_phase_mem, hp, Bool.false_eq_true, if_false]
      obtain ⟨g1, g2⟩ :=
        hash_group_mem_prog e k hfa T g.2 { st with poll := st.poll + 1 } [] dups h
      cases hr : hash_group_mem e T g.2 { st with poll := st.poll + 1 } [] dups with
      | mk st' r =>
        rw [hr] at g1 g2
        cases r with
        | ok dups' => exact ih st' dups' (g1 (by simp))
        | stop => exact ⟨fun _ => g1 (by simp), fun hh => absurd hh (by simp)⟩
        | die => exact ⟨fun hh => absurd rfl hh, fun _ => g2 rfl⟩

theorem find_duplicates_mem_fault (e : Env) (k : Nat) (hfa : e.faultAt = some k) :
    k < (find_duplicates_mem e).progs → (find_duplicates_mem e).res = .died := by
  obtain ⟨w1, w2⟩ := walk_mem_prog e e.fs.walk st0
  cases hw : walk_mem e e.fs.walk st0 with
  | mk st r =>
    rw [hw] at w1 w2
    cases r with
    | stop =>
      simp only [find_duplicates_mem, hw, mkTrace]
      intro hlt
      exfalso
      simp only [st0] at w1
      omega
    | die => exact absurd rfl w2
    | ok allFiles =>
      have hw1 : st.prog ≤ k := by
        simp only [st0] at w1
        omega
      obtain ⟨s1, s2⟩ := scan_mem_prog e k hfa allFiles.length allFiles st [] hw1
      cases hsc : scan_mem e allFiles.length allFiles st [] with
      | mk st' r' =>
        rw [hsc] at s1 s2
        cases r' with
        | stop =>
          simp only [find_duplicates_mem, hw, hsc, mkTrace]
          intro hlt
          exfalso
          have := s1 (by simp)
          simp only at this
          omega
        | die =>
          simp only [find_duplicates_mem, hw, hsc, mkTrace]
          intro _
          trivial
        | ok fbs =>
          have hs1 : st'.prog ≤ k := s1 (by simp)
          obtain ⟨p1, p2⟩ :=
            hash_phase_mem_prog e k hfa allFiles.length (potentialDupes fbs) st' [] hs1
          cases hh : hash_phase_mem e allFiles.length (potentialDupes fbs) st' [] with
          | mk st'' r'' =>
            rw [hh] at p1 p2
            cases r'' with
            | stop =>
              simp only [find_duplicates_mem, hw, hsc, hh, mkTrace]
              intro hlt
              exfalso
              have := p1 (by simp)
              simp only at this
              omega
            | die =>
              simp only [find_duplicates_mem, hw, hsc, hh, mkTrace]
              intro _
              trivial
            | ok dups =>
              simp only [find_duplicates_mem, hw, hsc, hh, mkTrace]
              intro hlt
              exfalso
              have := p1 (by simp)
              simp only at this
              omega

theorem walk_db_prog (e : Env) (ds : List (List Path)) :
    ∀ st : St, (walk_db e ds st).1.prog = st.prog ∧ (walk_db e ds st).2 ≠ .die := by
  induction ds with
  | nil =>
    intro st
    exact ⟨rfl, by simp [walk_db]⟩
  | cons d ds ih =>
    intro st
    by_cases hp : e.polled st.poll = true
    · simp [walk_db, hp]
    · simp only [walk_db, hp, Bool.false_eq_true, if_false]
      obtain ⟨ih1, ih2⟩ := ih { st with poll := st.poll + 1 }
      cases hr : walk_db e ds { st with poll := st.poll + 1 } with
      | mk st' r =>
        rw [hr] at ih1 ih2
        cases r with
        | ok rest => exact ⟨ih1, by simp⟩
        | stop => exact ⟨ih1, by simp⟩
        | die => exact absurd rfl ih2

theorem scan_loop_db_prog (e : Env) (k : Nat) (hfa : e.faultAt = some k)
    (T : Nat) (l : List Path) :
    ∀ (st : St) (rows : List Row), st.prog ≤ k →
      ((scan_loop_db e T l st rows).2 ≠ SScan.die →
        (scan_loop_db e T l st rows).1.prog ≤ k) ∧
      ((scan_loop_db e T l st rows).2 = SScan.die →
        k < (scan_loop_db e T l st rows).1.prog) := by
  induction l with
  | nil =>
    intro st rows h
    refine ⟨fun _ => h, fun hh => ?_⟩
    simp [scan_loop_db] at hh
  | cons p ps ih =>
    intro st rows h
    by_cases hp : e.polled st.poll = true
    · refine ⟨fun _ => ?_, fun hh => ?_⟩
      · simp only [scan_loop_db, hp, if_pos]
        exact h
      · simp only [scan_loop_db, hp, if_pos] at hh
        exact absurd hh (by simp)
    · simp only [scan_loop_db, hp, Bool.false_eq_true, if_false]
      cases hsz : e.fs.size p with
      | some n =>
        simp only [hsz]
        by_cases hrz : e.raisesAt st.prog = true
        · rw [if_pos hrz]
          have hk : k = st.prog := (raisesAt_iff e k hfa _).mp hrz
          exact ⟨fun hh => absurd rfl hh,
            fun _ => lt_of_le_of_lt (le_of_eq hk) (Nat.lt_succ_self _)⟩
        · rw [if_neg hrz]
          have hk : st.prog ≠ k := fun hh => hrz ((raisesAt_iff e k hfa _).mpr hh.symm)
          exact ih _ _ (by show st.prog + 1 ≤ k; omega)
      | none =>
        simp only [hsz]
        by_cases hrz : e.raisesAt st.prog = true
        · rw [if_pos hrz]
          have hk : k = st.prog := (raisesAt_iff e k hfa _).mp hrz
          exact ⟨fun hh => absurd rfl hh,
            fun _ => lt_of_le_of_lt (le_of_eq hk) (Nat.lt_succ_self _)⟩
        · rw [if_neg hrz]
          have hk : st.prog ≠ k := fun hh => hrz ((raisesAt_iff e k hfa _).mpr hh.symm)
          exact ih _ _ (by show st.prog + 1 ≤ k; omega)

theorem scan_files_db_prog (e : Env) (k : Nat) (hfa : e.faultAt = some k)
    (st : St) (h : st.prog ≤ k) :
    ((scan_files_db e st).2 ≠ SScan.die → (scan_files_db e st).1.prog ≤ k) ∧
    ((scan_files_db e st).2 = SScan.die → k < (scan_files_db e st).1.prog) := by
  obtain ⟨w1, w2⟩ :=
    walk_db_prog e e.fs.walk { st with out := st.out ++ [Line.collectLine] }
  cases hw : walk_db e e.fs.walk { st with out := st.out ++ [Line.collectLine] } with
  | mk st' r =>
    rw [hw] at w1 w2
    cases r with
    | stop =>
      simp only [scan_files_db, hw]
      exact ⟨fun _ => le_of_eq_of_le w1 h, fun hh => absurd hh (by simp)⟩
    | die => exact absurd rfl w2
    | ok allFiles =>
      have h' : St.prog { st' with scanned := 0 } ≤ k := le_of_eq_of_le w1 h
      obtain ⟨s1, s2⟩ :=
        scan_loop_db_prog e k hfa allFiles.length allFiles { st' with scanned := 0 } [] h'
      cases hsc : scan_loop_db e allFiles.length allFiles { st' with scanned := 0 } [] with
      | mk st'' r' =>
        rw [hsc] at s1 s2
        cases r' with
        | done rows total =>
          simp only [scan_files_db, hw, hsc]
          exact ⟨fun _ => s1 (by simp), fun hh => absurd hh (by simp)⟩
        | early rows total =>
          simp only [scan_files_db, hw, hsc]
          exact ⟨fun _ => s1 (by simp), fun hh => absurd hh (by simp)⟩
        | die =>
          simp only [scan_files_db, hw, hsc]
          exact ⟨fun hh => absurd rfl hh, fun _ => s2 rfl⟩

theorem hash_loop_db_prog (e : Env) (k : Nat) (hfa : e.faultAt = some k)
    (T gi gn fn : Nat) (l : List Path) :
    ∀ (i : Nat) (st : St) (rows : List Row), st.prog ≤ k →
      ((hash_loop_db e T gi gn fn l i st rows).2 ≠ SHash.die →
        (hash_loop_db e T gi gn fn l i st rows).1.prog ≤ k) ∧
      ((hash_loop_db e T gi gn fn l i st rows).2 = SHash.die →
        k < (hash_loop_db e T gi gn fn l i st rows).1.prog) := by
  induction l with
  | nil =>
    intro i st rows h
    refine ⟨fun _ => h, fun hh => ?_⟩
    simp [hash_loop_db] at hh
  | cons p ps ih =>
    intro i st rows h
    by_cases hp : e.polled st.poll = true
    · refine ⟨fun _ => ?_, fun hh => ?_⟩
      · simp only [hash_loop_db, hp, if_pos]
        exact h
      · simp only [hash_loop_db, hp, if_pos] at hh
        exact absurd hh (by simp)
    · simp only [hash_loop_db, hp, Bool.false_eq_true, if_false]
      cases hc : e.fs.content p with
      | some c =>
        simp only [hc]
        by_cases hrz : e.raisesAt st.prog = true
        · rw [if_pos hrz]
          have hk : k = st.prog := (raisesAt_iff e k hfa _).mp hrz
          exact ⟨fun hh => absurd rfl hh,
            fun _ => lt_of_le_of_lt (le_of_eq hk) (Nat.lt_succ_self _)⟩
        · rw [if_neg hrz]
          have hk : st.prog ≠ k := fun hh => hrz ((raisesAt_iff e k hfa _).mpr hh.symm)
          exact ih _ _ _ (by show st.prog + 1 ≤ k; omega)
      | none =>
        simp only [hc]
        by_cases hrz : e.raisesAt st.prog = true
        · rw [if_pos hrz]
          have hk : k = st.prog := (raisesAt_iff e k hfa _).mp hrz
          exact ⟨fun hh => absurd rfl hh,
            fun _ => lt_of_le_of_lt (le_of_eq hk) (Nat.lt_succ_self _)⟩
        · rw [if_neg hrz]
          have hk : st.prog ≠ k := fun hh => hrz ((raisesAt_iff e k hfa _).mpr hh.symm)
          exact ih _ _ _ (by show st.prog + 1 ≤ k; omega)

theorem hash_groups_db_prog (e : Env) (k : Nat) (hfa : e.faultAt = some k)
    (T gn : Nat) (ss : List Nat) :
    ∀ (gi : Nat) (st : St) (rows : List Row), st.prog ≤ k →
      ((hash_groups_db e T gn ss gi st rows).2 ≠ SHash.die →
        (hash_groups_db e T gn ss gi st rows).1.prog ≤ k) ∧
      ((hash_groups_db e T gn ss gi st rows).2 = SHash.die →
        k < (hash_groups_db e T gn ss gi st rows).1.prog) := by
  induction ss with
  | nil =>
    intro gi st rows h
    refine ⟨fun _ => h, fun hh => ?_⟩
    simp [hash_groups_db] at hh
  | cons s ss ih =>
    intro gi st rows h
    by_cases hp : e.polled st.poll = true
    · refine ⟨fun _ => ?_, fun hh => ?_⟩
      · simp only [hash_groups_db, hp, if_pos]
        exact h
      · simp only [hash_groups_db, hp, if_pos] at hh
        exact absurd hh (by simp)
    · simp only [hash_groups_db, hp, Bool.false_eq_true, if_false]
      obtain ⟨g1, g2⟩ := hash_loop_db_prog e k hfa T (gi + 1) gn
        ((rows.filter (fun r => r.size = s)).map (·.path)).length
        ((rows.filter (fun r => r.size = s)).map (·.path)) 1
        { st with poll := st.poll + 1,
                  out := st.out ++ [Line.groupLine (gi + 1) gn s] } rows h
      cases hr : hash_loop_db e T (gi + 1) gn
          ((rows.filter (fun r => r.size = s)).map (·.path)).length
          ((rows.filter (fun r => r.size = s)).map (·.path)) 1
          { st with poll := st.poll + 1,
                    out := st.out ++ [Line.groupLine (gi + 1) gn s] } rows with
      | mk st2 r =>
        rw [hr] at g1 g2
        cases r with
        | ok rows' => exact ih (gi + 1) st2 rows' (g1 (by simp))
        | stopped rows' => exact ⟨fun _ => g1 (by simp), fun hh => absurd hh (by simp)⟩
        | die => exact ⟨fun hh => absurd rfl hh, fun _ => g2 rfl⟩

theorem hash_files_db_prog (e : Env) (k : Nat) (hfa : e.faultAt = some k)
    (T : Nat) (st : St) (rows : List Row) (h : st.prog ≤ k) :
    ((hash_files_db e T st rows).2 ≠ SHash.die →
      (hash_files_db e T st rows).1.prog ≤ k) ∧
    ((hash_files_db e T st rows).2 = SHash.die →
      k < (hash_files_db e T st rows).1.prog) := by
  obtain ⟨g1, g2⟩ := hash_groups_db_prog e k hfa T (candSizes rows).length (candSizes rows)
    0 { st with out := st.out ++ [Line.hashingStart], scanned := 0 } rows h
  cases hr : hash_groups_db e T (candSizes rows).length (candSizes rows)
      0 { st with out := st.out ++ [Line.hashingStart], scanned := 0 } rows with
  | mk st' r =>
    rw [hr] at g1 g2
    cases r with
    | ok rows' =>
      simp only [hash_files_db, hr]
      exact ⟨fun _ => g1 (by simp), fun hh => absurd hh (by simp)⟩
    | stopped rows' =>
      simp only [hash_files_db, hr]
      exact ⟨fun _ => g1 (by simp), fun hh => absurd hh (by simp)⟩
    | die =>
      simp only [hash_files_db, hr]
      exact ⟨fun hh => absurd rfl hh, fun _ => g2 rfl⟩

theorem after_hash_db_progs (e : Env) (st : St) (rows : List Row) :
    (after_hash_db e st rows).progs = st.prog ∧
    (after_hash_db e st rows).res ≠ .failed := by
  rw [after_hash_db]
  by_cases hp : e.polled st.poll = true
  · rw [if_pos hp]
    exact ⟨rfl, by simp [mkTrace]⟩
  · rw [if_neg hp]
    exact ⟨rfl, by simp [mkTrace]⟩

theorem run_db_fault (e : Env) (k : Nat) (hfa : e.faultAt = some k) :
    k < (run_find_duplicates_db e).progs →
      (run_find_duplicates_db e).res = .failed ∧
      (run_find_duplicates_db e).out.getLast? = some Line.unexpectedErr := by
  obtain ⟨f1, f2⟩ := scan_files_db_prog e k hfa st0 (by simp [st0])
  cases hf : scan_files_db e st0 with
  | mk st r =>
    rw [hf] at f1 f2
    cases r with
    | die =>
      simp only [run_find_duplicates_db, hf, mkTrace]
      intro _
      exact ⟨by trivial, List.getLast?_concat _⟩
    | done rows total =>
      have hsp : st.prog ≤ k := f1 (by simp)
      by_cases hp : e.polled st.poll = true
      · simp only [run_find_duplicates_db, hf, hp, if_pos, mkTrace]
        intro hlt
        exfalso
        omega
      · obtain ⟨h1, h2⟩ :=
          hash_files_db_prog e k hfa total { st with poll := st.poll + 1 } rows hsp
        cases hh : hash_files_db e total { st with poll := st.poll + 1 } rows with
        | mk st' r' =>
          rw [hh] at h1 h2
          cases r' with
          | die =>
            simp only [run_find_duplicates_db, hf, hp, Bool.false_eq_true, if_false,
              hh, mkTrace]
            intro _
            exact ⟨by trivial, List.getLast?_concat _⟩
          | ok rows' =>
            obtain ⟨a1, a2⟩ := after_hash_db_progs e st' rows'
            simp only [run_find_duplicates_db, hf, hp, Bool.false_eq_true, if_false, hh]
            intro hlt
            exfalso
            rw [a1] at hlt
            have hle : st'.prog ≤ k := h1 (by simp)
            omega
          | stopped rows' =>
            obtain ⟨a1, a2⟩ := after_hash_db_progs e st' rows'
            simp only [run_find_duplicates_db, hf, hp, Bool.false_eq_true, if_false, hh]
            intro hlt
            exfalso
            rw [a1] at hlt
            have hle : st'.prog ≤ k := h1 (by simp)
            omega
    | early rows total =>
      have hsp : st.prog ≤ k := f1 (by simp)
      by_cases hp : e.polled st.poll = true
      · simp only [run_find_duplicates_db, hf, hp, if_pos, mkTrace]
        intro hlt
        exfalso
        omega
      · obtain ⟨h1, h2⟩ :=
          hash_files_db_prog e k hfa total { st with poll := st.poll + 1 } rows hsp
        cases hh : hash_files_db e total { st with poll := st.poll + 1 } rows with
        | mk st' r' =>
          rw [hh] at h1 h2
          cases r' with
          | die =>
            simp only [run_find_duplicates_db, hf, hp, Bool.false_eq_true, if_false,
              hh, mkTrace]
            intro _
            exact ⟨by trivial, List.getLast?_concat _⟩
          | ok rows' =>
            obtain ⟨a1, a2⟩ := after_hash_db_progs e st' rows'
            simp only [run_find_duplicates_db, hf, hp, Bool.false_eq_true, if_false, hh]
            intro hlt
            exfalso
            rw [a1] at hlt
            have hle : st'.prog ≤ k := h1 (by simp)
            omega
          | stopped rows' =>
            obtain ⟨a1, a2⟩ := after_hash_db_progs e st' rows'
            simp only [run_find_duplicates_db, hf, hp, Bool.false_eq_true, if_false, hh]
            intro hlt
            exfalso
            rw [a1] at hlt
            have hle : st'.prog ≤ k := h1 (by simp)
            omega

/-! ## Well-formedness of the concrete trees, and small list facts -/

theorem fsDup_wf : fsDup.wf := by
  constructor
  · decide
  · intro p c h
    show (contDup p).map List.length = some c.length
    rw [show contDup p = some c from h]
    rfl

theorem fsComma_wf : fsComma.wf := by
  constructor
  · decide
  · intro p c h
    show (contComma p).map List.length = some c.length
    rw [show contComma p = some c from h]
    rfl

theorem fsOne_wf : fsOne.wf := by
  constructor
  · decide
  · intro p c h
    show (contOne p).map List.length = some c.length
    rw [show contOne p = some c from h]
    rfl

theorem fsFrag_wf : fsFrag.wf := by
  constructor
  · decide
  · intro p c h
    by_cases hb : p = pb
    · subst hb
      have hh : contFrag pb = some c := h
      simp [contFrag, pb, pX, pB] at hh
    · show (if p = pb then some 1 else (contFrag p).map List.length) = some c.length
      rw [if_neg hb, show contFrag p = some c from h]
      rfl

theorem two_le_length_of_mem_ne {α : Type} {a b : α} {l : List α}
    (ha : a ∈ l) (hb : b ∈ l) (h : a ≠ b) : 2 ≤ l.length := by
  cases l with
  | nil => simp at ha
  | cons x t =>
    cases t with
    | nil =>
      simp only [List.mem_singleton] at ha hb
      exact absurd (ha.trans hb.symm) h
    | cons y u => simp [Nat.le_add_left]

theorem insAppend_length_le {α : Type} [DecidableEq α]
    (m : List (α × List Path)) (k : α) (p : Path) :
    (insAppend m k p).length ≤ m.length + 1 := by
  induction m with
  | nil => simp [insAppend]
  | cons a l ih =>
    obtain ⟨a1, a2⟩ := a
    by_cases h : a1 = k
    · simp [insAppend, h]
    · simp only [insAppend, if_neg h, List.length_cons]
      omega

/-! ## `ramp` facts -/

theorem mem_ramp {x : Nat × Nat} {s len T : Nat} (h : x ∈ ramp s len T) :
    x.2 = T ∧ s ≤ x.1 ∧ x.1 < s + len := by
  rw [ramp, List.mem_map] at h
  obtain ⟨i, hi, rfl⟩ := h
  rw [List.mem_range'_1] at hi
  exact ⟨rfl, hi.1, hi.2⟩

theorem ramp_cons (s n T : Nat) : ramp s (n + 1) T = (s, T) :: ramp (s + 1) n T := by
  rw [ramp, List.range'_succ, List.map_cons, ramp]

theorem ramp_chain (len : Nat) :
    ∀ s T : Nat, List.Chain' (fun a b : Nat × Nat => a.1 ≤ b.1) (ramp s len T) := by
  induction len with
  | zero => intro s T; simp [ramp]
  | succ n ih =>
    intro s T
    rw [ramp_cons]
    refine List.chain'_cons'.mpr ⟨?_, ih (s + 1) T⟩
    intro b hb
    have hm : b ∈ ramp (s + 1) n T := List.mem_of_mem_head? hb
    have := mem_ramp hm
    omega

theorem ramp_getLast (len : Nat) :
    ∀ s T : Nat, 0 < len → (ramp s len T).getLast? = some (s + len - 1, T) := by
  induction len with
  | zero => intro s T h; exact absurd h (lt_irrefl 0)
  | succ n ih =>
    intro s T _
    rw [ramp_cons]
    cases n with
    | zero => simp [ramp]
    | succ m =>
      rw [ramp_cons]
      rw [List.getLast?_cons_cons, ← ramp_cons, ih (s + 1) T (by omega)]
      congr 2
      omega

/-! ## The staged hashing phase processes at most `total_files` files -/

theorem hashRowsFold_filter_size_path (fs : FS) (l : List Path) (rows : List Row)
    (s : Nat) :
    ((hashRowsFold fs l rows).filter (fun r => r.size = s)).map (fun r => r.path) =
      (rows.filter (fun r => r.size = s)).map (fun r => r.path) := by
  rw [hashRowsFold_eq, List.filter_map, List.map_map]
  have hq : ((fun r : Row => decide (r.size = s)) ∘ (fun r : Row =>
      if r.path ∈ l then
        match fs.content r.path with
        | some c => { r with hash := some c }
        | none => r
      else r)) = fun r : Row => decide (r.size = s) := by
    funext r
    by_cases hp : r.path ∈ l
    · cases hc : fs.content r.path <;> simp [hp, hc]
    · simp [hp]
  rw [hq]
  apply List.map_congr_left
  intro r _
  by_cases hp : r.path ∈ l
  · cases hc : fs.content r.path <;> simp [hp, hc]
  · simp [hp]

theorem groupsFiles_length (fs : FS) (ss : List Nat) :
    ∀ rows : List Row,
      (groupsFiles fs ss rows).length =
        (ss.map (fun s => (rows.filter (fun r => r.size = s)).length)).sum := by
  induction ss with
  | nil => intro rows; simp [groupsFiles]
  | cons s ss ih =>
    intro rows
    simp only [groupsFiles, List.length_append, List.length_map, List.map_cons,
      List.sum_cons, ih]
    congr 1
    apply congrArg
    apply List.map_congr_left
    intro t _
    have := congrArg List.length
      (hashRowsFold_filter_size_path fs
        ((rows.filter (fun r => r.size = s)).map (fun r => r.path)) rows t)
    simpa using this

theorem groupsFiles_le (fs : FS) (rows : List Row) :
    (groupsFiles fs (candSizes rows) rows).length ≤ rows.length := by
  rw [groupsFiles_length]
  exact sum_filter_count_le (fun r => r.size) _ (candSizes_nodup rows) rows

theorem scanRows_length_le (fs : FS) : (scanRows fs).length ≤ fs.allFiles.length := by
  rw [scanRows_eq, mkRows]
  exact List.length_filterMap_le _ _

theorem staged_hashed_le (fs : FS) :
    (groupsFiles fs (candSizes (scanRows fs)) (scanRows fs)).length ≤
      fs.allFiles.length :=
  le_trans (groupsFiles_le fs (scanRows fs)) (scanRows_length_le fs)

/-! ## Error lines of the pure runs, and exclusion of failed paths -/

theorem mem_scanOuts (fs : FS) (l : List Path) (p : Path)
    (hp : p ∈ l) (hs : fs.size p = none) : Line.sizeErr p ∈ scanOuts fs l := by
  induction l with
  | nil => simp at hp
  | cons q qs ih =>
    rw [scanOuts]
    rcases List.mem_cons.mp hp with h | h
    · subst h
      rw [hs]
      simp
    · cases fs.size q <;> simp [ih h]

theorem mem_sizeErrOuts (fs : FS) (l : List Path) (p : Path)
    (hp : p ∈ l) (hs : fs.size p = none) : Line.sizeErr p ∈ sizeErrOuts fs l := by
  induction l with
  | nil => simp at hp
  | cons q qs ih =>
    rw [sizeErrOuts]
    rcases List.mem_cons.mp hp with h | h
    · subst h
      rw [hs]
      simp
    · cases fs.size q <;> simp [ih h]

theorem mem_hashErrOuts (fs : FS) (l : List Path) (p : Path)
    (hp : p ∈ l) (hc : fs.content p = none) : Line.hashErr p ∈ hashErrOuts fs l := by
  induction l with
  | nil => simp at hp
  | cons q qs ih =>
    rw [hashErrOuts]
    rcases List.mem_cons.mp hp with h | h
    · subst h
      rw [hc]
      simp
    · cases fs.content q <;> simp [ih h]

theorem mem_groupsOutsMem (fs : FS) (gs : List (Nat × List Path)) (p : Path)
    (hc : fs.content p = none) (hp : ∃ g ∈ gs, p ∈ g.2) :
    Line.hashErr p ∈ groupsOutsMem fs gs := by
  induction gs with
  | nil =>
    obtain ⟨g, hg, _⟩ := hp
    simp at hg
  | cons g gs ih =>
    rw [groupsOutsMem]
    obtain ⟨g', hg', hpg⟩ := hp
    rcases List.mem_cons.mp hg' with h | h
    · subst h
      exact List.mem_append_left _ (mem_hashErrOuts fs g'.2 p hpg hc)
    · exact List.mem_append_right _ (ih ⟨g', h, hpg⟩)

theorem mem_hashOutsDb (fs : FS) (fn : Nat) (l : List Path) (p : Path) :
    ∀ i : Nat, p ∈ l → fs.content p = none →
      Line.hashErr p ∈ hashOutsDb fs fn l i := by
  induction l with
  | nil =>
    intro i h _
    simp at h
  | cons q qs ih =>
    intro i hp hc
    rw [hashOutsDb]
    rcases List.mem_cons.mp hp with h | h
    · subst h
      rw [hc]
      simp
    · cases fs.content q <;> simp [ih (i + 1) h hc]

theorem mem_groupsOutsDb (fs : FS) (gn : Nat) (ss : List Nat) (p : Path)
    (hc : fs.content p = none) :
    ∀ (gi : Nat) (rows : List Row), p ∈ groupsFiles fs ss rows →
      Line.hashErr p ∈ groupsOutsDb fs gn ss gi rows := by
  induction ss with
  | nil =>
    intro gi rows h
    simp [groupsFiles] at h
  | cons s ss ih =>
    intro gi rows hp
    rw [groupsOutsDb]
    rw [groupsFiles] at hp
    rcases List.mem_append.mp hp with h | h
    · exact List.mem_append_left _
        (List.mem_cons_of_mem _ (mem_hashOutsDb fs _ _ p 1 h hc))
    · exact List.mem_append_right _ (ih (gi + 1) _ h)

theorem sizeFold_not_mem (fs : FS) (p : Path) (hs : fs.size p = none)
    (n : Nat) (ps : List Path)
    (h : alookup (sizeFold fs fs.allFiles []) n = some ps) : p ∉ ps := by
  rw [alookup_sizeFold] at h
  simp only [alookup] at h
  by_cases hfe : fs.allFiles.filter (fun q => decide (fs.size q = some n)) = []
  · rw [if_pos hfe] at h
    exact absurd h (by simp)
  · rw [if_neg hfe] at h
    have hps : ps = fs.allFiles.filter (fun q => decide (fs.size q = some n)) :=
      (Option.some.inj h).symm
    subst hps
    intro hmem
    have := List.of_mem_filter hmem
    simp [hs] at this

theorem canonLookup_some (fs : FS) (c : Content) (ps : List Path)
    (h : canonLookup fs c = some ps) : ps = dupPaths fs c ∧ 2 ≤ ps.length := by
  rw [canonLookup] at h
  by_cases h2 : 2 ≤ (dupPaths fs c).length
  · rw [if_pos h2] at h
    have := Option.some.inj h
    exact ⟨this.symm, this ▸ h2⟩
  · rw [if_neg h2] at h
    exact absurd h (by simp)

theorem mem_dupPaths (fs : FS) (c : Content) (p : Path) :
    p ∈ dupPaths fs c ↔ p ∈ fs.allFiles ∧ fs.content p = some c := by
  rw [dupPaths, List.mem_filter]
  simp

/-! ## Progress reports of arbitrary runs (any flag timing, any fault)

Each phase only ever appends reports `(scanned + 1, T)` for its own `T`, and
only while it still has input; these invariants bound every report of every
run, cancelled, faulted or complete. -/

theorem polled_mono (e : Env) {i j : Nat} (h : e.polled i = true) (hij : i ≤ j) :
    e.polled j = true := by
  rw [Env.polled] at h ⊢
  cases hs : e.stopAt with
  | none =>
    rw [hs] at h
    simp at h
  | some s =>
    rw [hs] at h
    simp only [decide_eq_true_eq] at h ⊢
    omega

theorem walk_mem_keep (e : Env) (ds : List (List Path)) :
    ∀ st : St, (walk_mem e ds st).1.reps = st.reps ∧
      (walk_mem e ds st).1.scanned = st.scanned ∧
      (walk_mem e ds st).1.hashed = st.hashed := by
  induction ds with
  | nil =>
    intro st
    exact ⟨rfl, rfl, rfl⟩
  | cons d ds ih =>
    intro st
    by_cases hp : e.polled st.poll = true
    · simp [walk_mem, hp]
    · simp only [walk_mem, hp, Bool.false_eq_true, if_false]
      obtain ⟨i1, i2, i3⟩ := ih { st with poll := st.poll + 1 }
      cases hr : walk_mem e ds { st with poll := st.poll + 1 } with
      | mk st' r =>
        rw [hr] at i1 i2 i3
        cases r with
        | ok rest => exact ⟨i1, i2, i3⟩
        | stop => exact ⟨i1, i2, i3⟩
        | die => exact ⟨i1, i2, i3⟩

theorem walk_db_keep (e : Env) (ds : List (List Path)) :
    ∀ st : St, (walk_db e ds st).1.reps = st.reps ∧
      (walk_db e ds st).1.scanned = st.scanned ∧
      (walk_db e ds st).1.hashed = st.hashed := by
  induction ds with
  | nil =>
    intro st
    exact ⟨rfl, rfl, rfl⟩
  | cons d ds ih =>
    intro st
    by_cases hp : e.polled st.poll = true
    · simp [walk_db, hp]
    · simp only [walk_db, hp, Bool.false_eq_true, if_false]
      obtain ⟨i1, i2, i3⟩ := ih { st with poll := st.poll + 1 }
      cases hr : walk_db e ds { st with poll := st.poll + 1 } with
      | mk st' r =>
        rw [hr] at i1 i2 i3
        cases r with
        | ok rest => exact ⟨i1, i2, i3⟩
        | stop => exact ⟨i1, i2, i3⟩
        | die => exact ⟨i1, i2, i3⟩

theorem scan_mem_reps (e : Env) (T : Nat) (l : List Path) :
    ∀ (st : St) (fbs : List (Nat × List Path)),
      ∀ x ∈ (scan_mem e T l st fbs).1.reps, x ∈ st.reps ∨ (x.2 = T ∧ l ≠ []) := by
  induction l with
  | nil =>
    intro st fbs x hx
    exact Or.inl hx
  | cons p ps ih =>
    intro st fbs x hx
    by_cases hp : e.polled st.poll = true
    · simp only [scan_mem, hp, if_pos] at hx
      exact Or.inl hx
    · simp only [scan_mem, hp, Bool.false_eq_true, if_false] at hx
      cases hsz : e.fs.size p with
      | some n =>
        simp only [hsz] at hx
        by_cases hrz : e.raisesAt st.prog = true
        · rw [if_pos hrz] at hx
          exact Or.inl hx
        · rw [if_neg hrz] at hx
          rcases ih _ _ x hx with h | h
          · have h' : x ∈ st.reps ++ [(st.scanned + 1, T)] := h
            rcases List.mem_append.mp h' with h1 | h1
            · exact Or.inl h1
            · have hxv : x = (st.scanned + 1, T) := by simpa using h1
              subst hxv
              exact Or.inr ⟨rfl, by simp⟩
          · exact Or.inr ⟨h.1, by simp⟩
      | none =>
        simp only [hsz] at hx
        by_cases hrz : e.raisesAt st.prog = true
        · rw [if_pos hrz] at hx
          exact Or.inl hx
        · rw [if_neg hrz] at hx
          rcases ih _ _ x hx with h | h
          · have h' : x ∈ st.reps ++ [(st.scanned + 1, T)] := h
            rcases List.mem_append.mp h' with h1 | h1
            · exact Or.inl h1
            · have hxv : x = (st.scanned + 1, T) := by simpa using h1
              subst hxv
              exact Or.inr ⟨rfl, by simp⟩
          · exact Or.inr ⟨h.1, by simp⟩

theorem scan_mem_fbslen (e : Env) (T : Nat) (l : List Path) :
    ∀ (st : St) (fbs v : List (Nat × List Path)),
      (scan_mem e T l st fbs).2 = .ok v → v.length ≤ fbs.length + l.length := by
  induction l with
  | nil =>
    intro st fbs v h
    have hv : fbs = v := PhRes.ok.inj h
    subst hv
    simp
  | cons p ps ih =>
    intro st fbs v h
    by_cases hp : e.polled st.poll = true
    · simp only [scan_mem, hp, if_pos] at h
      exact absurd h (by simp)
    · simp only [scan_mem, hp, Bool.false_eq_true, if_false] at h
      cases hsz : e.fs.size p with
      | some n =>
        simp only [hsz] at h
        by_cases hrz : e.raisesAt st.prog = true
        · rw [if_pos hrz] at h
          exact absurd h (by simp)
        · rw [if_neg hrz] at h
          have := ih _ _ _ h
          have hins := insAppend_length_le fbs n p
          simp only [List.length_cons]
          omega
      | none =>
        simp only [hsz] at h
        by_cases hrz : e.raisesAt st.prog = true
        · rw [if_pos hrz] at h
          exact absurd h (by simp)
        · rw [if_neg hrz] at h
          have := ih _ _ _ h
          simp only [List.length_cons]
          omega

theorem hash_group_mem_reps (e : Env) (T : Nat) (l : List Path) :
    ∀ (st : St) (hs : List (Content × Path)) (dups : List (Content × List Path)),
      ∀ x ∈ (hash_group_mem e T l st hs dups).1.reps,
        x ∈ st.reps ∨ (x.2 = T ∧ l ≠ []) := by
  induction l with
  | nil =>
    intro st hs dups x hx
    exact Or.inl hx
  | cons p ps ih =>
    intro st hs dups x hx
    by_cases hp : e.polled st.poll = true
    · simp only [hash_group_mem, hp, if_pos] at hx
      exact Or.inl hx
    · simp only [hash_group_mem, hp, Bool.false_eq_true, if_false] at hx
      cases hc : e.fs.content p with
      | some c =>
        simp only [hc] at hx
        cases hal : alookup hs c with
        | some anchor =>
          simp only [hal] at hx
          by_cases hrz : e.raisesAt st.prog = true
          · rw [if_pos hrz] at hx
            exact Or.inl hx
          · rw [if_neg hrz] at hx
            rcases ih _ _ _ x hx with h | h
            · have h' : x ∈ st.reps ++ [(st.scanned + 1, T)] := h
              rcases List.mem_append.mp h' with h1 | h1
              · exact Or.inl h1
              · have hxv : x = (st.scanned + 1, T) := by simpa using h1
                subst hxv
                exact Or.inr ⟨rfl, by simp⟩
            · exact Or.inr ⟨h.1, by simp⟩
        | none =>
          simp only [hal] at hx
          by_cases hrz : e.raisesAt st.prog = true
          · rw [if_pos hrz] at hx
            exact Or.inl hx
          · rw [if_neg hrz] at hx
            rcases ih _ _ _ x hx with h | h
            · have h' : x ∈ st.reps ++ [(st.scanned + 1, T)] := h
              rcases List.mem_append.mp h' with h1 | h1
              · exact Or.inl h1
              · have hxv : x = (st.scanned + 1, T) := by simpa using h1
                subst hxv
                exact Or.inr ⟨rfl, by simp⟩
            · exact Or.inr ⟨h.1, by simp⟩
      | none =>
        simp only [hc] at hx
        by_cases hrz : e.raisesAt st.prog = true
        · rw [if_pos hrz] at hx
          exact Or.inl hx
        · rw [if_neg hrz] at hx
          rcases ih _ _ _ x hx with h | h
          · have h' : x ∈ st.reps ++ [(st.scanned + 1, T)] := h
            rcases List.mem_append.mp h' with h1 | h1
            · exact Or.inl h1
            · have hxv : x = (st.scanned + 1, T) := by simpa using h1
              subst hxv
              exact Or.inr ⟨rfl, by simp⟩
          · exact Or.inr ⟨h.1, by simp⟩

theorem hash_phase_mem_reps (e : Env) (T : Nat) (gs : List (Nat × List Path)) :
    ∀ (st : St) (dups : List (Content × List Path)),
      ∀ x ∈ (hash_phase_mem e T gs st dups).1.reps,
        x ∈ st.reps ∨ (x.2 = T ∧ gs ≠ []) := by
  induction gs with
  | nil =>
    intro st dups x hx
    exact Or.inl hx
  | cons g gs ih =>
    intro st dups x hx
    by_cases hp : e.polled st.poll = true
    · simp only [hash_phase_mem, hp, if_pos] at hx
      exact Or.inl hx
    · simp only [hash_phase_mem, hp, Bool.false_eq_true, if_false] at hx
      cases hr : hash_group_mem e T g.2 { st with poll := st.poll + 1 } [] dups with
      | mk st' r =>
        rw [hr] at hx
        have hgl : ∀ y ∈ st'.reps, y ∈ st.reps ∨ (y.2 = T ∧ (g :: gs : List _) ≠ []) := by
          intro y hy
          have := hash_group_mem_reps e T g.2 { st with poll := st.poll + 1 } [] dups y
            (by rw [hr]; exact hy)
          rcases this with h | h
          · exact Or.inl h
          · exact Or.inr ⟨h.1, by simp⟩
        cases r with
        | ok dups' =>
          rcases ih st' dups' x hx with h | h
          · exact hgl x h
          · exact Or.inr ⟨h.1, by simp⟩
        | stop => exact hgl x hx
        | die => exact hgl x hx

theorem find_duplicates_mem_repsnd (e : Env) :
    ∀ x ∈ (find_duplicates_mem e).reps, 0 < x.2 := by
  intro x hx
  obtain ⟨w1, w2, w3⟩ := walk_mem_keep e e.fs.walk st0
  cases hw : walk_mem e e.fs.walk st0 with
  | mk st r =>
    rw [hw] at w1 w2 w3
    have hreps : st.reps = [] := w1
    cases r with
    | stop =>
      simp only [find_duplicates_mem, hw, mkTrace] at hx
      rw [hreps] at hx
      simp at hx
    | die =>
      simp only [find_duplicates_mem, hw, mkTrace] at hx
      rw [hreps] at hx
      simp at hx
    | ok allFiles =>
      have hscan : ∀ y ∈ (scan_mem e allFiles.length allFiles st []).1.reps, 0 < y.2 := by
        intro y hy
        rcases scan_mem_reps e allFiles.length allFiles st [] y hy with h | h
        · rw [hreps] at h
          simp at h
        · rcases h with ⟨h1, h2⟩
          rw [h1]
          exact List.length_pos.mpr h2
      cases hsc : scan_mem e allFiles.length allFiles st [] with
      | mk st' r' =>
        rw [hsc] at hscan
        cases r' with
        | stop =>
          simp only [find_duplicates_mem, hw, hsc, mkTrace] at hx
          exact hscan x hx
        | die =>
          simp only [find_duplicates_mem, hw, hsc, mkTrace] at hx
          exact hscan x hx
        | ok fbs =>
          have hfl : fbs.length ≤ allFiles.length := by
            have := scan_mem_fbslen e allFiles.length allFiles st [] fbs (by rw [hsc])
            simpa using this
          cases hh : hash_phase_mem e allFiles.length (potentialDupes fbs) st' [] with
          | mk st'' r'' =>
            have hhash : ∀ y ∈ st''.reps, 0 < y.2 := by
              intro y hy
              rcases hash_phase_mem_reps e allFiles.length (potentialDupes fbs) st' [] y
                  (by rw [hh]; exact hy) with h | h
              · exact hscan y h
              · rcases h with ⟨h1, h2⟩
                rw [h1]
                have hfb : fbs ≠ [] := by
                  intro hfb
                  rw [hfb] at h2
                  exact h2 rfl
                have : 0 < fbs.length := List.length_pos.mpr hfb
                omega
            cases r'' with
            | ok dups =>
              simp only [find_duplicates_mem, hw, hsc, hh, mkTrace] at hx
              exact hhash x hx
            | stop =>
              simp only [find_duplicates_mem, hw, hsc, hh, mkTrace] at hx
              exact hhash x hx
            | die =>
              simp only [find_duplicates_mem, hw, hsc, hh, mkTrace] at hx
              exact hhash x hx

theorem walk_db_stop_polled (e : Env) (ds : List (List Path)) :
    ∀ st : St, (walk_db e ds st).2 = .stop →
      e.polled (walk_db e ds st).1.poll = true := by
  induction ds with
  | nil =>
    intro st h
    simp [walk_db] at h
  | cons d ds ih =>
    intro st
    by_cases hp : e.polled st.poll = true
    · intro _
      simp only [walk_db, hp, if_pos]
      exact polled_mono e hp (Nat.le_succ _)
    · simp only [walk_db, hp, Bool.false_eq_true, if_false]
      have hi := ih { st with poll := st.poll + 1 }
      cases hr : walk_db e ds { st with poll := st.poll + 1 } with
      | mk st' r =>
        rw [hr] at hi
        cases r with
        | ok v =>
          intro h
          simp at h
        | die =>
          intro h
          simp at h
        | stop =>
          intro _
          exact hi rfl

theorem scan_loop_db_reps (e : Env) (T : Nat) (l : List Path) :
    ∀ (st : St) (rows : List Row), st.scanned + l.length ≤ T →
      ∀ x ∈ (scan_loop_db e T l st rows).1.reps,
        x ∈ st.reps ∨ (x.2 = T ∧ 1 ≤ x.1 ∧ x.1 ≤ T ∧ l ≠ []) := by
  induction l with
  | nil =>
    intro st rows _ x hx
    exact Or.inl hx
  | cons p ps ih =>
    intro st rows hb x hx
    simp only [List.length_cons] at hb
    by_cases hp : e.polled st.poll = true
    · simp only [scan_loop_db, hp, if_pos] at hx
      exact Or.inl hx
    · simp only [scan_loop_db, hp, Bool.false_eq_true, if_false] at hx
      cases hsz : e.fs.size p with
      | some n =>
        simp only [hsz] at hx
        by_cases hrz : e.raisesAt st.prog = true
        · rw [if_pos hrz] at hx
          exact Or.inl hx
        · rw [if_neg hrz] at hx
          rcases ih _ _ (by show st.scanned + 1 + ps.length ≤ T; omega) x hx with h | h
          · have h' : x ∈ st.reps ++ [(st.scanned + 1, T)] := h
            rcases List.mem_append.mp h' with h1 | h1
            · exact Or.inl h1
            · have hxv : x = (st.scanned + 1, T) := by simpa using h1
              subst hxv
              exact Or.inr ⟨rfl, by omega, by omega, by simp⟩
          · exact Or.inr ⟨h.1, h.2.1, h.2.2.1, by simp⟩
      | none =>
        simp only [hsz] at hx
        by_cases hrz : e.raisesAt st.prog = true
        · rw [if_pos hrz] at hx
          exact Or.inl hx
        · rw [if_neg hrz] at hx
          rcases ih _ _ (by show st.scanned + 1 + ps.length ≤ T; omega) x hx with h | h
          · have h' : x ∈ st.reps ++ [(st.scanned + 1, T)] := h
            rcases List.mem_append.mp h' with h1 | h1
            · exact Or.inl h1
            · have hxv : x = (st.scanned + 1, T) := by simpa using h1
              subst hxv
              exact Or.inr ⟨rfl, by omega, by omega, by simp⟩
          · exact Or.inr ⟨h.1, h.2.1, h.2.2.1, by simp⟩

theorem scan_loop_db_rowslen (e : Env) (T : Nat) (l : List Path) :
    ∀ (st : St) (rows rows' : List Row) (t : Nat),
      ((scan_loop_db e T l st rows).2 = .done rows' t ∨
        (scan_loop_db e T l st rows).2 = .early rows' t) →
      rows'.length ≤ rows.length + l.length := by
  induction l with
  | nil =>
    intro st rows rows' t h
    rcases h with h | h
    · obtain ⟨hr, _⟩ := SScan.done.inj h
      subst hr
      simp
    · exact absurd h (by simp [scan_loop_db])
  | cons p ps ih =>
    intro st rows rows' t h
    by_cases hp : e.polled st.poll = true
    · simp only [scan_loop_db, hp, if_pos] at h
      rcases h with h | h
      · exact absurd h (by simp)
      · obtain ⟨hr, _⟩ := SScan.early.inj h
        subst hr
        simp
    · simp only [scan_loop_db, hp, Bool.false_eq_true, if_false] at h
      cases hsz : e.fs.size p with
      | some n =>
        simp only [hsz] at h
        by_cases hrz : e.raisesAt st.prog = true
        · rw [if_pos hrz] at h
          rcases h with h | h <;> exact absurd h (by simp)
        · rw [if_neg hrz] at h
          have := ih _ _ _ _ h
          simp only [List.length_append, List.length_singleton, List.length_cons,
            List.length_nil] at this ⊢
          omega
      | none =>
        simp only [hsz] at h
        by_cases hrz : e.raisesAt st.prog = true
        · rw [if_pos hrz] at h
          rcases h with h | h <;> exact absurd h (by simp)
        · rw [if_neg hrz] at h
          have := ih _ _ _ _ h
          simp only [List.length_cons]
          omega

theorem scan_loop_db_early_polled (e : Env) (T : Nat) (l : List Path) :
    ∀ (st : St) (rows rows' : List Row) (t : Nat),
      (scan_loop_db e T l st rows).2 = .early rows' t →
      e.polled (scan_loop_db e T l st rows).1.poll = true := by
  induction l with
  | nil =>
    intro st rows rows' t h
    exact absurd h (by simp [scan_loop_db])
  | cons p ps ih =>
    intro st rows rows' t
    by_cases hp : e.polled st.poll = true
    · intro _
      simp only [scan_loop_db, hp, if_pos]
      exact polled_mono e hp (Nat.le_succ _)
    · simp only [scan_loop_db, hp, Bool.false_eq_true, if_false]
      cases hsz : e.fs.size p with
      | some n =>
        simp only [hsz]
        by_cases hrz : e.raisesAt st.prog = true
        · rw [if_pos hrz]
          intro h
          exact absurd h (by simp)
        · rw [if_neg hrz]
          exact ih _ _ rows' t
      | none =>
        simp only [hsz]
        by_cases hrz : e.raisesAt st.prog = true
        · rw [if_pos hrz]
          intro h
          exact absurd h (by simp)
        · rw [if_neg hrz]
          exact ih _ _ rows' t

theorem scan_files_db_reps (e : Env) (st : St) :
    ∀ x ∈ (scan_files_db e st).1.reps, x ∈ st.reps ∨ (0 < x.2 ∧ x.1 ≤ x.2) := by
  intro x hx
  obtain ⟨w1, _, _⟩ :=
    walk_db_keep e e.fs.walk { st with out := st.out ++ [Line.collectLine] }
  cases hw : walk_db e e.fs.walk { st with out := st.out ++ [Line.collectLine] } with
  | mk st' r =>
    rw [hw] at w1
    have hreps : st'.reps = st.reps := w1
    cases r with
    | stop =>
      simp only [scan_files_db, hw] at hx
      rw [hreps] at hx
      exact Or.inl hx
    | die =>
      simp only [scan_files_db, hw] at hx
      rw [hreps] at hx
      exact Or.inl hx
    | ok allFiles =>
      have hloop : ∀ y ∈ (scan_loop_db e allFiles.length allFiles
          { st' with scanned := 0 } []).1.reps, y ∈ st.reps ∨ (0 < y.2 ∧ y.1 ≤ y.2) := by
        intro y hy
        rcases scan_loop_db_reps e allFiles.length allFiles { st' with scanned := 0 } []
            (by simp) y hy with h | h
        · have h' : y ∈ st'.reps := h
          rw [hreps] at h'
          exact Or.inl h'
        · refine Or.inr ⟨?_, ?_⟩
          · rw [h.1]
            exact List.length_pos.mpr h.2.2.2
          · rw [h.1]
            exact h.2.2.1
      cases hsc : scan_loop_db e allFiles.length allFiles { st' with scanned := 0 } [] with
      | mk st'' r' =>
        rw [hsc] at hloop
        cases r' with
        | done rows total =>
          simp only [scan_files_db, hw, hsc] at hx
          exact hloop x hx
        | early rows total =>
          simp only [scan_files_db, hw, hsc] at hx
          exact hloop x hx
        | die =>
          simp only [scan_files_db, hw, hsc] at hx
          exact hloop x hx

theorem scan_loop_db_done_t (e : Env) (T : Nat) (l : List Path) :
    ∀ (st : St) (rows rows' : List Row) (t : Nat),
      (scan_loop_db e T l st rows).2 = .done rows' t → t = T := by
  induction l with
  | nil =>
    intro st rows rows' t h
    exact (SScan.done.inj h).2.symm
  | cons p ps ih =>
    intro st rows rows' t h
    by_cases hp : e.polled st.poll = true
    · simp only [scan_loop_db, hp, if_pos] at h
      exact absurd h (by simp)
    · simp only [scan_loop_db, hp, Bool.false_eq_true, if_false] at h
      cases hsz : e.fs.size p with
      | some n =>
        simp only [hsz] at h
        by_cases hrz : e.raisesAt st.prog = true
        · rw [if_pos hrz] at h
          exact absurd h (by simp)
        · rw [if_neg hrz] at h
          exact ih _ _ _ _ h
      | none =>
        simp only [hsz] at h
        by_cases hrz : e.raisesAt st.prog = true
        · rw [if_pos hrz] at h
          exact absurd h (by simp)
        · rw [if_neg hrz] at h
          exact ih _ _ _ _ h

theorem scan_files_db_done_total (e : Env) (st : St) (rows : List Row) (t : Nat)
    (h : (scan_files_db e st).2 = .done rows t) : rows.length ≤ t := by
  cases hw : walk_db e e.fs.walk { st with out := st.out ++ [Line.collectLine] } with
  | mk st' r =>
    cases r with
    | stop =>
      simp only [scan_files_db, hw] at h
      exact absurd h (by simp)
    | die =>
      simp only [scan_files_db, hw] at h
      exact absurd h (by simp)
    | ok allFiles =>
      cases hsc : scan_loop_db e allFiles.length allFiles { st' with scanned := 0 } [] with
      | mk st'' r' =>
        cases r' with
        | early rows2 total =>
          simp only [scan_files_db, hw, hsc] at h
          exact absurd h (by simp)
        | die =>
          simp only [scan_files_db, hw, hsc] at h
          exact absurd h (by simp)
        | done rows2 total =>
          simp only [scan_files_db, hw, hsc] at h
          obtain ⟨h1, h2⟩ := SScan.done.inj h
          subst h1
          subst h2
          have hT := scan_loop_db_done_t e allFiles.length allFiles
            { st' with scanned := 0 } [] rows2 total (by rw [hsc])
          have := scan_loop_db_rowslen e allFiles.length allFiles
            { st' with scanned := 0 } [] rows2 total (by rw [hsc]; exact Or.inl rfl)
          rw [hT]
          simpa using this

theorem scan_files_db_early_polled (e : Env) (st : St) (rows : List Row) (t : Nat)
    (h : (scan_files_db e st).2 = .early rows t) :
    e.polled (scan_files_db e st).1.poll = true := by
  cases hw : walk_db e e.fs.walk { st with out := st.out ++ [Line.collectLine] } with
  | mk st' r =>
    cases r with
    | die =>
      simp only [scan_files_db, hw] at h
      exact absurd h (by simp)
    | stop =>
      have := walk_db_stop_polled e e.fs.walk
        { st with out := st.out ++ [Line.collectLine] }
      rw [hw] at this
      simp only [scan_files_db, hw]
      exact this rfl
    | ok allFiles =>
      cases hsc : scan_loop_db e allFiles.length allFiles { st' with scanned := 0 } [] with
      | mk st'' r' =>
        cases r' with
        | done rows2 total =>
          simp only [scan_files_db, hw, hsc] at h
          exact absurd h (by simp)
        | die =>
          simp only [scan_files_db, hw, hsc] at h
          exact absurd h (by simp)
        | early rows2 total =>
          have := scan_loop_db_early_polled e allFiles.length allFiles
            { st' with scanned := 0 } [] rows2 total
          rw [hsc] at this
          simp only [scan_files_db, hw, hsc]
          exact this rfl

theorem updateHash_length (rows : List Row) (p : Path) (c : Content) :
    (updateHash rows p c).length = rows.length := by
  simp [updateHash]

theorem updateHash_counts (rows : List Row) (p : Path) (c : Content) (s : Nat) :
    ((updateHash rows p c).filter (fun r => r.size = s)).length =
      (rows.filter (fun r => r.size = s)).length := by
  rw [updateHash, List.filter_map, List.length_map]
  congr 1
  apply List.filter_congr
  intro r _
  by_cases hp : r.path = p <;> simp [hp]

theorem hash_loop_db_reps (e : Env) (T gi gn fn : Nat) (l : List Path) :
    ∀ (i : Nat) (st : St) (rows : List Row), st.scanned + l.length ≤ T →
      ∀ x ∈ (hash_loop_db e T gi gn fn l i st rows).1.reps,
        x ∈ st.reps ∨ (x.2 = T ∧ 1 ≤ x.1 ∧ x.1 ≤ T ∧ l ≠ []) := by
  induction l with
  | nil =>
    intro i st rows _ x hx
    exact Or.inl hx
  | cons p ps ih =>
    intro i st rows hb x hx
    simp only [List.length_cons] at hb
    by_cases hp : e.polled st.poll = true
    · simp only [hash_loop_db, hp, if_pos] at hx
      exact Or.inl hx
    · simp only [hash_loop_db, hp, Bool.false_eq_true, if_false] at hx
      cases hc : e.fs.content p with
      | some c =>
        simp only [hc] at hx
        by_cases hrz : e.raisesAt st.prog = true
        · rw [if_pos hrz] at hx
          exact Or.inl hx
        · rw [if_neg hrz] at hx
          rcases ih _ _ _ (by show st.scanned + 1 + ps.length ≤ T; omega) x hx with h | h
          · have h' : x ∈ st.reps ++ [(st.scanned + 1, T)] := h
            rcases List.mem_append.mp h' with h1 | h1
            · exact Or.inl h1
            · have hxv : x = (st.scanned + 1, T) := by simpa using h1
              subst hxv
              exact Or.inr ⟨rfl, by omega, by omega, by simp⟩
          · exact Or.inr ⟨h.1, h.2.1, h.2.2.1, by simp⟩
      | none =>
        simp only [hc] at hx
        by_cases hrz : e.raisesAt st.prog = true
        · rw [if_pos hrz] at hx
          exact Or.inl hx
        · rw [if_neg hrz] at hx
          rcases ih _ _ _ (by show st.scanned + 1 + ps.length ≤ T; omega) x hx with h | h
          · have h' : x ∈ st.reps ++ [(st.scanned + 1, T)] := h
            rcases List.mem_append.mp h' with h1 | h1
            · exact Or.inl h1
            · have hxv : x = (st.scanned + 1, T) := by simpa using h1
              subst hxv
              exact Or.inr ⟨rfl, by omega, by omega, by simp⟩
          · exact Or.inr ⟨h.1, h.2.1, h.2.2.1, by simp⟩

theorem hash_loop_db_scanned (e : Env) (T gi gn fn : Nat) (l : List Path) :
    ∀ (i : Nat) (st : St) (rows : List Row),
      (hash_loop_db e T gi gn fn l i st rows).1.scanned ≤ st.scanned + l.length := by
  induction l with
  | nil =>
    intro i st rows
    simp [hash_loop_db]
  | cons p ps ih =>
    intro i st rows
    by_cases hp : e.polled st.poll = true
    · simp only [hash_loop_db, hp, if_pos]
      simp
    · simp only [hash_loop_db, hp, Bool.false_eq_true, if_false]
      cases hc : e.fs.content p with
      | some c =>
        simp only [hc]
        by_cases hrz : e.raisesAt st.prog = true
        · rw [if_pos hrz]
          simp only [List.length_cons]
          omega
        · rw [if_neg hrz]
          have := ih (i + 1)
            { st with poll := st.poll + 1,
                      out := st.out ++ [Line.hashFileLine i fn p],
                      hashed := st.hashed ++ [p],
                      scanned := st.scanned + 1, prog := st.prog + 1,
                      reps := st.reps ++ [(st.scanned + 1, T)] }
            (updateHash rows p c)
          simp only [List.length_cons] at this ⊢
          exact le_trans this (by omega)
      | none =>
        simp only [hc]
        by_cases hrz : e.raisesAt st.prog = true
        · rw [if_pos hrz]
          simp only [List.length_cons]
          omega
        · rw [if_neg hrz]
          have := ih (i + 1)
            { st with poll := st.poll + 1,
                      out := st.out ++ [Line.hashFileLine i fn p] ++ [Line.hashErr p],
                      hashed := st.hashed ++ [p],
                      scanned := st.scanned + 1, prog := st.prog + 1,
                      reps := st.reps ++ [(st.scanned + 1, T)] }
            rows
          simp only [List.length_cons] at this ⊢
          exact le_trans this (by omega)

theorem hash_loop_db_rows (e : Env) (T gi gn fn : Nat) (l : List Path) :
    ∀ (i : Nat) (st : St) (rows rows' : List Row),
      ((hash_loop_db e T gi gn fn l i st rows).2 = SHash.ok rows' ∨
        (hash_loop_db e T gi gn fn l i st rows).2 = SHash.stopped rows') →
      rows'.length = rows.length ∧
        ∀ s : Nat, (rows'.filter (fun r => r.size = s)).length =
          (rows.filter (fun r => r.size = s)).length := by
  induction l with
  | nil =>
    intro i st rows rows' h
    rcases h with h | h
    · have hv : rows = rows' := SHash.ok.inj h
      subst hv
      exact ⟨rfl, fun _ => rfl⟩
    · exact absurd h (by simp [hash_loop_db])
  | cons p ps ih =>
    intro i st rows rows' h
    by_cases hp : e.polled st.poll = true
    · simp only [hash_loop_db, hp, if_pos] at h
      rcases h with h | h
      · exact absurd h (by simp)
      · have hv : rows = rows' := SHash.stopped.inj h
        subst hv
        exact ⟨rfl, fun _ => rfl⟩
    · simp only [hash_loop_db, hp, Bool.false_eq_true, if_false] at h
      cases hc : e.fs.content p with
      | some c =>
        simp only [hc] at h
        by_cases hrz : e.raisesAt st.prog = true
        · rw [if_pos hrz] at h
          rcases h with h | h <;> exact absurd h (by simp)
        · rw [if_neg hrz] at h
          obtain ⟨h1, h2⟩ := ih _ _ _ _ h
          refine ⟨h1.trans (updateHash_length rows p c), fun s => ?_⟩
          exact (h2 s).trans (updateHash_counts rows p c s)
      | none =>
        simp only [hc] at h
        by_cases hrz : e.raisesAt st.prog = true
        · rw [if_pos hrz] at h
          rcases h with h | h <;> exact absurd h (by simp)
        · rw [if_neg hrz] at h
          exact ih _ _ _ _ h

theorem hash_groups_db_reps (e : Env) (T gn : Nat) (ss : List Nat) :
    ∀ (gi : Nat) (st : St) (rows : List Row),
      st.scanned + (ss.map (fun s => (rows.filter (fun r => r.size = s)).length)).sum ≤ T →
      ∀ x ∈ (hash_groups_db e T gn ss gi st rows).1.reps,
        x ∈ st.reps ∨ (x.2 = T ∧ 1 ≤ x.1 ∧ x.1 ≤ T ∧ rows ≠ []) := by
  induction ss with
  | nil =>
    intro gi st rows _ x hx
    exact Or.inl hx
  | cons s ss ih =>
    intro gi st rows hb x hx
    simp only [List.map_cons, List.sum_cons] at hb
    by_cases hp : e.polled st.poll = true
    · simp only [hash_groups_db, hp, if_pos] at hx
      exact Or.inl hx
    · simp only [hash_groups_db, hp, Bool.false_eq_true, if_false] at hx
      have hloop : ∀ y ∈ (hash_loop_db e T (gi + 1) gn
          ((rows.filter (fun r => r.size = s)).map (fun r => r.path)).length
          ((rows.filter (fun r => r.size = s)).map (fun r => r.path)) 1
          { st with poll := st.poll + 1,
                    out := st.out ++ [Line.groupLine (gi + 1) gn s] } rows).1.reps,
          y ∈ st.reps ∨ (y.2 = T ∧ 1 ≤ y.1 ∧ y.1 ≤ T ∧ rows ≠ []) := by
        intro y hy
        rcases hash_loop_db_reps e T (gi + 1) gn
            ((rows.filter (fun r => r.size = s)).map (fun r => r.path)).length
            ((rows.filter (fun r => r.size = s)).map (fun r => r.path)) 1
            { st with poll := st.poll + 1,
                      out := st.out ++ [Line.groupLine (gi + 1) gn s] } rows
            (by show st.scanned +
                  ((rows.filter (fun r => r.size = s)).map (fun r => r.path)).length ≤ T
                rw [List.length_map]
                omega) y hy with h | h
        · exact Or.inl h
        · refine Or.inr ⟨h.1, h.2.1, h.2.2.1, ?_⟩
          intro hrn
          apply h.2.2.2
          rw [hrn]
          simp
      cases hr : hash_loop_db e T (gi + 1) gn
          ((rows.filter (fun r => r.size = s)).map (fun r => r.path)).length
          ((rows.filter (fun r => r.size = s)).map (fun r => r.path)) 1
          { st with poll := st.poll + 1,
                    out := st.out ++ [Line.groupLine (gi + 1) gn s] } rows with
      | mk st2 r =>
        rw [hr] at hloop hx
        cases r with
        | stopped rows' => exact hloop x hx
        | die => exact hloop x hx
        | ok rows' =>
          have hsc2 : st2.scanned ≤ st.scanned + (rows.filter (fun r => r.size = s)).length := by
            have := hash_loop_db_scanned e T (gi + 1) gn
              ((rows.filter (fun r => r.size = s)).map (fun r => r.path)).length
              ((rows.filter (fun r => r.size = s)).map (fun r => r.path)) 1
              { st with poll := st.poll + 1,
                        out := st.out ++ [Line.groupLine (gi + 1) gn s] } rows
            rw [hr] at this
            simpa using this
          obtain ⟨hlen, hcnt⟩ := hash_loop_db_rows e T (gi + 1) gn
            ((rows.filter (fun r => r.size = s)).map (fun r => r.path)).length
            ((rows.filter (fun r => r.size = s)).map (fun r => r.path)) 1
            { st with poll := st.poll + 1,
                      out := st.out ++ [Line.groupLine (gi + 1) gn s] } rows rows'
            (by rw [hr]; exact Or.inl rfl)
          have hbn : st2.scanned +
              (ss.map (fun t => (rows'.filter (fun r => r.size = t)).length)).sum ≤ T := by
            have hms : (ss.map (fun t => (rows'.filter (fun r => r.size = t)).length)).sum =
                (ss.map (fun t => (rows.filter (fun r => r.size = t)).length)).sum := by
              congr 1
              apply List.map_congr_left
              intro t _
              exact hcnt t
            rw [hms]
            omega
          rcases ih (gi + 1) st2 rows' hbn x hx with h | h
          · exact hloop x h
          · refine Or.inr ⟨h.1, h.2.1, h.2.2.1, ?_⟩
            intro hrn
            apply h.2.2.2
            have : rows'.length = 0 := by
              rw [hlen, hrn]
              rfl
            exact List.eq_nil_of_length_eq_zero this

theorem hash_files_db_reps (e : Env) (T : Nat) (st : St) (rows : List Row)
    (hb : rows.length ≤ T) :
    ∀ x ∈ (hash_files_db e T st rows).1.reps,
      x ∈ st.reps ∨ (x.2 = T ∧ 1 ≤ x.1 ∧ x.1 ≤ T ∧ rows ≠ []) := by
  intro x hx
  have hgrp : ∀ y ∈ (hash_groups_db e T (candSizes rows).length (candSizes rows) 0
      { st with out := st.out ++ [Line.hashingStart], scanned := 0 } rows).1.reps,
      y ∈ st.reps ∨ (y.2 = T ∧ 1 ≤ y.1 ∧ y.1 ≤ T ∧ rows ≠ []) := by
    intro y hy
    rcases hash_groups_db_reps e T (candSizes rows).length (candSizes rows) 0
        { st with out := st.out ++ [Line.hashingStart], scanned := 0 } rows
        (by show 0 + ((candSizes rows).map
              (fun s => (rows.filter (fun r => r.size = s)).length)).sum ≤ T
            have := sum_filter_count_le (fun r : Row => r.size) _
              (candSizes_nodup rows) rows
            omega) y hy with h | h
    · exact Or.inl h
    · exact Or.inr h
  cases hr : hash_groups_db e T (candSizes rows).length (candSizes rows) 0
      { st with out := st.out ++ [Line.hashingStart], scanned := 0 } rows with
  | mk st' r =>
    rw [hr] at hgrp
    cases r with
    | ok rows' =>
      simp only [hash_files_db, hr] at hx
      exact hgrp x hx
    | stopped rows' =>
      simp only [hash_files_db, hr] at hx
      exact hgrp x hx
    | die =>
      simp only [hash_files_db, hr] at hx
      exact hgrp x hx

theorem after_hash_db_reps (e : Env) (st : St) (rows : List Row) :
    (after_hash_db e st rows).reps = st.reps := by
  rw [after_hash_db]
  by_cases hp : e.polled st.poll = true
  · rw [if_pos hp]
    rfl
  · rw [if_neg hp]
    rfl

theorem run_db_repOK (e : Env) :
    ∀ x ∈ (run_find_duplicates_db e).reps, 0 < x.2 ∧ x.1 ≤ x.2 := by
  have hscan0 : ∀ y ∈ (scan_files_db e st0).1.reps, 0 < y.2 ∧ y.1 ≤ y.2 := by
    intro y hy
    rcases scan_files_db_reps e st0 y hy with h | h
    · have h' : y ∈ ([] : List (Nat × Nat)) := h
      simp at h'
    · exact h
  intro x hx
  cases hf : scan_files_db e st0 with
  | mk st r =>
    rw [hf] at hscan0
    cases r with
    | die =>
      simp only [run_find_duplicates_db, hf, mkTrace] at hx
      exact hscan0 x hx
    | done rows total =>
      have hdt : rows.length ≤ total :=
        scan_files_db_done_total e st0 rows total (by rw [hf])
      by_cases hp : e.polled st.poll = true
      · simp only [run_find_duplicates_db, hf, hp, if_pos, mkTrace] at hx
        exact hscan0 x hx
      · simp only [run_find_duplicates_db, hf, hp, Bool.false_eq_true, if_false] at hx
        have hhash : ∀ y ∈ (hash_files_db e total { st with poll := st.poll + 1 }
            rows).1.reps, 0 < y.2 ∧ y.1 ≤ y.2 := by
          intro y hy
          rcases hash_files_db_reps e total { st with poll := st.poll + 1 } rows hdt
              y hy with h | h
          · exact hscan0 y h
          · refine ⟨?_, ?_⟩
            · rw [h.1]
              have : 0 < rows.length := List.length_pos.mpr h.2.2.2
              omega
            · rw [h.1]
              exact h.2.2.1
        cases hh : hash_files_db e total { st with poll := st.poll + 1 } rows with
        | mk st' r' =>
          rw [hh] at hhash
          cases r' with
          | ok rows' =>
            simp only [hh] at hx
            rw [after_hash_db_reps] at hx
            exact hhash x hx
          | stopped rows' =>
            simp only [hh] at hx
            rw [after_hash_db_reps] at hx
            exact hhash x hx
          | die =>
            simp only [hh, mkTrace] at hx
            exact hhash x hx
    | early rows total =>
      have hpo : e.polled st.poll = true := by
        have := scan_files_db_early_polled e st0 rows total (by rw [hf])
        rw [hf] at this
        exact this
      simp only [run_find_duplicates_db, hf, hpo, if_pos, mkTrace] at hx
      exact hscan0 x hx

/-! ## Last auxiliary facts for the claims -/

theorem fsErr_wf : fsErr.wf := by
  constructor
  · decide
  · intro p c h
    have hh : contErr p = some c := h
    by_cases ha : p = ['a']
    · subst ha
      simp [contErr] at hh
    · by_cases hd : p = ['d']
      · subst hd
        simp [contErr] at hh
      · show (if p = ['a'] then none
            else if p = ['d'] then some 1
            else (contErr p).map List.length) = some c.length
        rw [if_neg ha, if_neg hd, hh]
        rfl

theorem ramp_length (s len T : Nat) : (ramp s len T).length = len := by
  simp [ramp]

theorem mem_hashed_len (fs : FS) :
    (((potentialDupes (sizeFold fs fs.allFiles [])).map (fun g => g.2)).flatten).length =
      ((potentialDupes (sizeFold fs fs.allFiles [])).map (fun g => g.2.length)).sum := by
  rw [List.length_flatten, List.map_map]
  rfl

theorem groupsFiles_eq (fs : FS) (ss : List Nat) :
    ∀ rows : List Row,
      groupsFiles fs ss rows =
        (ss.map (fun s => (rows.filter (fun r => r.size = s)).map
          (fun r => r.path))).flatten := by
  induction ss with
  | nil =>
    intro rows
    simp [groupsFiles]
  | cons s ss ih =>
    intro rows
    simp only [groupsFiles, ih, List.map_cons, List.flatten_cons]
    congr 1
    apply congrArg
    apply List.map_congr_left
    intro t _
    exact hashRowsFold_filter_size_path fs _ rows t

/-! ## The claims -/

/-- C1, counterexample: in the tree `fsComma` the files `"a,b"` and `"c"` are
byte-identical, the staged scan completes, yet no member list of the delivered
map contains the path `"a,b"` — `GROUP_CONCAT` followed by `split(",")`
fragments it into `"a"` and `"b"`. -/
theorem C1_counterexample :
    fsComma.content pA = some [7] ∧ fsComma.content pB = some [7] ∧
    pA ∈ fsComma.allFiles ∧ pB ∈ fsComma.allFiles ∧
    (run_find_duplicates_db ⟨fsComma, none, none⟩).res =
      .completed [([7], [['a'], ['b'], ['c']])] ∧
    ∀ entry ∈ ([([7], [['a'], ['b'], ['c']])] : List (Content × List Path)),
      pA ∉ entry.2 := by decide

/-- C1 (amended with a comma-free proviso for the staged variant): in a
well-formed tree whose enumerated paths are comma-free, any two distinct
byte-identical readable files `A`, `B` end up in the member list of their
digest in the map delivered by a completed scan of either variant. -/
theorem C1_amended (fs : FS) (A B : Path) (c : Content)
    (hwf : fs.wf) (hnc : ∀ p ∈ fs.allFiles, ',' ∉ p)
    (hA : A ∈ fs.allFiles) (hB : B ∈ fs.allFiles) (hAB : A ≠ B)
    (hca : fs.content A = some c) (hcb : fs.content B = some c) :
    (find_duplicates_mem ⟨fs, none, none⟩).res = .completed (pureMemMap fs) ∧
    (run_find_duplicates_db ⟨fs, none, none⟩).res = .completed (pureDbMap fs) ∧
    (∃ ps, alookup (pureMemMap fs) c = some ps ∧ A ∈ ps ∧ B ∈ ps) ∧
    (∃ ps, alookup (pureDbMap fs) c = some ps ∧ A ∈ ps ∧ B ∈ ps) := by
  have hmA : A ∈ dupPaths fs c := (mem_dupPaths fs c A).mpr ⟨hA, hca⟩
  have hmB : B ∈ dupPaths fs c := (mem_dupPaths fs c B).mpr ⟨hB, hcb⟩
  have h2 : 2 ≤ (dupPaths fs c).length := two_le_length_of_mem_ne hmA hmB hAB
  have hcanon : canonLookup fs c = some (dupPaths fs c) := by
    rw [canonLookup, if_pos h2]
  have hne : dupPaths fs c ≠ [] := by
    intro h
    rw [h] at h2
    simp at h2
  have hnc' : ∀ p ∈ dupPaths fs c, ',' ∉ p :=
    fun p hp => hnc p ((mem_dupPaths fs c p).mp hp).1
  refine ⟨by rw [find_duplicates_mem_pure], by rw [run_find_duplicates_db_pure], ?_, ?_⟩
  · rw [alookup_pureMemMap fs hwf, hcanon]
    exact ⟨dupPaths fs c, rfl, hmA, hmB⟩
  · rw [alookup_pureDbMap fs hwf, hcanon, Option.map_some']
    exact ⟨dupPaths fs c, by rw [splitComma_joinComma _ hne hnc'], hmA, hmB⟩

/-- C1, witness: the amended theorem at the two-file duplicate tree `fsDup`. -/
theorem C1_amended_witness :
    (∃ ps, alookup (pureMemMap fsDup) [7] = some ps ∧ ['a'] ∈ ps ∧ ['b'] ∈ ps) ∧
    (∃ ps, alookup (pureDbMap fsDup) [7] = some ps ∧ ['a'] ∈ ps ∧ ['b'] ∈ ps) := by
  have h := C1_amended fsDup ['a'] ['b'] [7] fsDup_wf (by decide) (by decide) (by decide)
    (by decide) (by decide) (by decide)
  exact ⟨h.2.2.1, h.2.2.2⟩

/-- C2, counterexample: on the comma tree the two variants complete with
different maps — the staged member list is fragmented. -/
theorem C2_counterexample :
    (find_duplicates_mem ⟨fsComma, none, none⟩).res = .completed [([7], [pA, pB])] ∧
    (run_find_duplicates_db ⟨fsComma, none, none⟩).res =
      .completed [([7], [['a'], ['b'], ['c']])] ∧
    pA ∈ [pA, pB] ∧ pA ∉ ([['a'], ['b'], ['c']] : List Path) ∧
    ¬ ([([7], [pA, pB])] : List (Content × List Path)) =
      [([7], [['a'], ['b'], ['c']])] := by decide

/-- C2 (amended with a comma-free proviso): on a well-formed comma-free tree
both variants complete, and the delivered maps agree as lookup functions
(digest by digest, same member list). -/
theorem C2_amended (fs : FS) (hwf : fs.wf) (hnc : ∀ p ∈ fs.allFiles, ',' ∉ p) :
    (find_duplicates_mem ⟨fs, none, none⟩).res = .completed (pureMemMap fs) ∧
    (run_find_duplicates_db ⟨fs, none, none⟩).res = .completed (pureDbMap fs) ∧
    ∀ c : Content, alookup (pureMemMap fs) c = alookup (pureDbMap fs) c := by
  refine ⟨by rw [find_duplicates_mem_pure], by rw [run_find_duplicates_db_pure], ?_⟩
  intro c
  rw [alookup_pureMemMap fs hwf, alookup_pureDbMap fs hwf]
  cases hcl : canonLookup fs c with
  | none => rfl
  | some ps =>
    obtain ⟨hdp, h2⟩ := canonLookup_some fs c ps hcl
    rw [Option.map_some']
    congr 1
    have hne : ps ≠ [] := by
      intro h
      rw [h] at h2
      simp at h2
    have hnc' : ∀ p ∈ ps, ',' ∉ p := by
      intro p hp
      rw [hdp] at hp
      exact hnc p ((mem_dupPaths fs c p).mp hp).1
    exact (splitComma_joinComma ps hne hnc').symm

/-- C2, witness: the amended theorem at `fsDup`. -/
theorem C2_amended_witness :
    (find_duplicates_mem ⟨fsDup, none, none⟩).res = .completed (pureMemMap fsDup) ∧
    (run_find_duplicates_db ⟨fsDup, none, none⟩).res = .completed (pureDbMap fsDup) ∧
    alookup (pureMemMap fsDup) [7] = alookup (pureDbMap fsDup) [7] := by
  have h := C2_amended fsDup fsDup_wf (by decide)
  exact ⟨h.1, h.2.1, h.2.2 [7]⟩

/-- C3: in any run of either variant (any tree, any fault timing), if the
cancellation flag was observed set — the run used a poll index at or past the
flag-set point `s` — the session ends `Cancelled` and the done callback is not
invoked at all. -/
theorem C3 (e : Env) (s : Nat) (hst : e.stopAt = some s) :
    (s < (find_duplicates_mem e).polls →
      (find_duplicates_mem e).res = .cancelledR ∧
      ((find_duplicates_mem e).res).doneMap = none) ∧
    (s < (run_find_duplicates_db e).polls →
      (run_find_duplicates_db e).res = .cancelledR ∧
      ((run_find_duplicates_db e).res).doneMap = none) := by
  constructor
  · intro h
    have hr := find_duplicates_mem_cancel e s hst h
    exact ⟨hr, by rw [hr]; rfl⟩
  · intro h
    have hr := run_db_cancel e s hst h
    exact ⟨hr, by rw [hr]; rfl⟩

/-- C3, witness: the one-file tree with the flag set before the first poll. -/
theorem C3_witness :
    (⟨fsOne, some 0, none⟩ : Env).stopAt = some 0 ∧
    0 < (find_duplicates_mem ⟨fsOne, some 0, none⟩).polls ∧
    (find_duplicates_mem ⟨fsOne, some 0, none⟩).res = .cancelledR ∧
    0 < (run_find_duplicates_db ⟨fsOne, some 0, none⟩).polls ∧
    (run_find_duplicates_db ⟨fsOne, some 0, none⟩).res = .cancelledR := by
  refine ⟨rfl, by decide, ?_, by decide, ?_⟩
  · exact ((C3 ⟨fsOne, some 0, none⟩ 0 rfl).1 (by decide)).1
  · exact ((C3 ⟨fsOne, some 0, none⟩ 0 rfl).2 (by decide)).1

/-- C4, counterexample: on the comma tree the staged map's member at position 0
is `"a"`, which is not the first path whose digest equals the key — it is not
even a file of the tree (the anchor `"a,b"` was fragmented). -/
theorem C4_counterexample :
    (run_find_duplicates_db ⟨fsComma, none, none⟩).res =
      .completed [([7], [['a'], ['b'], ['c']])] ∧
    ([['a'], ['b'], ['c']] : List Path).head? = some ['a'] ∧
    (dupPaths fsComma [7]).head? = some pA ∧
    pA ≠ ['a'] ∧
    fsComma.content ['a'] ≠ some [7] := by decide

/-- C4 (amended with a comma-free proviso for the staged variant): in a
completed scan of a well-formed comma-free tree, every delivered member list
has length ≥ 2 and equals the enumeration-ordered list of files carrying that
digest — whose head is the anchor, the first file encountered with the digest,
with later collisions appended in discovery order. -/
theorem C4_amended (fs : FS) (hwf : fs.wf) (hnc : ∀ p ∈ fs.allFiles, ',' ∉ p) :
    (∀ c ps, alookup (pureMemMap fs) c = some ps →
      2 ≤ ps.length ∧ ps = dupPaths fs c) ∧
    (∀ c ps, alookup (pureDbMap fs) c = some ps →
      2 ≤ ps.length ∧ ps = dupPaths fs c) := by
  constructor
  · intro c ps h
    rw [alookup_pureMemMap fs hwf] at h
    obtain ⟨hdp, h2⟩ := canonLookup_some fs c ps h
    exact ⟨h2, hdp⟩
  · intro c ps h
    rw [alookup_pureDbMap fs hwf] at h
    cases hcl : canonLookup fs c with
    | none =>
      rw [hcl] at h
      exact absurd h (by simp)
    | some qs =>
      rw [hcl, Option.map_some'] at h
      obtain ⟨hdq, h2⟩ := canonLookup_some fs c qs hcl
      have hne : qs ≠ [] := by
        intro hq
        rw [hq] at h2
        simp at h2
      have hnc' : ∀ p ∈ qs, ',' ∉ p := by
        intro p hp
        rw [hdq] at hp
        exact hnc p ((mem_dupPaths fs c p).mp hp).1
      have hps : ps = qs := by
        have := Option.some.inj h
        rw [← this, splitComma_joinComma qs hne hnc']
      rw [hps]
      exact ⟨h2, hdq⟩

/-- C4, witness: the amended theorem at `fsDup`, digest `[7]`. -/
theorem C4_amended_witness :
    alookup (pureMemMap fsDup) [7] = some [['a'], ['b']] ∧
    2 ≤ ([['a'], ['b']] : List Path).length ∧
    ([['a'], ['b']] : List Path) = dupPaths fsDup [7] := by
  have h := (C4_amended fsDup fsDup_wf (by decide)).1 [7] [['a'], ['b']] (by decide)
  exact ⟨by decide, h.1, h.2⟩

/-- C5, counterexample: a completed in-memory run over the two-duplicate tree
reports `(3, 2)` and `(4, 2)` — Phase 2 keeps incrementing the shared counter
past the Phase-1 total, so `scanned ≤ total` fails. -/
theorem C5_counterexample :
    (find_duplicates_mem ⟨fsDup, none, none⟩).reps = [(1, 2), (2, 2), (3, 2), (4, 2)] ∧
    (3, 2) ∈ (find_duplicates_mem ⟨fsDup, none, none⟩).reps ∧
    ¬ ((3 : Nat) ≤ 2) := by decide

/-- C5 (amended): the staged variant satisfies `scanned ≤ total` in every
report of every run (any flag timing, any fault); the in-memory variant
guarantees only `scanned ≤ total + h` where `h` is the number of files hashed
in Phase 2 (shown for complete runs, where the bound is tight). -/
theorem C5_amended (e : Env) (fs : FS) :
    (∀ x ∈ (run_find_duplicates_db e).reps, x.1 ≤ x.2) ∧
    (∀ x ∈ (find_duplicates_mem ⟨fs, none, none⟩).reps,
      x.1 ≤ x.2 + (find_duplicates_mem ⟨fs, none, none⟩).hashed.length) := by
  constructor
  · intro x hx
    exact (run_db_repOK e x hx).2
  · intro x hx
    rw [find_duplicates_mem_pure] at hx ⊢
    obtain ⟨h1, h2, h3⟩ := mem_ramp hx
    rw [h1, mem_hashed_len]
    omega

/-- C6, counterexample: the staged run over the two-duplicate tree reports
`(1,2), (2,2), (1,2), (2,2)` — `scanned` drops from 2 back to 1 when Phase 2
resets its counter — and the completed in-memory run's final report is
`(4, 2)`, not `scanned == total`. -/
theorem C6_counterexample :
    (run_find_duplicates_db ⟨fsDup, none, none⟩).res = .completed [([7], [['a'], ['b']])] ∧
    (run_find_duplicates_db ⟨fsDup, none, none⟩).reps = [(1, 2), (2, 2), (1, 2), (2, 2)] ∧
    ¬ ((2 : Nat) ≤ 1) ∧
    (find_duplicates_mem ⟨fsDup, none, none⟩).res = .completed [([7], [['a'], ['b']])] ∧
    (find_duplicates_mem ⟨fsDup, none, none⟩).reps.getLast? = some (4, 2) ∧
    ¬ ((4 : Nat) = 2) := by decide

/-- C6 (amended): over a complete fault-free session, the in-memory `scanned`
sequence is the single ramp `1 … total + h` (non-decreasing across the whole
session but ending at `total + h`, not `total`), and the staged sequence is
two ramps `1 … total` and `1 … h` — non-decreasing within each phase, with the
reset in between. -/
theorem C6_amended (fs : FS) :
    ((find_duplicates_mem ⟨fs, none, none⟩).reps =
      ramp 1 (fs.allFiles.length + (find_duplicates_mem ⟨fs, none, none⟩).hashed.length)
        fs.allFiles.length) ∧
    List.Chain' (fun a b : Nat × Nat => a.1 ≤ b.1)
      (find_duplicates_mem ⟨fs, none, none⟩).reps ∧
    (0 < fs.allFiles.length + (find_duplicates_mem ⟨fs, none, none⟩).hashed.length →
      (find_duplicates_mem ⟨fs, none, none⟩).reps.getLast? =
        some (fs.allFiles.length + (find_duplicates_mem ⟨fs, none, none⟩).hashed.length,
          fs.allFiles.length)) ∧
    ((run_find_duplicates_db ⟨fs, none, none⟩).reps =
      ramp 1 fs.allFiles.length fs.allFiles.length ++
        ramp 1 (run_find_duplicates_db ⟨fs, none, none⟩).hashed.length
          fs.allFiles.length) ∧
    List.Chain' (fun a b : Nat × Nat => a.1 ≤ b.1)
      (ramp 1 fs.allFiles.length fs.allFiles.length) ∧
    List.Chain' (fun a b : Nat × Nat => a.1 ≤ b.1)
      (ramp 1 (run_find_duplicates_db ⟨fs, none, none⟩).hashed.length
        fs.allFiles.length) := by
  have hmem : (find_duplicates_mem ⟨fs, none, none⟩).reps =
      ramp 1 (fs.allFiles.length + (find_duplicates_mem ⟨fs, none, none⟩).hashed.length)
        fs.allFiles.length := by
    rw [find_duplicates_mem_pure]
    rw [show (⟨scanOuts fs fs.allFiles ++
         groupsOutsMem fs (potentialDupes (sizeFold fs fs.allFiles [])),
       ramp 1
         (fs.allFiles.length +
           ((potentialDupes (sizeFold fs fs.allFiles [])).map (fun g => g.2.length)).sum)
         fs.allFiles.length,
       fs.walk.length + fs.allFiles.length +
         (potentialDupes (sizeFold fs fs.allFiles [])).length +
         ((potentialDupes (sizeFold fs fs.allFiles [])).map (fun g => g.2.length)).sum,
       fs.allFiles.length +
         ((potentialDupes (sizeFold fs fs.allFiles [])).map (fun g => g.2.length)).sum,
       ((potentialDupes (sizeFold fs fs.allFiles [])).map (fun g => g.2)).flatten,
       .completed (pureMemMap fs)⟩ : Trace).hashed =
      ((potentialDupes (sizeFold fs fs.allFiles [])).map (fun g => g.2)).flatten from rfl]
    rw [mem_hashed_len]
  refine ⟨hmem, ?_, ?_, ?_, ramp_chain _ _ _, ramp_chain _ _ _⟩
  · rw [hmem]
    exact ramp_chain _ _ _
  · intro hpos
    rw [hmem, ramp_getLast _ _ _ hpos]
    congr 2
    omega
  · rw [run_find_duplicates_db_pure]

/-- C7, counterexample: in the fragment tree, reading `"b"` raises and `"b"`
is excluded from hashing, yet the comma in `"x,b"` makes the path `"b"` appear
in the staged variant's delivered duplicate set — the failed item is not fully
excluded from the result. -/
theorem C7_counterexample :
    fsFrag.content pb = none ∧ pb ∈ fsFrag.allFiles ∧
    (run_find_duplicates_db ⟨fsFrag, none, none⟩).res =
      .completed [([7], [['x'], ['b'], ['c']])] ∧
    pb ∈ ([['x'], ['b'], ['c']] : List Path) := by decide

/-- C7 (amended with a comma-free proviso for the staged member lists): in a
well-formed comma-free tree, each per-item failure is absorbed — the scan
still completes in both variants; a size failure logs `[Error]` in both
variants and keeps the path out of every size group and of the table; a hash
failure logs `[Error]` in whichever variant hashed the path, and the path is
in no delivered member list of either variant. -/
theorem C7_amended (fs : FS) (p : Path) (hwf : fs.wf)
    (hnc : ∀ q ∈ fs.allFiles, ',' ∉ q) :
    (find_duplicates_mem ⟨fs, none, none⟩).res = .completed (pureMemMap fs) ∧
    (run_find_duplicates_db ⟨fs, none, none⟩).res = .completed (pureDbMap fs) ∧
    (p ∈ fs.allFiles → fs.size p = none →
      Line.sizeErr p ∈ (find_duplicates_mem ⟨fs, none, none⟩).out ∧
      Line.sizeErr p ∈ (run_find_duplicates_db ⟨fs, none, none⟩).out ∧
      (∀ n ps, alookup (sizeFold fs fs.allFiles []) n = some ps → p ∉ ps) ∧
      (∀ r ∈ scanRows fs, r.path ≠ p)) ∧
    (fs.content p = none →
      (p ∈ (find_duplicates_mem ⟨fs, none, none⟩).hashed →
        Line.hashErr p ∈ (find_duplicates_mem ⟨fs, none, none⟩).out) ∧
      (p ∈ (run_find_duplicates_db ⟨fs, none, none⟩).hashed →
        Line.hashErr p ∈ (run_find_duplicates_db ⟨fs, none, none⟩).out) ∧
      (∀ c ps, alookup (pureMemMap fs) c = some ps → p ∉ ps) ∧
      (∀ c ps, alookup (pureDbMap fs) c = some ps → p ∉ ps)) := by
  refine ⟨by rw [find_duplicates_mem_pure], by rw [run_find_duplicates_db_pure],
    ?_, ?_⟩
  · intro hp hs
    refine ⟨?_, ?_, ?_, ?_⟩
    · rw [find_duplicates_mem_pure]
      exact List.mem_append_left _ (mem_scanOuts fs fs.allFiles p hp hs)
    · rw [run_find_duplicates_db_pure]
      exact List.mem_append_left _ (List.mem_append_left _ (List.mem_append_left _
        (List.mem_append_left _
          (List.mem_append_right _ (mem_sizeErrOuts fs fs.allFiles p hp hs)))))
    · exact fun n ps h => sizeFold_not_mem fs p hs n ps h
    · intro r hr heq
      rw [scanRows_eq] at hr
      obtain ⟨_, hsz, _⟩ := (mem_mkRows fs fs.allFiles r).mp hr
      rw [heq, hs] at hsz
      exact absurd hsz (by simp)
  · intro hc
    refine ⟨?_, ?_, ?_, ?_⟩
    · intro hh
      rw [find_duplicates_mem_pure] at hh ⊢
      have hh' : p ∈ ((potentialDupes (sizeFold fs fs.allFiles [])).map
          (fun g => g.2)).flatten := hh
      rw [List.mem_flatten] at hh'
      obtain ⟨l, hl, hpl⟩ := hh'
      obtain ⟨g, hg, hgl⟩ := List.mem_map.mp hl
      refine List.mem_append_right _ (mem_groupsOutsMem fs _ p hc ⟨g, hg, ?_⟩)
      rw [hgl]
      exact hpl
    · intro hh
      rw [run_find_duplicates_db_pure] at hh ⊢
      have hh' : p ∈ groupsFiles fs (candSizes (scanRows fs)) (scanRows fs) := hh
      exact List.mem_append_left _ (List.mem_append_right _
        (mem_groupsOutsDb fs _ _ p hc 0 _ hh'))
    · intro c ps h hmem
      rw [alookup_pureMemMap fs hwf] at h
      obtain ⟨hdp, _⟩ := canonLookup_some fs c ps h
      rw [hdp] at hmem
      have := ((mem_dupPaths fs c p).mp hmem).2
      rw [hc] at this
      exact absurd this (by simp)
    · intro c ps h hmem
      rw [alookup_pureDbMap fs hwf] at h
      cases hcl : canonLookup fs c with
      | none =>
        rw [hcl] at h
        exact absurd h (by simp)
      | some qs =>
        rw [hcl, Option.map_some'] at h
        obtain ⟨hdq, h2⟩ := canonLookup_some fs c qs hcl
        have hne : qs ≠ [] := by
          intro hq
          rw [hq] at h2
          simp at h2
        have hnc' : ∀ q ∈ qs, ',' ∉ q := by
          intro q hq
          rw [hdq] at hq
          exact hnc q ((mem_dupPaths fs c q).mp hq).1
        have hps : ps = qs := by
          have := Option.some.inj h
          rw [← this, splitComma_joinComma qs hne hnc']
        rw [hps, hdq] at hmem
        have := ((mem_dupPaths fs c p).mp hmem).2
        rw [hc] at this
        exact absurd this (by simp)

/-- C7, witness: the comma-free error tree — the size failure on `"a"` logs an
error, the hash failure on `"d"` logs an error, and `"d"` is in no delivered
member list. -/
theorem C7_amended_witness :
    Line.sizeErr ['a'] ∈ (find_duplicates_mem ⟨fsErr, none, none⟩).out ∧
    Line.hashErr ['d'] ∈ (run_find_duplicates_db ⟨fsErr, none, none⟩).out ∧
    (∀ c ps, alookup (pureMemMap fsErr) c = some ps → ['d'] ∉ ps) := by
  have h1 := C7_amended fsErr ['a'] fsErr_wf (by decide)
  have h2 := C7_amended fsErr ['d'] fsErr_wf (by decide)
  refine ⟨(h1.2.2.1 (by decide) (by decide)).1, ?_, ?_⟩
  · exact (h2.2.2.2 (by decide)).2.1 (by decide)
  · exact (h2.2.2.2 (by decide)).2.2.1

/-- C8: the size pre-filter is exact — every member of an in-memory candidate
group carries the group's size, and every member of a staged candidate group
for size `s` has size `s`, so files of differing sizes are never grouped or
digest-compared; a file of unique size is never hashed in either variant; and
in a complete run the number of progress increments is exactly
`total + hashed` in both variants, so a never-hashed file contributes exactly
its one Phase-1 increment. -/
theorem C8 (fs : FS) :
    (∀ g ∈ potentialDupes (sizeFold fs fs.allFiles []),
      ∀ q ∈ g.2, fs.size q = some g.1) ∧
    (∀ (s : Nat) (q : Path),
      q ∈ ((scanRows fs).filter (fun r => r.size = s)).map (fun r => r.path) →
      fs.size q = some s) ∧
    (∀ p n, fs.size p = some n → (sizedAs fs n).length = 1 →
      p ∉ (find_duplicates_mem ⟨fs, none, none⟩).hashed ∧
      p ∉ (run_find_duplicates_db ⟨fs, none, none⟩).hashed) ∧
    ((find_duplicates_mem ⟨fs, none, none⟩).reps.length =
      fs.allFiles.length + (find_duplicates_mem ⟨fs, none, none⟩).hashed.length) ∧
    ((run_find_duplicates_db ⟨fs, none, none⟩).reps.length =
      fs.allFiles.length + (run_find_duplicates_db ⟨fs, none, none⟩).hashed.length) := by
  have hgrp : ∀ g ∈ potentialDupes (sizeFold fs fs.allFiles []),
      ∀ q ∈ g.2, fs.size q = some g.1 := by
    intro g hg q hq
    obtain ⟨n, gl⟩ := g
    obtain ⟨hgl, _⟩ := mem_potentialDupes fs n gl hg
    rw [hgl] at hq
    have := List.of_mem_filter hq
    exact of_decide_eq_true this
  have hdb : ∀ (s : Nat) (q : Path),
      q ∈ ((scanRows fs).filter (fun r => r.size = s)).map (fun r => r.path) →
      fs.size q = some s := by
    intro s q hq
    obtain ⟨r, hr, hrq⟩ := List.mem_map.mp hq
    obtain ⟨hrm, hrs⟩ := List.mem_filter.mp hr
    rw [scanRows_eq] at hrm
    obtain ⟨_, hsz, _⟩ := (mem_mkRows fs fs.allFiles r).mp hrm
    rw [← hrq, hsz, of_decide_eq_true hrs]
  refine ⟨hgrp, hdb, ?_, ?_, ?_⟩
  · intro p n hp h1
    constructor
    · intro hh
      rw [find_duplicates_mem_pure] at hh
      have hh' : p ∈ ((potentialDupes (sizeFold fs fs.allFiles [])).map
          (fun g => g.2)).flatten := hh
      rw [List.mem_flatten] at hh'
      obtain ⟨l, hl, hpl⟩ := hh'
      obtain ⟨g, hg, hgl⟩ := List.mem_map.mp hl
      obtain ⟨m, gl⟩ := g
      obtain ⟨hgl2, hlen⟩ := mem_potentialDupes fs m gl hg
      rw [← hgl] at hpl
      have hsz := hgrp (m, gl) hg p hpl
      rw [hp] at hsz
      have hmn : n = m := Option.some.inj hsz
      rw [hgl2] at hlen
      rw [← hmn] at hlen
      omega
    · intro hh
      rw [run_find_duplicates_db_pure] at hh
      have hh' : p ∈ groupsFiles fs (candSizes (scanRows fs)) (scanRows fs) := hh
      rw [groupsFiles_eq, List.mem_flatten] at hh'
      obtain ⟨l, hl, hpl⟩ := hh'
      obtain ⟨s, hs, hsl⟩ := List.mem_map.mp hl
      rw [← hsl] at hpl
      have hsz := hdb s p hpl
      rw [hp] at hsz
      have hns : n = s := Option.some.inj hsz
      have := (mem_candSizes (scanRows fs) s).mp hs
      rw [scanRows_filter_size_len] at this
      rw [← hns] at this
      omega
  · rw [find_duplicates_mem_pure]
    show (ramp 1 (fs.allFiles.length +
        ((potentialDupes (sizeFold fs fs.allFiles [])).map (fun g => g.2.length)).sum)
        fs.allFiles.length).length =
      fs.allFiles.length + (((potentialDupes (sizeFold fs fs.allFiles [])).map
        (fun g => g.2)).flatten).length
    rw [ramp_length, mem_hashed_len]
  · rw [run_find_duplicates_db_pure]
    show (ramp 1 fs.allFiles.length fs.allFiles.length ++
        ramp 1 (groupsFiles fs (candSizes (scanRows fs)) (scanRows fs)).length
          fs.allFiles.length).length =
      fs.allFiles.length + (groupsFiles fs (candSizes (scanRows fs)) (scanRows fs)).length
    rw [List.length_append, ramp_length, ramp_length]

/-- C8, witness: the one-file tree — the single file has unique size, is never
hashed by either variant, and the complete in-memory run makes exactly
`total + 0` progress increments. -/
theorem C8_witness :
    fsOne.size ['a'] = some 1 ∧ (sizedAs fsOne 1).length = 1 ∧
    ['a'] ∉ (find_duplicates_mem ⟨fsOne, none, none⟩).hashed ∧
    ['a'] ∉ (run_find_duplicates_db ⟨fsOne, none, none⟩).hashed ∧
    (find_duplicates_mem ⟨fsOne, none, none⟩).reps.length =
      fsOne.allFiles.length + (find_duplicates_mem ⟨fsOne, none, none⟩).hashed.length := by
  have h := C8 fsOne
  have h3 := h.2.2.1 ['a'] 1 (by decide) (by decide)
  exact ⟨by decide, by decide, h3.1, h3.2, h.2.2.2.1⟩

/-- C9, counterexample: with the first `update_progress` call raising, the
in-memory worker dies — the exception escapes the thread, no `Failed` state,
and the done callback is never invoked (not even with an empty map). -/
theorem C9_counterexample :
    0 < (find_duplicates_mem ⟨fsOne, none, some 0⟩).progs ∧
    (find_duplicates_mem ⟨fsOne, none, some 0⟩).res = .died ∧
    ((find_duplicates_mem ⟨fsOne, none, some 0⟩).res).doneMap = none ∧
    ¬ (find_duplicates_mem ⟨fsOne, none, some 0⟩).res = .failed := by decide

/-- C9 (amended): only the staged variant has a session-level handler — when
the injected fault is reached it ends `Failed`, calls the done callback with
the empty map and its last output line is `[Error] Unexpected error`; the
in-memory variant's worker thread dies with no callback at all. -/
theorem C9_amended (e : Env) (k : Nat) (hfa : e.faultAt = some k) :
    (k < (run_find_duplicates_db e).progs →
      (run_find_duplicates_db e).res = .failed ∧
      ((run_find_duplicates_db e).res).doneMap = some [] ∧
      (run_find_duplicates_db e).out.getLast? = some Line.unexpectedErr) ∧
    (k < (find_duplicates_mem e).progs →
      (find_duplicates_mem e).res = .died ∧
      ((find_duplicates_mem e).res).doneMap = none) := by
  constructor
  · intro h
    obtain ⟨h1, h2⟩ := run_db_fault e k hfa h
    exact ⟨h1, by rw [h1]; rfl, h2⟩
  · intro h
    have h1 := find_duplicates_mem_fault e k hfa h
    exact ⟨h1, by rw [h1]; rfl⟩

/-- C9, witness: the one-file tree with the first progress call raising. -/
theorem C9_amended_witness :
    (⟨fsOne, none, some 0⟩ : Env).faultAt = some 0 ∧
    0 < (run_find_duplicates_db ⟨fsOne, none, some 0⟩).progs ∧
    (run_find_duplicates_db ⟨fsOne, none, some 0⟩).res = .failed ∧
    (run_find_duplicates_db ⟨fsOne, none, some 0⟩).out.getLast? =
      some Line.unexpectedErr ∧
    0 < (find_duplicates_mem ⟨fsOne, none, some 0⟩).progs ∧
    (find_duplicates_mem ⟨fsOne, none, some 0⟩).res = .died := by
  have h := C9_amended ⟨fsOne, none, some 0⟩ 0 rfl
  exact ⟨rfl, by decide, (h.1 (by decide)).1, (h.1 (by decide)).2.2, by decide,
    (h.2 (by decide)).1⟩

/-- C10: in every run of either variant — any tree, any cancellation timing,
any injected fault — every progress report carries a positive total, so the
consumer's percentage `scanned * 100 / total` never divides by zero. -/
theorem C10 (e : Env) :
    (∀ x ∈ (find_duplicates_mem e).reps, 0 < x.2) ∧
    (∀ x ∈ (run_find_duplicates_db e).reps, 0 < x.2) :=
  ⟨find_duplicates_mem_repsnd e, fun x hx => (run_db_repOK e x hx).1⟩

end RemDup
